import Mathlib

/-!
# Verification of the `xs` copy-on-write string library (`src/xs.c`)

This file is a shallow embedding of the core string type of `xs.c` and of its
operations, together with theorems settling the specification claims.

Modelling conventions:

* A byte is a `Nat` (byte values are `< 256` wherever well-formedness matters).
* The heap is a list of allocation slots; slot `i` holds `some buffer` while the
  allocation is live and `none` after `free`.  A pointer value is `8 * (i + 1)`
  for slot `i` (allocations are nonnull and 8-aligned, as real `malloc` results
  are); the pointer value `0` is `NULL`.
* Freshly allocated memory is uninitialized in C.  The model fills fresh bytes
  with the heap's `junk` byte; a property that must hold for every execution
  must hold for every choice of `junk`, and a single choice of `junk` suffices
  to exhibit behaviour that the C standard leaves indeterminate.
* A reference count is stored in the first 4 bytes of a "large" allocation,
  little-endian, read back as a signed 32-bit `int` (`intOfU32`), exactly as
  `xs.c` stores an `int` at the start of the block.
* `xs` is a 16-byte union in C.  The model keeps the fields of both views and
  reproduces the overlap of the two layouts at the places where the code
  actually reads one view after writing the other: byte 15 of the inline view
  carries `space_left` and the flag bits (`flagsByte` / `xsSetVirt`), and the
  heap view's `ptr` / `size` fields read over an inline value are recovered
  from the inline bytes (`inlPtrOverlay` / `inlSizeOverlay`).
* Undefined behaviour (out-of-bounds access, `realloc`/`free` of a pointer that
  is neither `NULL` nor a live allocation) makes an operation return `none`.
-/

abbrev Byte := Nat

/-- The large-string threshold `LARGE_STRING_LEN` of `xs.c`. -/
def LARGE_STRING_LEN : Nat := 256

/-- `l[i]`, reading 0 out of range (uses are in range under well-formedness). -/
def byteAt (l : List Byte) (i : Nat) : Byte := l.getD i 0

/-- Bounds-checked read of `n` bytes at offset `off`; `none` models an
out-of-bounds access, which is undefined behaviour in C. -/
def readB (l : List Byte) (off n : Nat) : Option (List Byte) :=
  if off + n ≤ l.length then some ((l.drop off).take n) else none

/-- Bounds-checked write of `src` at offset `off` (the semantics of a
non-overlapping `memcpy`, and of `memmove` once the source bytes are read). -/
def writeB (l : List Byte) (off : Nat) (src : List Byte) : Option (List Byte) :=
  if off + src.length ≤ l.length then
    some (l.take off ++ src ++ l.drop (off + src.length))
  else none

/-- Little-endian value of the first 4 bytes (the `int` reference count that
`xs.c` stores at the start of a large-string allocation). -/
def leU32 (l : List Byte) : Nat :=
  byteAt l 0 + 256 * byteAt l 1 + 65536 * byteAt l 2 + 16777216 * byteAt l 3

/-- Reading a 32-bit pattern as a signed C `int`. -/
def intOfU32 (n : Nat) : Int :=
  if n < 2 ^ 31 then (n : Int) else (n : Int) - 2 ^ 32

/-- Storing a signed C `int` as a 32-bit pattern. -/
def u32OfInt (v : Int) : Nat := (v % 2 ^ 32).toNat

/-- The 4 little-endian bytes of a 32-bit pattern. -/
def bytesOfU32 (n : Nat) : List Byte :=
  [n % 256, n / 256 % 256, n / 65536 % 256, n / 16777216 % 256]

/-- A heap allocation: just its raw bytes. -/
structure Buffer where
  data : List Byte
deriving Repr, DecidableEq

/-- The reference count an `int *` read at the start of the allocation sees. -/
def bufCount (b : Buffer) : Int := intOfU32 (leU32 b.data)

/-- The heap: allocation slots (`none` = freed) plus the byte filling
uninitialized memory in this execution. -/
structure Heap where
  bufs : List (Option Buffer)
  junk : Byte
deriving Repr, DecidableEq

/-- Pointer value of allocation slot `i`. -/
def ptrOf (i : Nat) : Nat := 8 * (i + 1)

/-- Slot of a pointer value, if it has the shape of a `malloc` result. -/
def idOf (p : Nat) : Option Nat :=
  if 8 ≤ p ∧ p % 8 = 0 then some (p / 8 - 1) else none

/-- The live allocation a pointer refers to, if any. -/
def Heap.find (h : Heap) (p : Nat) : Option Buffer :=
  match idOf p with
  | some i => h.bufs.getD i none
  | none => none

/-- `malloc(n)`: a fresh allocation of `n` uninitialized bytes. -/
def Heap.malloc (h : Heap) (n : Nat) : Heap × Nat :=
  ({ h with bufs := h.bufs ++ [some ⟨List.replicate n h.junk⟩] }, ptrOf h.bufs.length)

/-- Overwrite the allocation `p` refers to (no-op on an invalid pointer; the
callers establish validity). -/
def Heap.setBuf (h : Heap) (p : Nat) (b : Buffer) : Heap :=
  match idOf p with
  | some i => { h with bufs := h.bufs.set i (some b) }
  | none => h

/-- `free(p)`: `none` on a pointer that is neither `NULL` nor live (UB). -/
def Heap.freeP (h : Heap) (p : Nat) : Option Heap :=
  if p = 0 then some h
  else
    match idOf p, h.find p with
    | some i, some _ => some { h with bufs := h.bufs.set i none }
    | _, _ => none

/-- `realloc(p, n)`: `malloc` when `p` is `NULL`; resize in place preserving the
common prefix when `p` is live; `none` (UB) otherwise. -/
def Heap.reallocP (h : Heap) (p : Nat) (n : Nat) : Option (Heap × Nat) :=
  if p = 0 then some (h.malloc n)
  else
    match h.find p with
    | some b =>
        some (h.setBuf p ⟨b.data.take n ++ List.replicate (n - b.data.length) h.junk⟩, p)
    | none => none

/-- The reference count stored at pointer `p`, if the allocation is live. -/
def refAt (h : Heap) (p : Nat) : Option Int := (h.find p).map bufCount

/-- The `xs` value.  Fields of both union views are kept side by side; see the
file header for how the layout overlap is reproduced where the code relies on
it.  `inl` holds the 15 content bytes `data[0..14]` of the inline view; byte 15
(`space_left` plus the flag bits) is materialised by `flagsByte`. -/
structure Xs where
  isPtr : Bool
  isLarge : Bool
  ptr : Nat
  size : Nat
  capExp : Nat
  inl : List Byte
  spaceLeft : Nat
deriving Repr, DecidableEq

/-- `xs_literal_empty()`: the canonical empty inline value. -/
def xs_literal_empty : Xs :=
  ⟨false, false, 0, 0, 0, List.replicate 15 0, 15⟩

/-- `xs_is_ptr`. -/
def xs_is_ptr (x : Xs) : Bool := x.isPtr

/-- `xs_is_large_string`. -/
def xs_is_large_string (x : Xs) : Bool := x.isLarge

/-- `xs_size`. -/
def xs_size (x : Xs) : Nat := if x.isPtr then x.size else 15 - x.spaceLeft

/-- `xs_capacity`. -/
def xs_capacity (x : Xs) : Nat := if x.isPtr then 2 ^ x.capExp - 1 else 15

/-- Offset of `xs_data` into the allocation: the 4 header bytes are skipped for
a large string. -/
def dataOff (x : Xs) : Nat := if x.isLarge then 4 else 0

/-- Byte 15 of the union: low nibble `space_left`, bit 4 `is_ptr`,
bit 5 `is_large_string` (bits 6 and 7, `flag2`/`flag3`, are never set). -/
def flagsByte (x : Xs) : Byte :=
  x.spaceLeft % 16 + (if x.isPtr then 16 else 0) + (if x.isLarge then 32 else 0)

/-- The heap view's `ptr` field read over an inline value (union overlay of
bytes `data[0..7]`, little-endian). -/
def inlPtrOverlay (x : Xs) : Nat :=
  (List.range 8).foldr (fun i acc => acc * 256 + byteAt x.inl i) 0

/-- The heap view's 54-bit `size` field read over an inline value (union
overlay of bytes `data[8..13]` plus the low 6 bits of `data[14]`). -/
def inlSizeOverlay (x : Xs) : Nat :=
  (List.range 6).foldr (fun i acc => acc * 256 + byteAt x.inl (8 + i)) 0
    + byteAt x.inl 14 % 64 * 2 ^ 48

/-- The byte array `xs_data(x)` points into: the 16 inline bytes, or the
allocation past the reference-count header. `none` if the allocation is gone. -/
def xsVirt (h : Heap) (x : Xs) : Option (List Byte) :=
  if x.isPtr then
    match h.find x.ptr with
    | some b => some (b.data.drop (dataOff x))
    | none => none
  else some (x.inl ++ [flagsByte x])

/-- Write the (same-length) byte array underneath `xs_data(x)` back.  For an
inline value the write to byte 15 lands on `space_left` and the flag bits,
exactly as in the union. -/
def xsSetVirt (h : Heap) (x : Xs) (v : List Byte) : Heap × Xs :=
  if x.isPtr then
    match h.find x.ptr with
    | some b => (h.setBuf x.ptr ⟨b.data.take (dataOff x) ++ v⟩, x)
    | none => (h, x)
  else
    let b15 := byteAt v 15
    (h, { x with inl := v.take 15, spaceLeft := b15 % 16,
                 isPtr := b15 / 16 % 2 == 1, isLarge := b15 / 32 % 2 == 1 })

/-- The logical content of a value: the `xs_size` bytes at `xs_data`. -/
def xsContent (h : Heap) (x : Xs) : Option (List Byte) := do
  let v ← xsVirt h x
  readB v 0 (xs_size x)

/-- The byte at position `xs_size` of `xs_data` (the terminator slot). -/
def xsTermByte (h : Heap) (x : Xs) : Option Byte := do
  let v ← xsVirt h x
  if xs_size x < v.length then some (byteAt v (xs_size x)) else none

/-- Fuel-driven floor-log2 (the fuel only bounds the recursion; `ilog2Aux n n`
computes `Nat.log2 n`, see `ilog2_eq_log2`). -/
def ilog2Aux : Nat → Nat → Nat
  | _, 0 => 0
  | n, fuel + 1 => if n ≤ 1 then 0 else ilog2Aux (n / 2) fuel + 1

/-- `ilog2`: `32 - __builtin_clz(n) - 1`, i.e. the floor of `log2 n` for
`n ≥ 1` (the code never calls it on 0). -/
def ilog2 (n : Nat) : Nat := ilog2Aux n n

/-- `xs_set_ref_count`: store `val` in the `int` at the start of the
allocation. -/
def xs_set_ref_count (h : Heap) (x : Xs) (val : Int) : Heap :=
  match h.find x.ptr with
  | some b => h.setBuf x.ptr ⟨bytesOfU32 (u32OfInt val) ++ b.data.drop 4⟩
  | none => h

/-- `xs_inc_ref_count`: increment the header count of a large string
(`none` if the allocation is gone: a dangling read, UB). -/
def xs_inc_ref_count (h : Heap) (x : Xs) : Option Heap :=
  if x.isLarge then
    match h.find x.ptr with
    | some b => some (h.setBuf x.ptr ⟨bytesOfU32 (u32OfInt (bufCount b + 1)) ++ b.data.drop 4⟩)
    | none => none
  else some h

/-- `xs_dec_ref_count`: returns 0 without touching memory for a non-large
value; otherwise decrements the header count and returns the new value. -/
def xs_dec_ref_count (h : Heap) (x : Xs) : Option (Heap × Int) :=
  if x.isLarge then
    match h.find x.ptr with
    | some b =>
        some (h.setBuf x.ptr ⟨bytesOfU32 (u32OfInt (bufCount b - 1)) ++ b.data.drop 4⟩,
              bufCount b - 1)
    | none => none
  else some (h, 0)

/-- `xs_get_ref_count`: 0 for a non-large value, the header count otherwise. -/
def xs_get_ref_count (h : Heap) (x : Xs) : Option Int :=
  if x.isLarge then (h.find x.ptr).map bufCount else some 0

/-- `xs_allocate_data(x, len, reallocate)`.  The tier is chosen by `len`
against `LARGE_STRING_LEN`; the allocation size comes from the `capacity`
exponent already stored in `x`.  The large branch sets `is_large_string`,
reserves 4 extra header bytes, and (fresh or reallocated) stores a reference
count of 1. -/
def xs_allocate_data (h : Heap) (x : Xs) (len : Nat) (reallocate : Bool) :
    Option (Heap × Xs) :=
  if len < LARGE_STRING_LEN then
    if reallocate then do
      let (h, p) ← h.reallocP x.ptr (2 ^ x.capExp)
      pure (h, { x with ptr := p })
    else
      let (h, p) := h.malloc (2 ^ x.capExp)
      some (h, { x with ptr := p })
  else do
    let x := { x with isLarge := true }
    let (h, x) ←
      if reallocate then do
        let (h, p) ← h.reallocP x.ptr (2 ^ x.capExp + 4)
        pure (h, { x with ptr := p })
      else
        let (h, p) := h.malloc (2 ^ x.capExp + 4)
        some (h, { x with ptr := p })
    pure (xs_set_ref_count h x 1, x)

/-- `xs_new(x, p)`.  The argument is the byte content before the NUL
terminator (the C code measures the source with `strlen`). -/
def xs_new (h : Heap) (p : List Byte) : Option (Heap × Xs) :=
  let len := p.length + 1
  if 16 < len then do
    let x := { xs_literal_empty with
                 capExp := ilog2 len + 1, size := len - 1, isPtr := true }
    let (h, x) ← xs_allocate_data h x x.size false
    let v ← xsVirt h x
    let v ← writeB v 0 (p ++ [0])
    pure (xsSetVirt h x v)
  else do
    let v := xs_literal_empty.inl ++ [flagsByte xs_literal_empty]
    let v ← writeB v 0 (p ++ [0])
    let (h, x) := xsSetVirt h xs_literal_empty v
    pure (h, { x with spaceLeft := 15 - (len - 1) })

/-- `xs_grow(x, len)`.  Note the slip in the source: `x->is_ptr` is set to
`true` before `xs_is_ptr(x)` is tested, so the reallocate branch is always
taken and the branch that would copy the saved 16 inline bytes into the new
allocation is unreachable.  For a promoted inline value the pointer handed to
`realloc` and the `size` field are the union overlays of the inline bytes. -/
def xs_grow (h : Heap) (x : Xs) (len : Nat) : Option (Heap × Xs) :=
  if len ≤ xs_capacity x then some (h, x)
  else
    let x1 := if x.isPtr then x
              else { x with isPtr := true, ptr := inlPtrOverlay x, size := inlSizeOverlay x }
    let x2 := { x1 with capExp := ilog2 len + 1 }
    xs_allocate_data h x2 len true

/-- `xs_newempty`. -/
def xs_newempty : Xs := xs_literal_empty

/-- `xs_free(x)`: decrement (large strings only) and free when the count
drops to 0 or the value is not large; always reset to the canonical empty
inline value. -/
def xs_free (h : Heap) (x : Xs) : Option (Heap × Xs) :=
  if x.isPtr then do
    let (h, v) ← xs_dec_ref_count h x
    if v ≤ 0 then do
      let h ← h.freeP x.ptr
      pure (h, xs_newempty)
    else pure (h, xs_newempty)
  else pure (h, xs_newempty)

/-- `xs_cow_lazy_copy(x, &data)` with `data = xs_data(x)` at entry, as at both
call sites.  Returns the possibly-rebound value and whether a copy was made
(the caller's `data` variable then points at the new allocation).

The C function is declared `bool` but the copying path falls off the end
without a `return` statement; using that value is undefined behaviour.  The
model completes it with the evident intent, `return true` (the explicit path
returns `false`). -/
def xs_cow_lazy_copy (h : Heap) (x : Xs) : Option (Heap × Xs × Bool) := do
  let rc ← xs_get_ref_count h x
  if rc ≤ 1 then pure (h, x, false)
  else do
    let oldContent ← do
      let v ← xsVirt h x
      readB v 0 x.size
    let (h, _) ← xs_dec_ref_count h x
    let (h, x) ← xs_allocate_data h x x.size false
    let v ← xsVirt h x
    let v ← writeB v 0 oldContent
    let (h, x) := xsSetVirt h x v
    pure (h, x, true)

/-- The composite of the three destination writes `xs_concat` performs: shift
the original `size` bytes right by `pres` (`memmove`), write the `pres` bytes
of the first argument at the front, write the suffix bytes (terminator
included) behind the shifted content.  Used to summarise the write sequence
when no source aliases the destination. -/
def concatWrites (v : List Byte) (pres size : Nat) (cB preB sufB : List Byte) :
    Option (List Byte) := do
  let v ← writeB v pres cB
  let v ← writeB v 0 preB
  writeB v (pres + size) sufB

/-- `xs_concat(string, prefix, suffix)`.  The C pointers `pre`, `suf` and
`data` are fixed before the copy-on-write step (`data` alone is rebound by
it); each `memmove`/`memcpy` then reads its source from memory as it stands
when that copy runs, so the writes of earlier copies are visible to the
reads of later ones (a source aliasing the destination buffer sees them). -/
def xs_concat (h : Heap) (string pre suf : Xs) : Option (Heap × Xs) := do
  let pres := xs_size pre
  let sufs := xs_size suf
  let size := xs_size string
  let capacity := xs_capacity string
  let (h, string, _) ← xs_cow_lazy_copy h string
  if size + pres + sufs ≤ capacity then do
    let v ← xsVirt h string
    let cB ← readB v 0 size
    let v ← writeB v pres cB
    let (h, string) := xsSetVirt h string v
    let preB ← do
      let vp ← xsVirt h pre
      readB vp 0 pres
    let v ← xsVirt h string
    let v ← writeB v 0 preB
    let (h, string) := xsSetVirt h string v
    let sufB ← do
      let vs ← xsVirt h suf
      readB vs 0 (sufs + 1)
    let v ← xsVirt h string
    let v ← writeB v (pres + size) sufB
    let (h, string) := xsSetVirt h string v
    if string.isPtr then pure (h, { string with size := size + pres + sufs })
    else pure (h, { string with spaceLeft := 15 - (size + pres + sufs) })
  else do
    let (h, tmps) ← xs_grow h xs_literal_empty (size + pres + sufs)
    let cB ← do
      let v ← xsVirt h string
      readB v 0 size
    let tv ← xsVirt h tmps
    let tv ← writeB tv pres cB
    let (h, tmps) := xsSetVirt h tmps tv
    let preB ← do
      let vp ← xsVirt h pre
      readB vp 0 pres
    let tv ← xsVirt h tmps
    let tv ← writeB tv 0 preB
    let (h, tmps) := xsSetVirt h tmps tv
    let sufB ← do
      let vs ← xsVirt h suf
      readB vs 0 (sufs + 1)
    let tv ← xsVirt h tmps
    let tv ← writeB tv (pres + size) sufB
    let (h, tmps) := xsSetVirt h tmps tv
    let (h, _) ← xs_free h string
    pure (h, { tmps with size := size + pres + sufs })

/-- Membership in the 256-bit bitmap `xs_trim` builds: the bitmap is indexed
by `(uint8_t)byte`, and is set for the cutset bytes before the first NUL
(`strlen(trimset)` many). -/
def cutsetMem (trimset : List Byte) (b : Byte) : Bool :=
  (trimset.takeWhile (· ≠ 0)).any fun t => t % 256 = b % 256

/-- The moves `xs_trim` performs on the data array once the boundary scans have
produced the start index `i` and surviving length `s2`: `memmove` the surviving
range to the front, then `if (orig[slen]) orig[slen] = 0`. -/
def trimWrites (v : List Byte) (i s2 : Nat) : Option (List Byte) := do
  let kept ← readB v i s2
  let v ← writeB v 0 kept
  let t ← if s2 < v.length then some (byteAt v s2) else none
  if t ≠ 0 then writeB v s2 [0] else some v

/-- `xs_trim(x, trimset)`.  `trimset` is the byte content of the C string
argument (so `byteAt trimset 0 = 0` is the `!trimset[0]` early return).  The
`slen -= i` subtraction is `size_t` arithmetic and wraps modulo `2 ^ 64`. -/
def xs_trim (h : Heap) (x : Xs) (trimset : List Byte) : Option (Heap × Xs) :=
  if byteAt trimset 0 = 0 then some (h, x)
  else do
    let (h, x, _) ← xs_cow_lazy_copy h x
    let v ← xsVirt h x
    let slen := xs_size x
    let c ← readB v 0 slen
    let i := (c.takeWhile (cutsetMem trimset)).length
    let s1 := slen - (c.reverse.takeWhile (cutsetMem trimset)).length
    let s2 := (s1 + 2 ^ 64 - i) % 2 ^ 64
    let v ← trimWrites v i s2
    let (h, x) := xsSetVirt h x v
    if x.isPtr then pure (h, { x with size := s2 })
    else pure (h, { x with spaceLeft := 15 - s2 })

/-- `xs_copy(dest, src)`: bitwise copy; then bump the count of a large
string, or deep-copy a medium string's `size` bytes (the terminator byte is
not copied) into a fresh allocation. -/
def xs_copy (h : Heap) (src : Xs) : Option (Heap × Xs) := do
  let dest := src
  if !src.isPtr then pure (h, dest)
  else if src.isLarge then do
    let h ← xs_inc_ref_count h src
    pure (h, dest)
  else do
    let (h, p) := h.malloc (2 ^ src.capExp)
    let sb ← h.find src.ptr
    let content ← readB sb.data 0 src.size
    let db ← h.find p
    let nd ← writeB db.data 0 content
    pure (h.setBuf p ⟨nd⟩, { dest with ptr := p })

/-! ## Well-formedness

A value produced by the module's own constructors satisfies: a heap-backed
value points at a live allocation of exactly `2^capacity` bytes (plus the
4-byte header for a large string), its `size` is within the usable capacity,
and a large string's capacity exponent is at least 9 (the exponent chosen for
the smallest large allocation); an inline value carries 15 stored bytes, at
most 15 free slots, and a clear `is_large_string` flag. -/
def WFb (h : Heap) (x : Xs) : Bool :=
  if x.isPtr then
    match h.find x.ptr with
    | some b =>
        b.data.length == 2 ^ x.capExp + dataOff x &&
        decide (x.size + 1 ≤ 2 ^ x.capExp) &&
        (!x.isLarge || decide (9 ≤ x.capExp))
    | none => false
  else
    x.inl.length == 15 && decide (x.spaceLeft ≤ 15) && !x.isLarge



/-! ## Derived operation pipelines and observers

These package repeated `Option`-chains of the operations above so that
theorem statements and their concrete instances are plain equations. -/

/-- `n` successive `xs_copy` calls from the same source value. -/
def cloneN (h : Heap) (x : Xs) : Nat → Option Heap
  | 0 => some h
  | n + 1 => do
    let (h, _) ← xs_copy h x
    cloneN h x n

/-- `n` successive `xs_free` calls on (aliases of) the same value. -/
def freeN (h : Heap) (x : Xs) : Nat → Option Heap
  | 0 => some h
  | n + 1 => do
    let (h, _) ← xs_free h x
    freeN h x n

/-- Reference count at `x.ptr` after `n` clones. -/
def cloneRef (h : Heap) (x : Xs) (n : Nat) : Option (Option Int) :=
  (cloneN h x n).map fun h1 => refAt h1 x.ptr

/-- Reference count at `x.ptr` after `n` clones and then `n` releases. -/
def cloneFreeRef (h : Heap) (x : Xs) (n : Nat) : Option (Option Int) :=
  (cloneN h x n).bind fun h1 => (freeN h1 x n).map fun h2 => refAt h2 x.ptr

/-- Whether the backing allocation survives `n` clones and `n` releases. -/
def cloneFreeLive (h : Heap) (x : Xs) (n : Nat) : Option Bool :=
  (cloneN h x n).bind fun h1 => (freeN h1 x n).map fun h2 => (h2.find x.ptr).isSome

/-- Storage flags of a freshly constructed value. -/
def newTier (h : Heap) (p : List Byte) : Option (Bool × Bool) :=
  (xs_new h p).map fun r => (r.2.isPtr, r.2.isLarge)

/-- `xs_size` of a freshly constructed value. -/
def newSize (h : Heap) (p : List Byte) : Option Nat :=
  (xs_new h p).map fun r => xs_size r.2

/-- `xs_capacity` of a freshly constructed value. -/
def newCap (h : Heap) (p : List Byte) : Option Nat :=
  (xs_new h p).map fun r => xs_capacity r.2

/-- Stored capacity exponent of a freshly constructed value. -/
def newCapExp (h : Heap) (p : List Byte) : Option Nat :=
  (xs_new h p).map fun r => r.2.capExp

/-- Reference count of the allocation backing a freshly constructed value. -/
def newRef (h : Heap) (p : List Byte) : Option (Option Int) :=
  (xs_new h p).map fun r => refAt r.1 r.2.ptr

/-- Construct a value and then grow it. -/
def newThenGrow (h : Heap) (p : List Byte) (len : Nat) : Option (Heap × Xs) :=
  (xs_new h p).bind fun r => xs_grow r.1 r.2 len

/-- Construct a value, `xs_copy` it, and observe the copy's terminator byte. -/
def newThenCopyTerm (h : Heap) (p : List Byte) : Option Byte :=
  (xs_new h p).bind fun r => (xs_copy r.1 r.2).bind fun s => xsTermByte s.1 s.2

/-- The released value together with whether its old allocation is gone. -/
def freeObs (h : Heap) (x : Xs) : Option (Xs × Bool) :=
  (xs_free h x).map fun r => (r.2, (r.1.find x.ptr).isNone)

/-- Content of the concatenation result. -/
def concatContent (h : Heap) (x pre suf : Xs) : Option (List Byte) :=
  (xs_concat h x pre suf).bind fun r => xsContent r.1 r.2

/-- `xs_size` of the concatenation result. -/
def concatSize (h : Heap) (x pre suf : Xs) : Option Nat :=
  (xs_concat h x pre suf).map fun r => xs_size r.2

/-- Content of a sibling value `y` after `x` is concatenated to. -/
def concatSib (h : Heap) (x pre suf y : Xs) : Option (List Byte) :=
  (xs_concat h x pre suf).bind fun r => xsContent r.1 y

/-- Reference count of the buffer the concatenation result is bound to. -/
def concatNewRef (h : Heap) (x pre suf : Xs) : Option (Option Int) :=
  (xs_concat h x pre suf).map fun r => refAt r.1 r.2.ptr

/-- Reference count left on `x`'s original buffer after concatenation. -/
def concatOldRef (h : Heap) (x pre suf : Xs) : Option (Option Int) :=
  (xs_concat h x pre suf).map fun r => refAt r.1 x.ptr

/-- The pointer the concatenation result is bound to. -/
def concatNewPtr (h : Heap) (x pre suf : Xs) : Option Nat :=
  (xs_concat h x pre suf).map fun r => r.2.ptr

/-- The specified trimming of a byte sequence: remove the maximal leading and
the maximal trailing run of bytes satisfying `m`. -/
def trimSpec (m : Byte → Bool) (c : List Byte) : List Byte :=
  ((c.dropWhile m).reverse.dropWhile m).reverse

/-- Content of the trim result. -/
def trimContent (h : Heap) (x : Xs) (cutset : List Byte) : Option (List Byte) :=
  (xs_trim h x cutset).bind fun r => xsContent r.1 r.2

/-- `xs_size` of the trim result. -/
def trimSize (h : Heap) (x : Xs) (cutset : List Byte) : Option Nat :=
  (xs_trim h x cutset).map fun r => xs_size r.2

/-- `xs_capacity` of the trim result. -/
def trimCap (h : Heap) (x : Xs) (cutset : List Byte) : Option Nat :=
  (xs_trim h x cutset).map fun r => xs_capacity r.2

/-- Content of a sibling value `y` after `x` is trimmed. -/
def trimSib (h : Heap) (x : Xs) (cutset : List Byte) (y : Xs) : Option (List Byte) :=
  (xs_trim h x cutset).bind fun r => xsContent r.1 y

/-- Reference count of the buffer the trim result is bound to. -/
def trimNewRef (h : Heap) (x : Xs) (cutset : List Byte) : Option (Option Int) :=
  (xs_trim h x cutset).map fun r => refAt r.1 r.2.ptr

/-- Reference count left on `x`'s original buffer after trimming. -/
def trimOldRef (h : Heap) (x : Xs) (cutset : List Byte) : Option (Option Int) :=
  (xs_trim h x cutset).map fun r => refAt r.1 x.ptr

/-- The pointer the trim result is bound to. -/
def trimNewPtr (h : Heap) (x : Xs) (cutset : List Byte) : Option Nat :=
  (xs_trim h x cutset).map fun r => r.2.ptr


/-! ## Basic facts about the heap primitives -/

theorem idOf_ptrOf (i : Nat) : idOf (ptrOf i) = some i := by
  unfold idOf ptrOf
  rw [if_pos]
  · congr 1
    omega
  · omega

theorem eq_ptrOf_of_idOf {p i : Nat} (h : idOf p = some i) : p = ptrOf i := by
  unfold idOf at h
  split at h
  · rename_i hc
    cases h
    unfold ptrOf
    omega
  · cases h

theorem Heap.find_of_idOf {p i : Nat} (h : Heap) (hid : idOf p = some i) :
    h.find p = h.bufs.getD i none := by
  unfold Heap.find
  rw [hid]

theorem Heap.find_of_idOf_none {p : Nat} (h : Heap) (hid : idOf p = none) :
    h.find p = none := by
  unfold Heap.find
  rw [hid]

theorem Heap.find_malloc_self (h : Heap) (n : Nat) :
    (h.malloc n).1.find (h.malloc n).2 = some ⟨List.replicate n h.junk⟩ := by
  unfold Heap.malloc
  rw [Heap.find_of_idOf _ (idOf_ptrOf h.bufs.length)]
  simp only
  rw [List.getD_append_right _ _ _ _ (Nat.le_refl _)]
  simp [List.getD]

theorem Heap.find_malloc_other (h : Heap) (n : Nat) {q : Nat}
    (hq : q ≠ (h.malloc n).2) : (h.malloc n).1.find q = h.find q := by
  cases hid : idOf q with
  | none => rw [Heap.find_of_idOf_none _ hid, Heap.find_of_idOf_none _ hid]
  | some j =>
    have hqp := eq_ptrOf_of_idOf hid
    have hj : j ≠ h.bufs.length := by
      intro hc
      exact hq (by simpa [hc] using hqp)
    rw [Heap.find_of_idOf _ hid, Heap.find_of_idOf _ hid]
    unfold Heap.malloc
    simp only
    rcases Nat.lt_or_ge j h.bufs.length with hlt | hge
    · rw [List.getD_append _ _ _ _ hlt]
    · rw [List.getD_eq_default _ _ (by simp; omega), List.getD_eq_default _ _ (by omega)]

theorem Heap.junk_malloc (h : Heap) (n : Nat) : (h.malloc n).1.junk = h.junk := rfl

theorem Heap.length_malloc (h : Heap) (n : Nat) :
    (h.malloc n).1.bufs.length = h.bufs.length + 1 := by
  unfold Heap.malloc
  simp

theorem getD_of_find {h : Heap} {p : Nat} {b : Buffer} {i : Nat}
    (hp : h.find p = some b) (hid : idOf p = some i) :
    h.bufs.getD i none = some b := by
  rw [Heap.find_of_idOf _ hid] at hp
  exact hp

theorem lt_of_find {h : Heap} {p : Nat} {b : Buffer} {i : Nat}
    (hp : h.find p = some b) (hid : idOf p = some i) : i < h.bufs.length := by
  have := getD_of_find hp hid
  by_contra hc
  rw [List.getD_eq_default _ _ (by omega)] at this
  cases this

theorem Heap.find_setBuf_self (h : Heap) {p : Nat} {b0 : Buffer} (b : Buffer)
    (hp : h.find p = some b0) : (h.setBuf p b).find p = some b := by
  cases hid : idOf p with
  | none => rw [Heap.find_of_idOf_none _ hid] at hp; cases hp
  | some i =>
    have hi := lt_of_find hp hid
    rw [Heap.find_of_idOf _ hid]
    unfold Heap.setBuf
    rw [hid]
    show (h.bufs.set i (some b)).getD i none = _
    rw [List.getD_eq_getElem?_getD, List.getElem?_set_eq_of_lt _ hi]
    rfl

theorem Heap.find_setBuf_other (h : Heap) {p q : Nat} (b : Buffer)
    (hq : q ≠ p) : (h.setBuf p b).find q = h.find q := by
  cases hidp : idOf p with
  | none => unfold Heap.setBuf; rw [hidp]
  | some i =>
    cases hidq : idOf q with
    | none =>
      rw [Heap.find_of_idOf_none _ hidq, Heap.find_of_idOf_none _ hidq]
    | some j =>
      have hij : i ≠ j := by
        intro hc
        exact hq (by rw [eq_ptrOf_of_idOf hidq, eq_ptrOf_of_idOf hidp, hc])
      rw [Heap.find_of_idOf _ hidq, Heap.find_of_idOf _ hidq]
      unfold Heap.setBuf
      rw [hidp]
      show (h.bufs.set i (some b)).getD j none = _
      rw [List.getD_eq_getElem?_getD, List.getElem?_set_ne hij,
          List.getD_eq_getElem?_getD]

theorem Heap.junk_setBuf (h : Heap) (p : Nat) (b : Buffer) :
    (h.setBuf p b).junk = h.junk := by
  unfold Heap.setBuf
  cases idOf p <;> rfl

theorem Heap.length_setBuf (h : Heap) (p : Nat) (b : Buffer) :
    (h.setBuf p b).bufs.length = h.bufs.length := by
  unfold Heap.setBuf
  cases idOf p <;> simp

theorem ptr_lt_of_find {h : Heap} {p : Nat} {b : Buffer} (hp : h.find p = some b) :
    ∃ i, p = ptrOf i ∧ i < h.bufs.length := by
  cases hid : idOf p with
  | none => rw [Heap.find_of_idOf_none _ hid] at hp; cases hp
  | some i => exact ⟨i, eq_ptrOf_of_idOf hid, lt_of_find hp hid⟩

theorem ptrOf_inj {i j : Nat} (h : ptrOf i = ptrOf j) : i = j := by
  unfold ptrOf at h
  omega

theorem find_ne_fresh {h : Heap} {p : Nat} {b : Buffer} (hp : h.find p = some b)
    (n : Nat) : p ≠ (h.malloc n).2 := by
  obtain ⟨i, rfl, hi⟩ := ptr_lt_of_find hp
  unfold Heap.malloc
  intro hc
  have := ptrOf_inj hc
  omega

/-! ## Reference-count round trips -/

theorem leU32_bytesOfU32 (n : Nat) (rest : List Byte) :
    leU32 (bytesOfU32 n ++ rest) = n % 2 ^ 32 := by
  simp only [bytesOfU32, leU32, byteAt, List.cons_append, List.getD_cons_zero,
    List.getD_cons_succ]
  omega

theorem bufCount_store (v : Int) (rest : List Byte) (h0 : 0 ≤ v) (h1 : v < 2 ^ 31) :
    bufCount ⟨bytesOfU32 (u32OfInt v) ++ rest⟩ = v := by
  have hu : u32OfInt v = v.toNat := by
    unfold u32OfInt
    rw [Int.emod_eq_of_lt h0 (by omega)]
  rw [bufCount, leU32_bytesOfU32, hu]
  have hv : v.toNat % 2 ^ 32 = v.toNat := Nat.mod_eq_of_lt (by omega)
  rw [hv, intOfU32, if_pos (by omega)]
  omega

theorem bufCount_one (rest : List Byte) :
    bufCount ⟨bytesOfU32 (u32OfInt 1) ++ rest⟩ = 1 := bufCount_store 1 rest (by omega) (by omega)

/-! ## Facts about the memory access primitives -/

theorem readB_some {l : List Byte} {off n : Nat} (h : off + n ≤ l.length) :
    readB l off n = some ((l.drop off).take n) := by
  unfold readB
  rw [if_pos h]

theorem writeB_some {l src : List Byte} {off : Nat} (h : off + src.length ≤ l.length) :
    writeB l off src = some (l.take off ++ src ++ l.drop (off + src.length)) := by
  unfold writeB
  rw [if_pos h]

theorem length_writeB {l src : List Byte} {off : Nat} (h : off + src.length ≤ l.length) :
    (l.take off ++ src ++ l.drop (off + src.length)).length = l.length := by
  simp
  omega

theorem readB_length {l kept : List Byte} {off n : Nat} (h : readB l off n = some kept) :
    kept.length = n ∧ off + n ≤ l.length := by
  unfold readB at h
  split at h
  · cases h
    constructor
    · rw [List.length_take, List.length_drop]
      omega
    · assumption
  · cases h


/-- `dropWhile` is `drop` by the length of the satisfied run. -/
theorem dropWhile_eq_drop (p : Byte → Bool) (l : List Byte) :
    l.dropWhile p = l.drop (l.takeWhile p).length := by
  calc l.dropWhile p
      = ((l.takeWhile p) ++ l.dropWhile p).drop (l.takeWhile p).length :=
        (List.drop_left _ _).symm
    _ = l.drop (l.takeWhile p).length := by rw [List.takeWhile_append_dropWhile]

theorem concatWrites_spec {v cB preB sufB : List Byte} {pres size : Nat}
    (hpre : preB.length = pres) (hc : cB.length = size)
    (hfit : pres + size + sufB.length ≤ v.length) :
    concatWrites v pres size cB preB sufB =
      some (preB ++ cB ++ sufB ++ v.drop (pres + size + sufB.length)) := by
  unfold concatWrites
  rw [writeB_some (by omega)]
  simp only [Option.bind_eq_bind, Option.some_bind]
  set w1 : List Byte := v.take pres ++ cB ++ v.drop (pres + cB.length) with hw1
  have hlen1 : w1.length = v.length := by
    simp [hw1]
    omega
  rw [writeB_some (by rw [hlen1]; omega)]
  simp only [Option.bind_eq_bind, Option.some_bind, List.take_zero, List.nil_append, Nat.zero_add]
  have hdrop1 : w1.drop preB.length = cB ++ v.drop (pres + size) := by
    rw [hw1, List.append_assoc, List.drop_left' (by simp [hpre]; omega), hc]
  rw [hdrop1]
  set w2 : List Byte := preB ++ (cB ++ v.drop (pres + size)) with hw2
  have hlen2 : w2.length = v.length := by
    simp [hw2]
    omega
  rw [writeB_some (by rw [hlen2]; omega)]
  congr 1
  have hre : w2 = (preB ++ cB) ++ v.drop (pres + size) := by
    rw [hw2, List.append_assoc]
  have htake : w2.take (pres + size) = preB ++ cB := by
    rw [hre, List.take_left' (by simp [hpre, hc])]
  have hdrop2 : w2.drop (pres + size + sufB.length) =
      v.drop (pres + size + sufB.length) := by
    rw [hre]
    have : pres + size + sufB.length = (preB ++ cB).length + sufB.length := by
      simp [hpre, hc]
    rw [this, List.drop_append, List.drop_drop]
    congr 1
  rw [htake, hdrop2]

theorem trimWrites_spec {v : List Byte} {i s : Nat}
    (h1 : i + s ≤ v.length) (h2 : s < v.length) :
    trimWrites v i s = some ((v.drop i).take s ++ 0 :: v.drop (s + 1)) := by
  unfold trimWrites
  rw [readB_some h1]
  simp only [Option.bind_eq_bind, Option.some_bind]
  set kept : List Byte := (v.drop i).take s with hk
  have hklen : kept.length = s := by
    simp [hk]
    omega
  rw [writeB_some (by simp [hklen]; omega)]
  simp only [Option.bind_eq_bind, Option.some_bind, List.take_zero, List.nil_append,
    Nat.zero_add]
  rw [hklen]
  set w1 : List Byte := kept ++ v.drop s with hw1
  have hw1len : w1.length = v.length := by
    simp [hw1, hklen]
    omega
  rw [if_pos (by rw [hw1len]; exact h2)]
  have hvs : v.drop s = v[s] :: v.drop (s + 1) := List.drop_eq_getElem_cons h2
  have hb : byteAt w1 s = v[s] := by
    rw [hw1, byteAt, List.getD_append_right _ _ _ _ (by rw [hklen]),
        hklen, Nat.sub_self, hvs]
    rfl
  rw [hb]
  by_cases hz : v[s] = 0
  · rw [if_neg (by simpa using hz)]
    rw [hw1, hvs, hz]
  · rw [if_pos (by simpa using hz)]
    rw [writeB_some (by simp only [List.length_cons, List.length_nil]; omega)]
    congr 1
    have ht : w1.take s = kept := by
      rw [hw1, List.take_left' hklen]
    have hd : w1.drop (s + 1) = v.drop (s + 1) := by
      conv_lhs => rw [hw1, show s + 1 = kept.length + 1 from by rw [hklen],
        List.drop_append]
      rw [hvs]
      rfl
    simp only [List.length_cons, List.length_nil]
    rw [ht, hd, List.append_assoc]
    rfl

/-! ## Capacity exponent arithmetic -/

theorem ilog2Aux_eq_log2 : ∀ fuel n, n ≤ fuel → ilog2Aux n fuel = Nat.log2 n := by
  intro fuel
  induction fuel with
  | zero =>
    intro n hn
    have : n = 0 := by omega
    rw [this]
    rw [Nat.log2]
    rw [if_neg (by omega)]
    rfl
  | succ fuel ih =>
    intro n hn
    unfold ilog2Aux
    by_cases h1 : n ≤ 1
    · rw [if_pos h1, Nat.log2]
      rw [if_neg (by omega)]
    · rw [if_neg h1, ih (n / 2) (by omega)]
      conv_rhs => rw [Nat.log2]
      rw [if_pos (by omega)]

theorem ilog2_eq_log2 (n : Nat) : ilog2 n = Nat.log2 n :=
  ilog2Aux_eq_log2 n n (Nat.le_refl n)

theorem lt_two_pow_ilog2_succ {n : Nat} (h : 1 ≤ n) : n < 2 ^ (ilog2 n + 1) := by
  rw [ilog2_eq_log2]
  exact (Nat.log2_lt (by omega)).mp (by omega)

theorem ilog2_succ_le {n k : Nat} (h : 1 ≤ n) (hk : n < 2 ^ k) : ilog2 n + 1 ≤ k := by
  rw [ilog2_eq_log2]
  have := (Nat.log2_lt (n := n) (by omega)).mpr hk
  omega

/-! ## The boundary scans of `xs_trim` -/

theorem takeWhile_append_of_not_all {p : Byte → Bool} {l r : List Byte}
    (h : ∃ b ∈ l, p b = false) : (l ++ r).takeWhile p = l.takeWhile p := by
  rw [List.takeWhile_append]
  rw [if_neg]
  intro hc
  obtain ⟨b, hb, hpb⟩ := h
  have heq : l.takeWhile p = l := (List.takeWhile_sublist p).eq_of_length hc
  have := List.mem_takeWhile_imp (l := l) (p := p) (by rw [heq]; exact hb)
  rw [hpb] at this
  cases this

/-- The two boundary scans of `xs_trim`, related to the drop-leading /
drop-trailing description: when some byte is not in the cutset, the surviving
segment is the content with its maximal leading and maximal trailing runs of
cutset members removed. -/
theorem trim_scan {m : Byte → Bool} {c : List Byte} (h : ∃ b ∈ c, m b = false) :
    (c.takeWhile m).length + (c.reverse.takeWhile m).length ≤ c.length ∧
      (c.drop (c.takeWhile m).length).take
          (c.length - (c.reverse.takeWhile m).length - (c.takeWhile m).length) =
        ((c.dropWhile m).reverse.dropWhile m).reverse := by
  set d : List Byte := c.dropWhile m with hd
  have hdne : d ≠ [] := by
    intro hc
    obtain ⟨b, hb, hpb⟩ := h
    have : c.takeWhile m = c := by
      have := List.takeWhile_append_dropWhile m c
      rw [← hd, hc, List.append_nil] at this
      exact this
    have := List.mem_takeWhile_imp (l := c) (p := m) (by rw [this]; exact hb)
    rw [hpb] at this
    cases this
  have hhead : m (d.head hdne) = false := List.head_dropWhile_not m c hdne
  have hrevne : ∃ b ∈ d.reverse, m b = false :=
    ⟨d.head hdne, by simp, hhead⟩
  have hcsplit : c.takeWhile m ++ d = c := by
    rw [hd]
    exact List.takeWhile_append_dropWhile m c
  have hlen : (c.takeWhile m).length + d.length = c.length := by
    have := congrArg List.length hcsplit
    simpa using this
  have hrev : c.reverse.takeWhile m = d.reverse.takeWhile m := by
    conv_lhs => rw [← hcsplit]
    rw [List.reverse_append]
    exact takeWhile_append_of_not_all hrevne
  have htle : (d.reverse.takeWhile m).length ≤ d.length := by
    simpa using List.Sublist.length_le (List.takeWhile_sublist (l := d.reverse) m)
  constructor
  · rw [hrev]
    omega
  · have hdropi : c.drop (c.takeWhile m).length = d := (dropWhile_eq_drop m c).symm
    rw [hdropi, hrev]
    have harith : c.length - (d.reverse.takeWhile m).length - (c.takeWhile m).length
        = d.length - (d.reverse.takeWhile m).length := by omega
    rw [harith]
    rw [dropWhile_eq_drop m d.reverse]
    rw [List.drop_reverse, List.reverse_reverse]

theorem WFb_ptr {h : Heap} {x : Xs} (hw : WFb h x = true) (hp : x.isPtr = true) :
    ∃ b, h.find x.ptr = some b ∧ b.data.length = 2 ^ x.capExp + dataOff x ∧
      x.size + 1 ≤ 2 ^ x.capExp ∧ (x.isLarge = true → 9 ≤ x.capExp) := by
  unfold WFb at hw
  rw [if_pos hp] at hw
  cases hb : h.find x.ptr with
  | none => rw [hb] at hw; cases hw
  | some b =>
    rw [hb] at hw
    simp only [Bool.and_eq_true, beq_iff_eq, decide_eq_true_eq, Bool.or_eq_true,
      Bool.not_eq_true'] at hw
    exact ⟨b, rfl, hw.1.1, hw.1.2, fun hl => by
      rcases hw.2 with h1 | h1
      · rw [hl] at h1; cases h1
      · exact h1⟩

theorem WFb_inl {h : Heap} {x : Xs} (hw : WFb h x = true) (hp : x.isPtr = false) :
    x.inl.length = 15 ∧ x.spaceLeft ≤ 15 ∧ x.isLarge = false := by
  unfold WFb at hw
  rw [if_neg (by simp [hp])] at hw
  simp only [Bool.and_eq_true, beq_iff_eq, decide_eq_true_eq, Bool.not_eq_true'] at hw
  exact ⟨hw.1.1, hw.1.2, hw.2⟩

/-- Under well-formedness the data array exists and its length is exactly
`xs_capacity + 1` (16 bytes inline, `2^capacity` heap-backed). -/
theorem xsVirt_of_WF {h : Heap} {x : Xs} (hw : WFb h x = true) :
    ∃ v, xsVirt h x = some v ∧ v.length = xs_capacity x + 1 ∧
      xs_size x ≤ xs_capacity x := by
  unfold xsVirt
  cases hp : x.isPtr with
  | true =>
    obtain ⟨b, hb, hlen, hsz, _⟩ := WFb_ptr hw hp
    rw [if_pos rfl, hb]
    refine ⟨_, rfl, ?_, ?_⟩
    · rw [List.length_drop, hlen, xs_capacity, if_pos hp]
      have : (1 : Nat) ≤ 2 ^ x.capExp := Nat.one_le_two_pow
      omega
    · rw [xs_size, xs_capacity, if_pos hp, if_pos hp]
      omega
  | false =>
    obtain ⟨hlen, hsl, _⟩ := WFb_inl hw hp
    rw [if_neg (by simp [hp])]
    refine ⟨_, rfl, ?_, ?_⟩
    · simp [hlen, xs_capacity, hp]
    · rw [xs_size, xs_capacity, if_neg (by simp [hp]), if_neg (by simp [hp])]
      omega

/-- The content of a well-formed value: the first `xs_size` bytes of its data
array. -/
theorem xsContent_of_WF {h : Heap} {x : Xs} {v : List Byte}
    (hv : xsVirt h x = some v) (hszv : xs_size x + 1 ≤ v.length) :
    xsContent h x = some (v.take (xs_size x)) := by
  unfold xsContent
  rw [hv]
  simp only [Option.bind_eq_bind, Option.some_bind]
  rw [readB_some (by omega), List.drop_zero]

/-! ## Step lemmas for the operations -/

theorem get_ref_count_not_large {h : Heap} {x : Xs} (hl : x.isLarge = false) :
    xs_get_ref_count h x = some 0 := by
  unfold xs_get_ref_count
  rw [if_neg (by simp [hl])]

theorem get_ref_count_large {h : Heap} {x : Xs} {b : Buffer} (hl : x.isLarge = true)
    (hb : h.find x.ptr = some b) : xs_get_ref_count h x = some (bufCount b) := by
  unfold xs_get_ref_count
  rw [if_pos hl, hb]
  rfl

theorem cow_noop {h : Heap} {x : Xs} {rc : Int}
    (hrc : xs_get_ref_count h x = some rc) (hle : rc ≤ 1) :
    xs_cow_lazy_copy h x = some (h, x, false) := by
  unfold xs_cow_lazy_copy
  rw [hrc]
  simp only [Option.bind_eq_bind, Option.some_bind]
  rw [if_pos hle]
  rfl

theorem alloc_fresh_medium {h : Heap} {x : Xs} {len : Nat} (hlen : len < 256) :
    xs_allocate_data h x len false =
      some ((h.malloc (2 ^ x.capExp)).1, { x with ptr := ptrOf h.bufs.length }) := by
  unfold xs_allocate_data
  rw [if_pos (by unfold LARGE_STRING_LEN; omega)]
  rfl

theorem drop_replicate (n k : Nat) (a : Byte) :
    (List.replicate (n + k) a).drop k = List.replicate n a := by
  rw [Nat.add_comm, List.replicate_add, List.drop_left' (List.length_replicate _ _)]

theorem set_ref_count_eq {h : Heap} {x : Xs} {b : Buffer}
    (hb : h.find x.ptr = some b) (val : Int) :
    xs_set_ref_count h x val =
      h.setBuf x.ptr ⟨bytesOfU32 (u32OfInt val) ++ b.data.drop 4⟩ := by
  unfold xs_set_ref_count
  rw [hb]

theorem alloc_fresh_large {h : Heap} {x : Xs} {len : Nat} (hlen : 256 ≤ len) :
    ∃ h', xs_allocate_data h x len false =
        some (h', { x with isLarge := true, ptr := ptrOf h.bufs.length }) ∧
      h'.find (ptrOf h.bufs.length) =
        some ⟨bytesOfU32 (u32OfInt 1) ++ List.replicate (2 ^ x.capExp) h.junk⟩ ∧
      (∀ q, q ≠ ptrOf h.bufs.length → h'.find q = h.find q) ∧
      h'.junk = h.junk ∧ h'.bufs.length = h.bufs.length + 1 := by
  have hfind1 := Heap.find_malloc_self h (2 ^ x.capExp + 4)
  refine ⟨Heap.setBuf (h.malloc (2 ^ x.capExp + 4)).1 (ptrOf h.bufs.length)
      ⟨bytesOfU32 (u32OfInt 1) ++ List.replicate (2 ^ x.capExp) h.junk⟩,
      ?_, ?_, ?_, ?_, ?_⟩
  · unfold xs_allocate_data
    rw [if_neg (by unfold LARGE_STRING_LEN; omega)]
    simp only [Bool.false_eq_true, if_false, Option.bind_eq_bind, Option.some_bind]
    rw [set_ref_count_eq hfind1]
    rw [drop_replicate]
    rfl
  · exact Heap.find_setBuf_self _ _ hfind1
  · intro q hq
    rw [Heap.find_setBuf_other _ _ hq, Heap.find_malloc_other _ _ hq]
  · rw [Heap.junk_setBuf, Heap.junk_malloc]
  · rw [Heap.length_setBuf, Heap.length_malloc]

theorem xsVirt_heap {h : Heap} {x : Xs} {b : Buffer} (hp : x.isPtr = true)
    (hb : h.find x.ptr = some b) : xsVirt h x = some (b.data.drop (dataOff x)) := by
  unfold xsVirt
  rw [if_pos hp, hb]

theorem xsSetVirt_heap {h : Heap} {x : Xs} {b : Buffer} (hp : x.isPtr = true)
    (hb : h.find x.ptr = some b) (v : List Byte) :
    xsSetVirt h x v = (h.setBuf x.ptr ⟨b.data.take (dataOff x) ++ v⟩, x) := by
  unfold xsSetVirt
  rw [if_pos hp, hb]

theorem dec_ref_count_large {h : Heap} {x : Xs} {b : Buffer} (hl : x.isLarge = true)
    (hb : h.find x.ptr = some b) :
    xs_dec_ref_count h x =
      some (h.setBuf x.ptr ⟨bytesOfU32 (u32OfInt (bufCount b - 1)) ++ b.data.drop 4⟩,
            bufCount b - 1) := by
  unfold xs_dec_ref_count
  rw [if_pos hl, hb]

theorem inc_ref_count_large {h : Heap} {x : Xs} {b : Buffer} (hl : x.isLarge = true)
    (hb : h.find x.ptr = some b) :
    xs_inc_ref_count h x =
      some (h.setBuf x.ptr ⟨bytesOfU32 (u32OfInt (bufCount b + 1)) ++ b.data.drop 4⟩) := by
  unfold xs_inc_ref_count
  rw [if_pos hl, hb]

theorem length_bytesOfU32 (n : Nat) : (bytesOfU32 n).length = 4 := rfl

theorem Xs.update_isLarge_self {x : Xs} (hl : x.isLarge = true) (p : Nat) :
    ({ x with isLarge := true, ptr := p } : Xs) = { x with ptr := p } := by
  cases x
  simp only at hl
  rw [hl]

theorem cow_detach {h : Heap} {x : Xs} {b : Buffer}
    (hp : x.isPtr = true) (hl : x.isLarge = true)
    (hb : h.find x.ptr = some b)
    (hblen : b.data.length = 2 ^ x.capExp + 4)
    (hsz : x.size + 1 ≤ 2 ^ x.capExp)
    (hrc : 2 ≤ bufCount b) (hbig : 256 ≤ x.size) :
    ∃ h', xs_cow_lazy_copy h x =
        some (h', { x with ptr := ptrOf h.bufs.length }, true) ∧
      h'.find x.ptr = some ⟨bytesOfU32 (u32OfInt (bufCount b - 1)) ++ b.data.drop 4⟩ ∧
      h'.find (ptrOf h.bufs.length) =
        some ⟨bytesOfU32 (u32OfInt 1) ++
          ((b.data.drop 4).take x.size ++ List.replicate (2 ^ x.capExp - x.size) h.junk)⟩ ∧
      (∀ q, q ≠ x.ptr → q ≠ ptrOf h.bufs.length → h'.find q = h.find q) ∧
      h'.junk = h.junk ∧ h'.bufs.length = h.bufs.length + 1 ∧
      x.ptr ≠ ptrOf h.bufs.length := by
  have hxne : x.ptr ≠ ptrOf h.bufs.length := by
    obtain ⟨i, hpi, hi⟩ := ptr_lt_of_find hb
    rw [hpi]
    intro hc
    have := ptrOf_inj hc
    omega
  set h1 : Heap := h.setBuf x.ptr ⟨bytesOfU32 (u32OfInt (bufCount b - 1)) ++ b.data.drop 4⟩
    with hh1
  have h1len : h1.bufs.length = h.bufs.length := Heap.length_setBuf _ _ _
  have h1junk : h1.junk = h.junk := Heap.junk_setBuf _ _ _
  obtain ⟨h2, halloc, hfind2, hframe2, h2junk, h2len⟩ :=
    alloc_fresh_large (h := h1) (x := x) hbig
  rw [h1len] at hfind2 hframe2 halloc
  rw [h1junk] at hfind2
  rw [h1len] at h2len
  unfold xs_cow_lazy_copy
  rw [get_ref_count_large hl hb]
  simp only [Option.bind_eq_bind, Option.some_bind]
  rw [if_neg (by omega)]
  rw [xsVirt_heap hp hb]
  simp only [Option.bind_eq_bind, Option.some_bind]
  rw [readB_some (by rw [List.length_drop, hblen, dataOff, if_pos hl]; omega)]
  simp only [Option.bind_eq_bind, Option.some_bind, List.drop_zero]
  rw [dec_ref_count_large hl hb]
  simp only [Option.bind_eq_bind, Option.some_bind]
  rw [← hh1, halloc]
  simp only [Option.bind_eq_bind, Option.some_bind]
  have hx2p : ({ x with isLarge := true, ptr := ptrOf h.bufs.length } : Xs).isPtr = true := hp
  rw [xsVirt_heap hx2p hfind2]
  simp only [Option.bind_eq_bind, Option.some_bind]
  have hdoff : dataOff ({ x with isLarge := true, ptr := ptrOf h.bufs.length } : Xs) = 4 := rfl
  rw [hdoff]
  have hdrop4 : (bytesOfU32 (u32OfInt 1) ++ List.replicate (2 ^ x.capExp) h.junk).drop 4
      = List.replicate (2 ^ x.capExp) h.junk := List.drop_left' (length_bytesOfU32 _)
  rw [hdrop4]
  set oldC : List Byte := (List.drop (dataOff x) b.data).take x.size with holdc
  have holdclen : oldC.length = x.size := by
    rw [holdc, List.length_take, List.length_drop, hblen, dataOff, if_pos hl]
    omega
  rw [writeB_some (by rw [List.length_replicate]; omega)]
  simp only [Option.bind_eq_bind, Option.some_bind]
  rw [xsSetVirt_heap hx2p hfind2]
  simp only
  have htk4 : (bytesOfU32 (u32OfInt 1) ++ List.replicate (2 ^ x.capExp) h.junk).take 4
      = bytesOfU32 (u32OfInt 1) := List.take_left' (length_bytesOfU32 _)
  have hdropsz : (List.replicate (2 ^ x.capExp) h.junk).drop oldC.length
      = List.replicate (2 ^ x.capExp - x.size) h.junk := by
    rw [holdclen]
    conv_lhs => rw [show (2:Nat) ^ x.capExp = (2 ^ x.capExp - x.size) + x.size by omega]
    rw [drop_replicate]
  rw [hdoff, htk4]
  simp only [List.take_zero, List.nil_append, Nat.zero_add]
  rw [hdropsz, Xs.update_isLarge_self hl]
  refine ⟨h2.setBuf (ptrOf h.bufs.length)
      ⟨bytesOfU32 (u32OfInt 1) ++ (oldC ++ List.replicate (2 ^ x.capExp - x.size) h.junk)⟩,
      rfl, ?_, ?_, ?_, ?_, ?_, hxne⟩
  · rw [Heap.find_setBuf_other _ _ hxne, hframe2 _ hxne]
    exact Heap.find_setBuf_self _ _ hb
  · rw [Heap.find_setBuf_self _ _ hfind2]
    rw [holdc, dataOff, if_pos hl]
  · intro q hq1 hq2
    rw [Heap.find_setBuf_other _ _ hq2, hframe2 _ hq2, Heap.find_setBuf_other _ _ hq1]
  · rw [Heap.junk_setBuf, h2junk, h1junk]
  · rw [Heap.length_setBuf, h2len]

theorem reallocP_null (h : Heap) (n : Nat) : h.reallocP 0 n = some (h.malloc n) := by
  unfold Heap.reallocP
  rw [if_pos rfl]

theorem alloc_realloc_null_medium {h : Heap} {x : Xs} {len : Nat}
    (hlen : len < 256) (hptr : x.ptr = 0) :
    xs_allocate_data h x len true =
      some ((h.malloc (2 ^ x.capExp)).1, { x with ptr := ptrOf h.bufs.length }) := by
  unfold xs_allocate_data
  rw [if_pos (by unfold LARGE_STRING_LEN; omega)]
  simp only [if_true]
  rw [hptr, reallocP_null]
  rfl

theorem alloc_realloc_null_large {h : Heap} {x : Xs} {len : Nat}
    (hlen : 256 ≤ len) (hptr : x.ptr = 0) :
    xs_allocate_data h x len true =
      some ((h.malloc (2 ^ x.capExp + 4)).1.setBuf (ptrOf h.bufs.length)
              ⟨bytesOfU32 (u32OfInt 1) ++ List.replicate (2 ^ x.capExp) h.junk⟩,
            { x with isLarge := true, ptr := ptrOf h.bufs.length }) := by
  have hfind1 := Heap.find_malloc_self h (2 ^ x.capExp + 4)
  unfold xs_allocate_data
  rw [if_neg (by unfold LARGE_STRING_LEN; omega)]
  simp only [if_true, Option.bind_eq_bind, Option.some_bind]
  rw [show ({ x with isLarge := true } : Xs).ptr = 0 from hptr, reallocP_null]
  simp only [Option.pure_def, Option.bind_eq_bind, Option.some_bind]
  rw [set_ref_count_eq hfind1]
  rw [drop_replicate]
  rfl

theorem xs_capacity_empty : xs_capacity xs_literal_empty = 15 := rfl

theorem grow_empty {h : Heap} {len : Nat} (hlen : 16 ≤ len) :
    ∃ h' t, xs_grow h xs_literal_empty len = some (h', t) ∧
      t.isPtr = true ∧ t.size = 0 ∧ t.capExp = ilog2 len + 1 ∧
      t.ptr = ptrOf h.bufs.length ∧ (t.isLarge = true ↔ 256 ≤ len) ∧
      (∃ bt, h'.find t.ptr = some bt ∧
        bt.data.length = 2 ^ t.capExp + dataOff t ∧
        bt.data.drop (dataOff t) = List.replicate (2 ^ t.capExp) h.junk) ∧
      (∀ q, q ≠ t.ptr → h'.find q = h.find q) ∧
      h'.junk = h.junk ∧ h'.bufs.length = h.bufs.length + 1 := by
  unfold xs_grow
  rw [if_neg (by rw [xs_capacity_empty]; omega)]
  rw [show (xs_literal_empty.isPtr : Bool) = false from rfl]
  simp only [Bool.false_eq_true, if_false]
  rw [show inlPtrOverlay xs_literal_empty = 0 from by decide,
      show inlSizeOverlay xs_literal_empty = 0 from by decide]
  by_cases hbig : len < 256
  · rw [alloc_realloc_null_medium hbig rfl]
    refine ⟨_, _, rfl, rfl, rfl, rfl, rfl, ?_, ?_, ?_, ?_, ?_⟩
    · exact ⟨fun hc => absurd (show (false : Bool) = true from hc) (by simp),
        fun hc => absurd hc (by omega)⟩
    · refine ⟨_, Heap.find_malloc_self h _, ?_, ?_⟩
      · show (List.replicate (2 ^ (ilog2 len + 1)) h.junk).length = 2 ^ (ilog2 len + 1) + 0
        simp
      · rfl
    · intro q hq
      exact Heap.find_malloc_other _ _ hq
    · exact Heap.junk_malloc _ _
    · exact Heap.length_malloc _ _
  · rw [alloc_realloc_null_large (by omega) rfl]
    refine ⟨_, _, rfl, rfl, rfl, rfl, rfl, ?_, ?_, ?_, ?_, ?_⟩
    · exact ⟨fun _ => by omega, fun _ => rfl⟩
    · refine ⟨_, Heap.find_setBuf_self _ _ (Heap.find_malloc_self h _), ?_, ?_⟩
      · show (bytesOfU32 (u32OfInt 1) ++ List.replicate (2 ^ (ilog2 len + 1)) h.junk).length
            = 2 ^ (ilog2 len + 1) + 4
        simp [length_bytesOfU32]
        omega
      · exact List.drop_left' (length_bytesOfU32 _)
    · intro q hq
      rw [Heap.find_setBuf_other _ _ hq, Heap.find_malloc_other _ _ hq]
    · rw [Heap.junk_setBuf, Heap.junk_malloc]
    · rw [Heap.length_setBuf, Heap.length_malloc]

theorem flagsByte_empty : flagsByte xs_literal_empty = 15 := rfl

theorem xsSetVirt_inline {h : Heap} {x : Xs} (hp : x.isPtr = false) (v : List Byte) :
    xsSetVirt h x v =
      (h, { x with inl := v.take 15, spaceLeft := (byteAt v 15) % 16,
                   isPtr := ((byteAt v 15) / 16 % 2 == 1),
                   isLarge := ((byteAt v 15) / 32 % 2 == 1) }) := by
  unfold xsSetVirt
  rw [if_neg (by simp [hp])]

theorem xs_new_inline {h : Heap} {p : List Byte} (hn : p.length ≤ 15) :
    xs_new h p =
      some (h, ⟨false, false, 0, 0, 0, p ++ List.replicate (15 - p.length) 0,
                15 - p.length⟩) := by
  unfold xs_new
  rw [if_neg (by omega)]
  dsimp only
  have hvlen : (xs_literal_empty.inl ++ [flagsByte xs_literal_empty]).length = 16 := rfl
  rw [writeB_some (by rw [hvlen]; simp; omega)]
  simp only [Option.bind_eq_bind, Option.some_bind, List.take_zero, List.nil_append,
    Nat.zero_add]
  rw [show (xs_literal_empty.inl ++ [flagsByte xs_literal_empty]) =
      List.replicate 15 0 ++ [15] from rfl]
  rw [xsSetVirt_inline rfl]
  simp only [List.length_append, List.length_cons, List.length_replicate,
    List.length_nil, Nat.add_sub_cancel]
  rcases Nat.lt_or_ge p.length 15 with hlt | hge
  · have hdrop : (List.replicate 15 (0 : Byte) ++ [15]).drop (p.length + 1) =
        List.replicate (14 - p.length) 0 ++ [15] := by
      rw [List.drop_append_eq_append_drop, List.drop_replicate,
          show p.length + 1 - (List.replicate 15 (0 : Byte)).length = 0 by simp; omega,
          List.drop_zero]
      congr 2
      omega
    rw [hdrop]
    have hb15 : byteAt ((p ++ [0]) ++ (List.replicate (14 - p.length) 0 ++ [15])) 15
        = 15 := by
      rw [byteAt, List.getD_append_right _ _ _ _ (by simp; omega),
          List.getD_append_right _ _ _ _ (by simp)]
      simp only [List.length_append, List.length_cons, List.length_nil,
        List.length_replicate]
      rw [show 15 - (p.length + 1) - (14 - p.length) = 0 by omega]
      rfl
    have htake : ((p ++ [0]) ++ (List.replicate (14 - p.length) 0 ++ [15])).take 15
        = p ++ List.replicate (15 - p.length) 0 := by
      rw [List.take_append_eq_append_take,
          List.take_of_length_le (l := p ++ [0]) (by simp; omega),
          List.take_append_of_le_length (by simp),
          List.take_of_length_le (by simp)]
      rw [List.append_assoc]
      congr 1
      rw [show 15 - p.length = (14 - p.length) + 1 by omega]
      rw [List.replicate_succ]
      rfl
    rw [hb15, htake]
    rfl
  · have h15 : p.length = 15 := by omega
    rw [h15]
    rw [List.drop_eq_nil_of_le (by simp), List.append_nil]
    have hb15 : byteAt (p ++ [0]) 15 = 0 := by
      rw [byteAt, List.getD_append_right _ _ _ _ (by omega), h15]
      rfl
    have htake : (p ++ [0]).take 15 = p ++ List.replicate (15 - 15) 0 := by
      rw [List.take_append_of_le_length (by omega), List.take_of_length_le (by omega)]
      simp
    rw [hb15, htake]
    rfl

theorem dataOff_zero {x : Xs} (hl : x.isLarge = false) : dataOff x = 0 := by
  rw [dataOff, if_neg (by simp [hl])]

theorem dataOff_four {x : Xs} (hl : x.isLarge = true) : dataOff x = 4 := by
  rw [dataOff, if_pos hl]

theorem alloc_fresh_large_eq {h : Heap} {x : Xs} {len : Nat} (hlen : 256 ≤ len) :
    xs_allocate_data h x len false =
      some ((h.malloc (2 ^ x.capExp + 4)).1.setBuf (ptrOf h.bufs.length)
              ⟨bytesOfU32 (u32OfInt 1) ++ List.replicate (2 ^ x.capExp) h.junk⟩,
            { x with isLarge := true, ptr := ptrOf h.bufs.length }) := by
  have hfind1 := Heap.find_malloc_self h (2 ^ x.capExp + 4)
  unfold xs_allocate_data
  rw [if_neg (by unfold LARGE_STRING_LEN; omega)]
  simp only [Bool.false_eq_true, if_false, Option.pure_def, Option.bind_eq_bind,
    Option.some_bind]
  rw [set_ref_count_eq hfind1]
  rw [drop_replicate]
  rfl

theorem xs_new_heap {h : Heap} {p : List Byte} (hn : 16 ≤ p.length) :
    ∃ h' x, xs_new h p = some (h', x) ∧
      x.isPtr = true ∧ x.size = p.length ∧ x.capExp = ilog2 (p.length + 1) + 1 ∧
      x.ptr = ptrOf h.bufs.length ∧ (x.isLarge = true ↔ 256 ≤ p.length) ∧
      (∃ b, h'.find x.ptr = some b ∧
        b.data.length = 2 ^ x.capExp + dataOff x ∧
        b.data.drop (dataOff x) =
          (p ++ [0]) ++ List.replicate (2 ^ x.capExp - (p.length + 1)) h.junk ∧
        (x.isLarge = true → bufCount b = 1)) ∧
      (∀ q, q ≠ x.ptr → h'.find q = h.find q) ∧
      h'.junk = h.junk ∧ h'.bufs.length = h.bufs.length + 1 := by
  have hcap : p.length + 1 < 2 ^ (ilog2 (p.length + 1) + 1) :=
    lt_two_pow_ilog2_succ (by omega)
  unfold xs_new
  rw [if_pos (by omega)]
  dsimp only
  simp only [Nat.add_sub_cancel]
  by_cases hbig : p.length < 256
  · rw [alloc_fresh_medium hbig]
    simp only [Option.bind_eq_bind, Option.some_bind]
    rw [xsVirt_heap rfl (Heap.find_malloc_self h _)]
    simp only [Option.bind_eq_bind, Option.some_bind]
    rw [dataOff_zero rfl, List.drop_zero]
    rw [writeB_some (by simp; omega)]
    simp only [Option.bind_eq_bind, Option.some_bind, List.take_zero, List.nil_append,
      Nat.zero_add, List.length_append, List.length_cons, List.length_nil]
    rw [xsSetVirt_heap rfl (Heap.find_malloc_self h _)]
    simp only [Option.pure_def]
    rw [dataOff_zero rfl, List.take_zero, List.nil_append, List.drop_replicate]
    refine ⟨_, _, rfl, rfl, rfl, rfl, rfl, ?_, ?_, ?_, ?_, ?_⟩
    · exact ⟨fun hc => absurd (show (false : Bool) = true from hc) (by simp),
        fun hc => absurd hc (by omega)⟩
    · refine ⟨_, Heap.find_setBuf_self _ _ (Heap.find_malloc_self h _), ?_, ?_, ?_⟩
      · rw [dataOff_zero rfl]
        simp
        omega
      · rw [dataOff_zero rfl, List.drop_zero]
      · intro hc
        exact absurd (show (false : Bool) = true from hc) (by simp)
    · intro q hq
      rw [Heap.find_setBuf_other _ _ hq, Heap.find_malloc_other _ _ hq]
    · rw [Heap.junk_setBuf, Heap.junk_malloc]
    · rw [Heap.length_setBuf, Heap.length_malloc]
  · rw [alloc_fresh_large_eq (by omega)]
    simp only [Option.bind_eq_bind, Option.some_bind]
    have hfind1 : ((h.malloc (2 ^ (ilog2 (p.length + 1) + 1) + 4)).1.setBuf
        (ptrOf h.bufs.length)
        ⟨bytesOfU32 (u32OfInt 1) ++
          List.replicate (2 ^ (ilog2 (p.length + 1) + 1)) h.junk⟩).find
        (ptrOf h.bufs.length) =
        some ⟨bytesOfU32 (u32OfInt 1) ++
          List.replicate (2 ^ (ilog2 (p.length + 1) + 1)) h.junk⟩ :=
      Heap.find_setBuf_self _ _ (Heap.find_malloc_self h _)
    rw [xsVirt_heap rfl hfind1]
    simp only [Option.bind_eq_bind, Option.some_bind]
    rw [dataOff_four rfl]
    rw [List.drop_left' (length_bytesOfU32 _)]
    rw [writeB_some (by simp; omega)]
    simp only [Option.bind_eq_bind, Option.some_bind, List.take_zero, List.nil_append,
      Nat.zero_add, List.length_append, List.length_cons, List.length_nil]
    rw [xsSetVirt_heap rfl hfind1]
    simp only [Option.pure_def]
    rw [dataOff_four rfl]
    rw [List.drop_replicate]
    rw [List.take_left' (length_bytesOfU32 _)]
    refine ⟨_, _, rfl, rfl, rfl, rfl, rfl, ?_, ?_, ?_, ?_, ?_⟩
    · exact ⟨fun _ => by omega, fun _ => rfl⟩
    · refine ⟨_, Heap.find_setBuf_self _ _ hfind1, ?_, ?_, ?_⟩
      · rw [dataOff_four rfl]
        simp [length_bytesOfU32]
        omega
      · rw [dataOff_four rfl]
        exact List.drop_left' (length_bytesOfU32 _)
      · intro _
        exact bufCount_one _
    · intro q hq
      rw [Heap.find_setBuf_other _ _ hq, Heap.find_setBuf_other _ _ hq,
          Heap.find_malloc_other _ _ hq]
    · rw [Heap.junk_setBuf, Heap.junk_setBuf, Heap.junk_malloc]
    · rw [Heap.length_setBuf, Heap.length_setBuf, Heap.length_malloc]

theorem freeP_of_find {h : Heap} {p : Nat} {b : Buffer} {i : Nat}
    (hb : h.find p = some b) (hid : idOf p = some i) :
    h.freeP p = some { h with bufs := h.bufs.set i none } := by
  unfold Heap.freeP
  rw [if_neg (by intro hc; rw [hc] at hid; unfold idOf at hid; simp at hid), hid, hb]

theorem find_freeP_self {h h' : Heap} {p : Nat} (hf : h.freeP p = some h') (hp : p ≠ 0) :
    h'.find p = none := by
  unfold Heap.freeP at hf
  rw [if_neg hp] at hf
  cases hid : idOf p with
  | none => rw [hid] at hf; cases hf
  | some i =>
    rw [hid] at hf
    cases hb : h.find p with
    | none => rw [hb] at hf; cases hf
    | some b =>
      rw [hb] at hf
      cases hf
      rw [Heap.find_of_idOf _ hid]
      show (h.bufs.set i none).getD i none = none
      rw [List.getD_eq_getElem?_getD, List.getElem?_set_eq_of_lt _ (lt_of_find hb hid)]
      rfl

theorem find_freeP_other {h h' : Heap} {p q : Nat} (hf : h.freeP p = some h')
    (hq : q ≠ p) : h'.find q = h.find q := by
  by_cases hp0 : p = 0
  · unfold Heap.freeP at hf
    rw [if_pos hp0] at hf
    cases hf
    rfl
  · unfold Heap.freeP at hf
    rw [if_neg hp0] at hf
    cases hid : idOf p with
    | none => rw [hid] at hf; cases hf
    | some i =>
      rw [hid] at hf
      cases hb : h.find p with
      | none => rw [hb] at hf; cases hf
      | some b =>
        rw [hb] at hf
        cases hf
        cases hidq : idOf q with
        | none => rw [Heap.find_of_idOf_none _ hidq, Heap.find_of_idOf_none _ hidq]
        | some j =>
          have hij : i ≠ j := by
            intro hc
            exact hq ((eq_ptrOf_of_idOf hidq).trans (hc ▸ eq_ptrOf_of_idOf hid).symm)
          rw [Heap.find_of_idOf _ hidq, Heap.find_of_idOf _ hidq]
          show (h.bufs.set i none).getD j none = _
          rw [List.getD_eq_getElem?_getD, List.getElem?_set_ne hij,
              List.getD_eq_getElem?_getD]

theorem junk_freeP {h h' : Heap} {p : Nat} (hf : h.freeP p = some h') :
    h'.junk = h.junk := by
  unfold Heap.freeP at hf
  split at hf
  · cases hf
    rfl
  · split at hf
    · cases hf
      rfl
    · cases hf

theorem length_freeP {h h' : Heap} {p : Nat} (hf : h.freeP p = some h') :
    h'.bufs.length = h.bufs.length := by
  unfold Heap.freeP at hf
  split at hf
  · cases hf
    rfl
  · split at hf
    · cases hf
      simp
    · cases hf

theorem xs_free_inline {h : Heap} {x : Xs} (hp : x.isPtr = false) :
    xs_free h x = some (h, xs_literal_empty) := by
  unfold xs_free
  rw [if_neg (by simp [hp])]
  rfl

theorem xs_free_empty (h : Heap) : xs_free h xs_literal_empty = some (h, xs_literal_empty) :=
  xs_free_inline rfl

theorem xs_free_medium {h : Heap} {x : Xs} {b : Buffer} (hp : x.isPtr = true)
    (hl : x.isLarge = false) (hb : h.find x.ptr = some b) :
    ∃ h', xs_free h x = some (h', xs_literal_empty) ∧ h'.find x.ptr = none ∧
      (∀ q, q ≠ x.ptr → h'.find q = h.find q) ∧
      h'.junk = h.junk ∧ h'.bufs.length = h.bufs.length := by
  obtain ⟨i, hpi, hilt⟩ := ptr_lt_of_find hb
  have hid : idOf x.ptr = some i := by rw [hpi, idOf_ptrOf]
  have hfp := freeP_of_find hb hid
  refine ⟨_, ?_, find_freeP_self hfp (by rw [hpi]; unfold ptrOf; omega), ?_, ?_, ?_⟩
  · unfold xs_free
    rw [if_pos hp]
    unfold xs_dec_ref_count
    rw [if_neg (by simp [hl])]
    simp only [Option.bind_eq_bind, Option.some_bind]
    rw [if_pos (by omega)]
    rw [hfp]
    rfl
  · intro q hq
    exact find_freeP_other hfp hq
  · exact junk_freeP hfp
  · exact length_freeP hfp

theorem xs_free_large_shared {h : Heap} {x : Xs} {b : Buffer} (hp : x.isPtr = true)
    (hl : x.isLarge = true) (hb : h.find x.ptr = some b) (hc : 1 ≤ bufCount b - 1) :
    xs_free h x =
      some (h.setBuf x.ptr ⟨bytesOfU32 (u32OfInt (bufCount b - 1)) ++ b.data.drop 4⟩,
            xs_literal_empty) := by
  unfold xs_free
  rw [if_pos hp]
  rw [dec_ref_count_large hl hb]
  simp only [Option.bind_eq_bind, Option.some_bind]
  rw [if_neg (by omega)]
  rfl

theorem xs_free_large_last {h : Heap} {x : Xs} {b : Buffer} (hp : x.isPtr = true)
    (hl : x.isLarge = true) (hb : h.find x.ptr = some b) (hc : bufCount b - 1 ≤ 0) :
    ∃ h', xs_free h x = some (h', xs_literal_empty) ∧ h'.find x.ptr = none ∧
      (∀ q, q ≠ x.ptr → h'.find q = h.find q) ∧
      h'.junk = h.junk ∧ h'.bufs.length = h.bufs.length := by
  obtain ⟨i, hpi, hilt⟩ := ptr_lt_of_find hb
  have hid : idOf x.ptr = some i := by rw [hpi, idOf_ptrOf]
  set h1 : Heap := h.setBuf x.ptr ⟨bytesOfU32 (u32OfInt (bufCount b - 1)) ++ b.data.drop 4⟩
    with hh1
  have hfind1 : h1.find x.ptr =
      some ⟨bytesOfU32 (u32OfInt (bufCount b - 1)) ++ b.data.drop 4⟩ :=
    Heap.find_setBuf_self _ _ hb
  have hfp := freeP_of_find hfind1 hid
  refine ⟨_, ?_, find_freeP_self hfp (by rw [hpi]; unfold ptrOf; omega), ?_, ?_, ?_⟩
  · unfold xs_free
    rw [if_pos hp]
    rw [dec_ref_count_large hl hb]
    simp only [Option.bind_eq_bind, Option.some_bind]
    rw [if_pos hc]
    rw [← hh1, hfp]
    rfl
  · intro q hq
    rw [find_freeP_other hfp hq, Heap.find_setBuf_other _ _ hq]
  · rw [junk_freeP hfp, Heap.junk_setBuf]
  · rw [length_freeP hfp, Heap.length_setBuf]

theorem xs_copy_inline {h : Heap} {x : Xs} (hp : x.isPtr = false) :
    xs_copy h x = some (h, x) := by
  unfold xs_copy
  rw [hp]
  rfl

theorem xs_copy_large {h : Heap} {x : Xs} {b : Buffer} (hp : x.isPtr = true)
    (hl : x.isLarge = true) (hb : h.find x.ptr = some b) :
    xs_copy h x =
      some (h.setBuf x.ptr ⟨bytesOfU32 (u32OfInt (bufCount b + 1)) ++ b.data.drop 4⟩, x) := by
  unfold xs_copy
  rw [hp]
  simp only [Bool.not_true, Bool.false_eq_true, if_false]
  rw [if_pos hl]
  rw [inc_ref_count_large hl hb]
  rfl

theorem xs_copy_medium {h : Heap} {x : Xs} {b : Buffer} (hp : x.isPtr = true)
    (hl : x.isLarge = false) (hb : h.find x.ptr = some b)
    (hsz : x.size ≤ b.data.length) (hsz2 : x.size ≤ 2 ^ x.capExp) :
    xs_copy h x =
      some ((h.malloc (2 ^ x.capExp)).1.setBuf (ptrOf h.bufs.length)
              ⟨b.data.take x.size ++ List.replicate (2 ^ x.capExp - x.size) h.junk⟩,
            { x with ptr := ptrOf h.bufs.length }) := by
  unfold xs_copy
  rw [hp]
  simp only [Bool.not_true, Bool.false_eq_true, if_false]
  rw [if_neg (by simp [hl])]
  rw [Heap.find_malloc_other h (2 ^ x.capExp) (find_ne_fresh hb _), hb]
  simp only [Option.bind_eq_bind, Option.some_bind]
  rw [readB_some (by omega), List.drop_zero]
  simp only [Option.bind_eq_bind, Option.some_bind]
  rw [Heap.find_malloc_self]
  simp only [Option.bind_eq_bind, Option.some_bind]
  rw [writeB_some (by simp; omega)]
  simp only [Option.bind_eq_bind, Option.some_bind, List.take_zero, List.nil_append,
    Nat.zero_add, List.length_take]
  rw [List.drop_replicate, Nat.min_eq_left hsz]
  simp only [Option.pure_def]
  rw [show (h.malloc (2 ^ x.capExp)).2 = ptrOf h.bufs.length from rfl]
  rw [hp]

/-- C4: `xs_new` selects the storage tier from the content length: at most 15
bytes stay inline (heap flags false, capacity 15), lengths 16 to 255 allocate an
exclusive heap buffer (is_ptr true, is_large_string false), and lengths of 256 or
more allocate a shared buffer whose reference count is initialised to 1. -/
theorem xs_new_storage_tiers (h : Heap) (p : List Byte) :
    (p.length ≤ 15 →
      newTier h p = some (false, false) ∧ newSize h p = some p.length ∧
      newCap h p = some 15) ∧
    (16 ≤ p.length → p.length < 256 → newTier h p = some (true, false)) ∧
    (256 ≤ p.length → newTier h p = some (true, true) ∧ newRef h p = some (some 1)) := by
  refine ⟨?_, ?_, ?_⟩
  · intro hn
    rw [newTier, newSize, newCap, xs_new_inline hn]
    refine ⟨rfl, ?_, rfl⟩
    simp only [Option.map_some']
    rw [xs_size, if_neg (by simp)]
    show some (15 - (15 - p.length)) = some p.length
    congr 1
    omega
  · intro hn hmid
    obtain ⟨h', x, heq, hp, _, _, _, hiff, _, _, _, _⟩ := xs_new_heap hn
    rw [newTier, heq]
    simp only [Option.map_some', Option.some.injEq]
    have : x.isLarge = false := by
      cases hl : x.isLarge
      · rfl
      · exact absurd (hiff.mp hl) (by omega)
    rw [hp, this]
  · intro hn
    obtain ⟨h', x, heq, hp, _, _, _, hiff, ⟨b, hb, _, _, hcount⟩, _, _, _⟩ :=
      xs_new_heap (p := p) (by omega)
    have hl : x.isLarge = true := hiff.mpr hn
    constructor
    · rw [newTier, heq]
      simp only [Option.map_some', Option.some.injEq]
      rw [hp, hl]
    · rw [newRef, heq]
      simp only [Option.map_some', Option.some.injEq]
      rw [refAt, hb]
      simp [hcount hl]

set_option maxRecDepth 40000 in
theorem xs_new_storage_tiers_witness :
    (newTier ⟨[], 7⟩ [104, 105] = some (false, false) ∧
      newSize ⟨[], 7⟩ [104, 105] = some 2 ∧ newCap ⟨[], 7⟩ [104, 105] = some 15) ∧
    newTier ⟨[], 7⟩ (List.replicate 16 97) = some (true, false) ∧
    (newTier ⟨[], 7⟩ (List.replicate 256 97) = some (true, true) ∧
      newRef ⟨[], 7⟩ (List.replicate 256 97) = some (some 1)) :=
  ⟨(xs_new_storage_tiers ⟨[], 7⟩ [104, 105]).1 (by decide),
   (xs_new_storage_tiers ⟨[], 7⟩ (List.replicate 16 97)).2.1 (by decide) (by decide),
   (xs_new_storage_tiers ⟨[], 7⟩ (List.replicate 256 97)).2.2 (by decide)⟩

theorem alloc_capExp {h : Heap} {x : Xs} {len : Nat} {r : Bool} {h' : Heap} {x' : Xs}
    (he : xs_allocate_data h x len r = some (h', x')) : x'.capExp = x.capExp := by
  unfold xs_allocate_data at he
  split at he
  · split at he
    · cases hre : Heap.reallocP h x.ptr (2 ^ x.capExp) with
      | none => rw [hre] at he; cases he
      | some hp =>
        rw [hre] at he
        simp only [Option.bind_eq_bind, Option.some_bind, Option.pure_def,
          Option.some.injEq, Prod.mk.injEq] at he
        rw [← he.2]
    · simp only [Option.pure_def, Option.some.injEq, Prod.mk.injEq] at he
      rw [← he.2]
  · split at he
    · dsimp only at he
      cases hre : h.reallocP x.ptr (2 ^ x.capExp + 4) with
      | none => rw [hre] at he; cases he
      | some hp =>
        rw [hre] at he
        simp only [Option.bind_eq_bind, Option.some_bind, Option.pure_def,
          Option.some.injEq, Prod.mk.injEq] at he
        rw [← he.2]
    · dsimp only at he
      simp only [Option.pure_def, Option.bind_eq_bind, Option.some_bind,
        Option.some.injEq, Prod.mk.injEq] at he
      rw [← he.2]

/-- C5 (amended): on the growth path `xs_grow` picks the minimal capacity
exponent, `ilog2 len + 1`, so `len` fits below `2 ^ capExp`; but on the
construction path `xs_new` applies the same formula to `n + 1` (content plus the
NUL terminator), which is minimal exactly when `n + 1` is not a power of two —
when `n + 1 = 2 ^ j` the chosen exponent is `j + 1` although `n` already fits in
`2 ^ j - 1`. The spec's unconditional minimality claim therefore fails. -/
theorem capacity_exponent_minimality :
    (∀ h x len h' x', xs_grow h x len = some (h', x') → xs_capacity x < len →
      x'.capExp = ilog2 len + 1 ∧ len ≤ 2 ^ x'.capExp - 1 ∧
      (∀ k, len ≤ 2 ^ k - 1 → x'.capExp ≤ k)) ∧
    (∀ h p, 16 ≤ (p : List Byte).length →
      newCapExp h p = some (ilog2 (p.length + 1) + 1) ∧
      (∀ h' x, xs_new h p = some (h', x) →
        p.length ≤ 2 ^ x.capExp - 1 ∧
        ((∀ j, p.length + 1 ≠ 2 ^ j) → ∀ k, p.length ≤ 2 ^ k - 1 → x.capExp ≤ k) ∧
        (∀ j, p.length + 1 = 2 ^ j → x.capExp = j + 1 ∧ p.length ≤ 2 ^ j - 1))) := by
  constructor
  · intro h x len h' x' heq hlt
    have hlen1 : 1 ≤ len := by
      have : 0 ≤ xs_capacity x := Nat.zero_le _
      omega
    unfold xs_grow at heq
    rw [if_neg (by omega)] at heq
    have hcap : x'.capExp = ilog2 len + 1 := alloc_capExp heq
    refine ⟨hcap, ?_, ?_⟩
    · have := lt_two_pow_ilog2_succ hlen1
      rw [hcap]
      omega
    · intro k hk
      rw [hcap]
      have h2k : 1 ≤ 2 ^ k := Nat.one_le_two_pow
      exact ilog2_succ_le hlen1 (by omega)
  · intro h p hn
    obtain ⟨h2, x2, heq2, _, _, hcap2, _, _, _, _, _, _⟩ := xs_new_heap hn
    constructor
    · rw [newCapExp, heq2]
      simp only [Option.map_some', Option.some.injEq]
      exact hcap2
    · intro h' x heq
      rw [heq] at heq2
      simp only [Option.some.injEq, Prod.mk.injEq] at heq2
      obtain ⟨rfl, rfl⟩ := heq2
      have hcap : x.capExp = ilog2 (p.length + 1) + 1 := hcap2
      have hlt := lt_two_pow_ilog2_succ (n := p.length + 1) (by omega)
      refine ⟨by rw [hcap]; omega, ?_, ?_⟩
      · intro hnp k hk
        rw [hcap]
        have h2k : 1 ≤ 2 ^ k := Nat.one_le_two_pow
        have hle : p.length + 1 ≤ 2 ^ k := by omega
        have hne : p.length + 1 ≠ 2 ^ k := hnp k
        exact ilog2_succ_le (by omega) (by omega)
      · intro j hj
        constructor
        · rw [hcap, hj, ilog2_eq_log2, Nat.log2_two_pow]
        · have h2j : 1 ≤ 2 ^ j := Nat.one_le_two_pow
          omega

/-- C5 counterexample: constructing a 31-byte string yields capacity exponent 6
even though 31 bytes plus the terminator fit within `2 ^ 5`. -/
theorem capacity_exponent_not_minimal_at_31 :
    newCapExp ⟨[], 7⟩ (List.replicate 31 97) = some 6 ∧
    (31 : Nat) ≤ 2 ^ 5 - 1 ∧ (5 : Nat) < 6 := by
  refine ⟨?_, by omega, by omega⟩
  decide

set_option maxRecDepth 40000 in
theorem capacity_exponent_minimality_witness :
    xs_grow ⟨[], 7⟩ xs_literal_empty 20 =
      some (⟨[some ⟨List.replicate 32 7⟩], 7⟩,
            ⟨true, false, 8, 0, 5, List.replicate 15 0, 15⟩) ∧
    (5 : Nat) = ilog2 20 + 1 ∧
    newCapExp ⟨[], 7⟩ (List.replicate 20 97) = some 5 := by
  have hg := (capacity_exponent_minimality.1 ⟨[], 7⟩ xs_literal_empty 20
    ⟨[some ⟨List.replicate 32 7⟩], 7⟩ ⟨true, false, 8, 0, 5, List.replicate 15 0, 15⟩
    (by decide) (by decide)).1
  have hc := (capacity_exponent_minimality.2 ⟨[], 7⟩ (List.replicate 20 97) (by decide)).1
  refine ⟨by decide, ?_, ?_⟩
  · show (5 : Nat) = ilog2 20 + 1
    decide
  · rw [hc]
    decide

/-- C7: `xs_grow` sets the `is_ptr` flag before testing it, so the branch that
should copy the 15 inline bytes into the new heap buffer is unreachable and the
union's inline bytes are reinterpreted as a pointer handed to `realloc`. Growing
an 8-byte inline string faults: the overlay pointer is not a valid allocation,
so the spec's claim that the inline bytes are preserved does not hold. -/
theorem xs_grow_inline_promotion_is_broken :
    newThenGrow ⟨[], 7⟩ [97, 98, 99, 100, 101, 102, 103, 104] 100 = none := by
  decide

set_option maxRecDepth 40000 in
/-- C9: `xs_copy` of a medium (exclusive heap) string copies only `size` bytes
and never writes the NUL terminator, so the terminator byte of the copy is
whatever the fresh allocation held. Copying a 16-byte string on a heap whose
uninitialised memory reads as 7 leaves terminator byte 7, not 0, breaking the
spec's terminator invariant. -/
theorem xs_copy_medium_drops_terminator :
    newThenCopyTerm ⟨[], 7⟩ (List.replicate 16 97) = some 7 ∧ (7 : Byte) ≠ 0 := by
  refine ⟨by decide, by decide⟩

theorem cutsetMem_of_takeWhile (cutset : List Byte) :
    cutsetMem (cutset.takeWhile (· ≠ 0)) = cutsetMem cutset := by
  funext b
  rw [cutsetMem, cutsetMem, List.takeWhile_idem]

theorem byteAt_takeWhile_zero (cutset : List Byte) :
    byteAt (cutset.takeWhile (· ≠ 0)) 0 = byteAt cutset 0 := by
  cases cutset with
  | nil => rfl
  | cons a l =>
    by_cases ha : a = 0
    · rw [ha]
      rfl
    · rw [List.takeWhile_cons_of_pos (by simp [ha])]
      rfl

/-- C10: the cutset handed to `xs_trim` is treated as a NUL-terminated string:
bytes at and after the first 0 are ignored (trimming with the cutset equals
trimming with its prefix before the first 0), byte 0 itself is never a cutset
member for byte-valued cutsets, and a cutset starting with 0 makes the call a
no-op returning the string unchanged. -/
theorem xs_trim_cutset_is_nul_terminated (h : Heap) (x : Xs) (cutset : List Byte) :
    xs_trim h x cutset = xs_trim h x (cutset.takeWhile (· ≠ 0)) ∧
    ((∀ t ∈ cutset, t < 256) → cutsetMem cutset 0 = false) ∧
    (byteAt cutset 0 = 0 → xs_trim h x cutset = some (h, x)) := by
  refine ⟨?_, ?_, ?_⟩
  · unfold xs_trim
    rw [cutsetMem_of_takeWhile, byteAt_takeWhile_zero]
  · intro hb
    rw [cutsetMem]
    rw [List.any_eq_false]
    intro t ht
    have htc : t ∈ cutset := List.Sublist.subset (List.takeWhile_sublist _) ht
    have htz := List.mem_takeWhile_imp ht
    simp only [ne_eq, decide_not, Bool.not_eq_eq_eq_not, Bool.not_true,
      decide_eq_false_iff_not] at htz
    have hlt : t < 256 := hb t htc
    simp only [decide_eq_true_eq]
    intro hc
    rw [Nat.mod_eq_of_lt hlt] at hc
    simp at hc
    exact htz hc
  · intro hz
    unfold xs_trim
    rw [if_pos hz]

theorem xs_trim_cutset_is_nul_terminated_witness :
    cutsetMem [10, 0, 32] 0 = false ∧
    xs_trim ⟨[], 7⟩ xs_literal_empty [0, 5] = some (⟨[], 7⟩, xs_literal_empty) :=
  ⟨(xs_trim_cutset_is_nul_terminated ⟨[], 7⟩ xs_literal_empty [10, 0, 32]).2.1 (by decide),
   (xs_trim_cutset_is_nul_terminated ⟨[], 7⟩ xs_literal_empty [0, 5]).2.2 (by decide)⟩

theorem cloneN_large {x : Xs} (hp : x.isPtr = true) (hl : x.isLarge = true) :
    ∀ (n : Nat) (h : Heap) (b : Buffer), h.find x.ptr = some b →
      0 ≤ bufCount b → bufCount b + n < 2 ^ 31 →
      ∃ h' b', cloneN h x n = some h' ∧ h'.find x.ptr = some b' ∧
        bufCount b' = bufCount b + n ∧ b'.data.drop 4 = b.data.drop 4 := by
  intro n
  induction n with
  | zero =>
    intro h b hb h0 hlt
    exact ⟨h, b, rfl, hb, by omega, rfl⟩
  | succ n ih =>
    intro h b hb h0 hlt
    have hcopy := xs_copy_large hp hl hb
    set b1 : Buffer := ⟨bytesOfU32 (u32OfInt (bufCount b + 1)) ++ b.data.drop 4⟩ with hb1
    have hf1 : (h.setBuf x.ptr b1).find x.ptr = some b1 := Heap.find_setBuf_self _ _ hb
    have hc1 : bufCount b1 = bufCount b + 1 := bufCount_store _ _ (by omega) (by omega)
    have hd1 : b1.data.drop 4 = b.data.drop 4 := by
      rw [hb1]
      exact List.drop_left' (length_bytesOfU32 _)
    obtain ⟨h', b', hcl, hf', hc', hd'⟩ :=
      ih (h.setBuf x.ptr b1) b1 hf1 (by omega) (by omega)
    refine ⟨h', b', ?_, hf', by omega, by rw [hd', hd1]⟩
    rw [cloneN, hcopy]
    simp only [Option.bind_eq_bind, Option.some_bind]
    exact hcl

theorem freeN_large {x : Xs} (hp : x.isPtr = true) (hl : x.isLarge = true) :
    ∀ (n : Nat) (h : Heap) (b : Buffer), h.find x.ptr = some b →
      bufCount b < 2 ^ 31 → (n : Int) + 1 ≤ bufCount b →
      ∃ h' b', freeN h x n = some h' ∧ h'.find x.ptr = some b' ∧
        bufCount b' = bufCount b - n ∧ b'.data.drop 4 = b.data.drop 4 := by
  intro n
  induction n with
  | zero =>
    intro h b hb hlt hge
    exact ⟨h, b, rfl, hb, by omega, rfl⟩
  | succ n ih =>
    intro h b hb hlt hge
    have hge1 : (1 : Int) ≤ bufCount b - 1 := by
      push_cast at hge
      omega
    have hfree := xs_free_large_shared hp hl hb hge1
    set b1 : Buffer := ⟨bytesOfU32 (u32OfInt (bufCount b - 1)) ++ b.data.drop 4⟩ with hb1
    have hf1 : (h.setBuf x.ptr b1).find x.ptr = some b1 := Heap.find_setBuf_self _ _ hb
    have hc1 : bufCount b1 = bufCount b - 1 := bufCount_store _ _ (by omega) (by omega)
    have hd1 : b1.data.drop 4 = b.data.drop 4 := by
      rw [hb1]
      exact List.drop_left' (length_bytesOfU32 _)
    obtain ⟨h', b', hfr, hf', hc', hd'⟩ := ih (h.setBuf x.ptr b1) b1 hf1 (by omega)
      (by push_cast at hge ⊢; omega)
    refine ⟨h', b', ?_, hf', by push_cast; omega, by rw [hd', hd1]⟩
    rw [freeN, hfree]
    simp only [Option.bind_eq_bind, Option.some_bind]
    exact hfr

/-- C6: cloning a Shared-heap value whose header count is 1 a total of `m` times
raises the count to `m + 1`; then releasing `m` of the `m + 1` aliases brings
the count of the survivor back to exactly 1 and leaves the backing allocation
alive.  (The count is bounded so the 32-bit header does not wrap.) -/
theorem shared_clone_release_refcounts (h : Heap) (x : Xs) (b : Buffer) (m : Nat)
    (hp : x.isPtr = true) (hl : x.isLarge = true) (hb : h.find x.ptr = some b)
    (hc : bufCount b = 1) (hm : (m : Int) + 1 < 2 ^ 31) :
    cloneRef h x m = some (some ((m : Int) + 1)) ∧
    cloneFreeRef h x m = some (some 1) ∧
    cloneFreeLive h x m = some true := by
  obtain ⟨h1, b1, hcl, hf1, hc1, _⟩ :=
    cloneN_large hp hl m h b hb (by omega) (by omega)
  have hc1' : bufCount b1 = 1 + (m : Int) := by rw [hc1, hc]
  obtain ⟨h2, b2, hfr, hf2, hc2, _⟩ :=
    freeN_large hp hl m h1 b1 hf1 (by rw [hc1']; omega) (by rw [hc1']; omega)
  refine ⟨?_, ?_, ?_⟩
  · rw [cloneRef, hcl, Option.map_some']
    rw [refAt, hf1, Option.map_some', hc1', Int.add_comm]
  · rw [cloneFreeRef, hcl, Option.some_bind, hfr, Option.map_some']
    rw [refAt, hf2, Option.map_some', hc2, hc1', add_sub_cancel_right]
  · rw [cloneFreeLive, hcl, Option.some_bind, hfr, Option.map_some', hf2]
    rfl

theorem shared_clone_release_refcounts_witness :
    cloneRef ⟨[some ⟨[1, 0, 0, 0, 97, 98]⟩], 7⟩
        ⟨true, true, 8, 1, 9, List.replicate 15 0, 15⟩ 2 = some (some 3) ∧
    cloneFreeRef ⟨[some ⟨[1, 0, 0, 0, 97, 98]⟩], 7⟩
        ⟨true, true, 8, 1, 9, List.replicate 15 0, 15⟩ 2 = some (some 1) ∧
    cloneFreeLive ⟨[some ⟨[1, 0, 0, 0, 97, 98]⟩], 7⟩
        ⟨true, true, 8, 1, 9, List.replicate 15 0, 15⟩ 2 = some true :=
  shared_clone_release_refcounts ⟨[some ⟨[1, 0, 0, 0, 97, 98]⟩], 7⟩
    ⟨true, true, 8, 1, 9, List.replicate 15 0, 15⟩ ⟨[1, 0, 0, 0, 97, 98]⟩ 2
    rfl rfl (by decide) (by decide) (by decide)

/-- C8: `xs_free` always resets the value to the canonical empty inline state;
an Exclusive-heap buffer is freed unconditionally, a Shared-heap buffer is
decremented first and freed only when the count reaches 0 (count 1 before the
call); releasing the result of a release is safe and is a no-op on the heap. -/
theorem xs_free_resets_and_reenters (h : Heap) (x : Xs) :
    (∀ h' x', xs_free h x = some (h', x') → x' = xs_literal_empty) ∧
    (x.isPtr = true → x.isLarge = false → ∀ b, h.find x.ptr = some b →
      ∃ h', xs_free h x = some (h', xs_literal_empty) ∧ h'.find x.ptr = none) ∧
    (x.isPtr = true → x.isLarge = true → ∀ b, h.find x.ptr = some b →
      2 ≤ bufCount b → bufCount b < 2 ^ 31 →
      freeObs h x = some (xs_literal_empty, false) ∧
      (xs_free h x).map (fun r => refAt r.1 x.ptr) = some (some (bufCount b - 1))) ∧
    (x.isPtr = true → x.isLarge = true → ∀ b, h.find x.ptr = some b →
      bufCount b = 1 → freeObs h x = some (xs_literal_empty, true)) ∧
    (∀ h' x', xs_free h x = some (h', x') → xs_free h' x' = some (h', xs_literal_empty)) := by
  have hreset : ∀ h' x', xs_free h x = some (h', x') → x' = xs_literal_empty := by
    intro h' x' hr
    unfold xs_free at hr
    split at hr
    · simp only [Option.bind_eq_bind] at hr
      cases hd : xs_dec_ref_count h x with
      | none => rw [hd] at hr; cases hr
      | some p =>
        obtain ⟨h1, v⟩ := p
        rw [hd] at hr
        simp only [Option.some_bind] at hr
        split at hr
        · cases hf : h1.freeP x.ptr with
          | none => rw [hf] at hr; cases hr
          | some h2 =>
            rw [hf] at hr
            simp only [Option.some_bind, Option.pure_def, Option.some.injEq,
              Prod.mk.injEq] at hr
            exact hr.2.symm
        · simp only [Option.pure_def, Option.some.injEq, Prod.mk.injEq] at hr
          exact hr.2.symm
    · simp only [Option.pure_def, Option.some.injEq, Prod.mk.injEq] at hr
      exact hr.2.symm
  refine ⟨hreset, ?_, ?_, ?_, ?_⟩
  · intro hp hl b hb
    obtain ⟨h', he, hn, _, _, _⟩ := xs_free_medium hp hl hb
    exact ⟨h', he, hn⟩
  · intro hp hl b hb hc hlt
    rw [freeObs, xs_free_large_shared hp hl hb (by omega), Option.map_some']
    constructor
    · congr 2
      show ((h.setBuf x.ptr
          ⟨bytesOfU32 (u32OfInt (bufCount b - 1)) ++ b.data.drop 4⟩).find x.ptr).isNone
        = false
      rw [Heap.find_setBuf_self _ _ hb]
      rfl
    · rw [Option.map_some']
      show some (refAt (h.setBuf x.ptr
          ⟨bytesOfU32 (u32OfInt (bufCount b - 1)) ++ b.data.drop 4⟩) x.ptr)
        = some (some (bufCount b - 1))
      rw [refAt, Heap.find_setBuf_self _ _ hb, Option.map_some']
      rw [bufCount_store _ _ (by omega) (by omega)]
  · intro hp hl b hb hc
    obtain ⟨h', he, hn, _, _, _⟩ := xs_free_large_last hp hl hb (by omega)
    rw [freeObs, he, Option.map_some', hn]
    rfl
  · intro h' x' hr
    rw [hreset h' x' hr]
    exact xs_free_empty h'

theorem xs_free_resets_and_reenters_witness :
    (∃ h', xs_free ⟨[some ⟨List.replicate 32 7⟩], 7⟩
        ⟨true, false, 8, 16, 5, List.replicate 15 0, 15⟩ = some (h', xs_literal_empty) ∧
      h'.find 8 = none) ∧
    freeObs ⟨[some ⟨[2, 0, 0, 0, 97, 0]⟩], 7⟩
        ⟨true, true, 8, 1, 9, List.replicate 15 0, 15⟩ = some (xs_literal_empty, false) ∧
    freeObs ⟨[some ⟨[1, 0, 0, 0, 97, 0]⟩], 7⟩
        ⟨true, true, 8, 1, 9, List.replicate 15 0, 15⟩ = some (xs_literal_empty, true) :=
  ⟨(xs_free_resets_and_reenters ⟨[some ⟨List.replicate 32 7⟩], 7⟩
      ⟨true, false, 8, 16, 5, List.replicate 15 0, 15⟩).2.1 rfl rfl
      ⟨List.replicate 32 7⟩ (by decide),
   ((xs_free_resets_and_reenters ⟨[some ⟨[2, 0, 0, 0, 97, 0]⟩], 7⟩
      ⟨true, true, 8, 1, 9, List.replicate 15 0, 15⟩).2.2.1 rfl rfl
      ⟨[2, 0, 0, 0, 97, 0]⟩ (by decide) (by decide) (by decide)).1,
   (xs_free_resets_and_reenters ⟨[some ⟨[1, 0, 0, 0, 97, 0]⟩], 7⟩
      ⟨true, true, 8, 1, 9, List.replicate 15 0, 15⟩).2.2.2.1 rfl rfl
      ⟨[1, 0, 0, 0, 97, 0]⟩ (by decide) (by decide)⟩

theorem byteAt_drop (v : List Byte) (m k : Nat) :
    byteAt (v.drop m) k = byteAt v (m + k) := by
  rw [byteAt, byteAt, List.getD_eq_getElem?_getD, List.getD_eq_getElem?_getD,
      List.getElem?_drop]

theorem byteAt_append_right {a : List Byte} (rest : List Byte) {k : Nat}
    (h : a.length ≤ k) : byteAt (a ++ rest) k = byteAt rest (k - a.length) := by
  rw [byteAt, byteAt, List.getD_append_right _ _ _ _ h]

theorem byteAt_take {v : List Byte} {n k : Nat} (h : k < n) :
    byteAt (v.take n) k = byteAt v k := by
  rw [byteAt, byteAt, List.getD_eq_getElem?_getD, List.getD_eq_getElem?_getD,
      List.getElem?_take_of_lt h]

theorem readB_succ {v : List Byte} {n : Nat} (h : n + 1 ≤ v.length) :
    readB v 0 (n + 1) = some (v.take n ++ [byteAt v n]) := by
  rw [readB_some (by omega), List.drop_zero, List.take_succ]
  congr 1
  rw [List.getElem?_eq_getElem (by omega)]
  rw [byteAt, List.getD_eq_getElem?_getD, List.getElem?_eq_getElem (by omega)]
  rfl

theorem bufCount_take4_append {bd : List Byte} (v : List Byte) (h4 : 4 ≤ bd.length) :
    bufCount ⟨bd.take 4 ++ v⟩ = bufCount ⟨bd⟩ := by
  unfold bufCount leU32
  have hb : ∀ k, k < 4 → byteAt (bd.take 4 ++ v) k = byteAt bd k := by
    intro k hk
    rw [byteAt, List.getD_append _ _ _ _ (by rw [List.length_take]; omega)]
    exact byteAt_take hk
  rw [hb 0 (by omega), hb 1 (by omega), hb 2 (by omega), hb 3 (by omega)]

theorem content_after_setBuf {h : Heap} {x : Xs} {b : Buffer} {v' : List Byte}
    {total : Nat} (hp : x.isPtr = true) (hb : h.find x.ptr = some b)
    (hdo : dataOff x ≤ b.data.length) (hlen : total ≤ v'.length) :
    xsContent (h.setBuf x.ptr ⟨b.data.take (dataOff x) ++ v'⟩) { x with size := total } =
      some (v'.take total) := by
  unfold xsContent xsVirt
  rw [show ({ x with size := total } : Xs).isPtr = x.isPtr from rfl, if_pos hp]
  rw [show ({ x with size := total } : Xs).ptr = x.ptr from rfl]
  rw [Heap.find_setBuf_self _ _ hb]
  simp only [Option.bind_eq_bind, Option.some_bind]
  rw [show dataOff { x with size := total } = dataOff x from rfl]
  rw [List.drop_append_of_le_length (by rw [List.length_take]; omega)]
  rw [List.drop_eq_nil_of_le (by rw [List.length_take]; omega), List.nil_append]
  rw [show xs_size { x with size := total } = total from by
    rw [xs_size, show ({ x with size := total } : Xs).isPtr = x.isPtr from rfl, if_pos hp]]
  rw [readB_some (by omega), List.drop_zero]

theorem xs_free_frame {h : Heap} {x : Xs} (hw : WFb h x = true) :
    ∃ h', xs_free h x = some (h', xs_literal_empty) ∧
      (∀ q, (x.isPtr = true → q ≠ x.ptr) → h'.find q = h.find q) ∧
      h'.junk = h.junk ∧ h'.bufs.length = h.bufs.length := by
  cases hp : x.isPtr with
  | false => exact ⟨h, xs_free_inline hp, fun q _ => rfl, rfl, rfl⟩
  | true =>
    obtain ⟨b, hb, _, _, _⟩ := WFb_ptr hw hp
    cases hl : x.isLarge with
    | false =>
      obtain ⟨h', he, _, hfr, hj, hlen⟩ := xs_free_medium hp hl hb
      exact ⟨h', he, fun q hq => hfr q (hq rfl), hj, hlen⟩
    | true =>
      by_cases hc : bufCount b - 1 ≤ 0
      · obtain ⟨h', he, _, hfr, hj, hlen⟩ := xs_free_large_last hp hl hb hc
        exact ⟨h', he, fun q hq => hfr q (hq rfl), hj, hlen⟩
      · refine ⟨_, xs_free_large_shared hp hl hb (by omega), ?_, ?_, ?_⟩
        · intro q hq
          exact Heap.find_setBuf_other _ _ (hq rfl)
        · exact Heap.junk_setBuf _ _ _
        · exact Heap.length_setBuf _ _ _

theorem WFb_intro_ptr {h : Heap} {x : Xs} {b : Buffer} (hp : x.isPtr = true)
    (hb : h.find x.ptr = some b) (hlen : b.data.length = 2 ^ x.capExp + dataOff x)
    (hsz : x.size + 1 ≤ 2 ^ x.capExp) (h9 : x.isLarge = true → 9 ≤ x.capExp) :
    WFb h x = true := by
  unfold WFb
  rw [if_pos hp, hb]
  simp only [Bool.and_eq_true, beq_iff_eq, decide_eq_true_eq, Bool.or_eq_true,
    Bool.not_eq_true']
  refine ⟨⟨hlen, hsz⟩, ?_⟩
  cases hla : x.isLarge with
  | false => exact Or.inl rfl
  | true => exact Or.inr (h9 hla)

theorem xsContent_ptr {h : Heap} {x : Xs} {b : Buffer} (hp : x.isPtr = true)
    (hb : h.find x.ptr = some b) (hsz : x.size ≤ (b.data.drop (dataOff x)).length) :
    xsContent h x = some ((b.data.drop (dataOff x)).take x.size) := by
  unfold xsContent
  rw [xsVirt_heap hp hb]
  simp only [Option.bind_eq_bind, Option.some_bind]
  rw [xs_size, if_pos hp, readB_some (by omega), List.drop_zero]

theorem cow_master {h : Heap} {x : Xs} (hw : WFb h x = true)
    (hok : ∀ b, h.find x.ptr = some b → x.isLarge = true → 2 ≤ bufCount b →
      256 ≤ x.size) :
    ∃ h1 x1 f, xs_cow_lazy_copy h x = some (h1, x1, f) ∧
      WFb h1 x1 = true ∧
      x1.isPtr = x.isPtr ∧ x1.isLarge = x.isLarge ∧ x1.capExp = x.capExp ∧
      x1.size = x.size ∧ x1.spaceLeft = x.spaceLeft ∧
      xsContent h1 x1 = xsContent h x ∧
      h1.junk = h.junk ∧
      (∀ q, q ≠ x.ptr → (h.find q).isSome = true → h1.find q = h.find q) ∧
      (f = false → h1 = h ∧ x1 = x) ∧
      (f = true →
        x.isPtr = true ∧ x.isLarge = true ∧
        x1.ptr = ptrOf h.bufs.length ∧ x.ptr ≠ x1.ptr ∧
        h1.bufs.length = h.bufs.length + 1 ∧
        refAt h1 x1.ptr = some 1 ∧
        (∃ b, h.find x.ptr = some b ∧ 2 ≤ bufCount b ∧
          h1.find x.ptr =
            some ⟨bytesOfU32 (u32OfInt (bufCount b - 1)) ++ b.data.drop 4⟩)) ∧
      (∀ b, h.find x.ptr = some b → x.isLarge = true → 2 ≤ bufCount b → f = true) := by
  by_cases hl : x.isLarge = true
  case neg =>
    have hlf : x.isLarge = false := by rwa [Bool.not_eq_true] at hl
    refine ⟨h, x, false, cow_noop (get_ref_count_not_large hlf) (by omega), hw,
      rfl, rfl, rfl, rfl, rfl, rfl, rfl, fun q _ _ => rfl,
      fun _ => ⟨rfl, rfl⟩, fun hc => absurd hc (by simp), ?_⟩
    intro b _ hlc
    rw [hlf] at hlc
    cases hlc
  case pos =>
    have hp : x.isPtr = true := by
      cases hp : x.isPtr with
      | true => rfl
      | false =>
        obtain ⟨_, _, hli⟩ := WFb_inl hw hp
        rw [hl] at hli
        cases hli
    obtain ⟨b, hb, hblen, hsz, h9⟩ := WFb_ptr hw hp
    have hrc := get_ref_count_large hl hb
    by_cases hle : bufCount b ≤ 1
    · refine ⟨h, x, false, cow_noop hrc hle, hw,
        rfl, rfl, rfl, rfl, rfl, rfl, rfl, fun q _ _ => rfl,
        fun _ => ⟨rfl, rfl⟩, fun hc => absurd hc (by simp), ?_⟩
      intro b' hb' _ h2
      rw [hb] at hb'
      cases hb'
      omega
    · have h2c : 2 ≤ bufCount b := by omega
      have hbig : 256 ≤ x.size := hok b hb hl h2c
      have hdo : dataOff x = 4 := dataOff_four hl
      rw [hdo] at hblen
      obtain ⟨h1, he, hold, hnew, hfr, hj, hlen1, hne⟩ :=
        cow_detach hp hl hb hblen hsz h2c hbig
      have hculen : ((b.data.drop 4).take x.size).length = x.size := by
        rw [List.length_take, List.length_drop, hblen]
        omega
      have hnewlen : (bytesOfU32 (u32OfInt 1) ++
          ((b.data.drop 4).take x.size ++
            List.replicate (2 ^ x.capExp - x.size) h.junk)).length
          = 2 ^ x.capExp + 4 := by
        rw [List.length_append, List.length_append, length_bytesOfU32,
          List.length_replicate, hculen]
        omega
      refine ⟨h1, { x with ptr := ptrOf h.bufs.length }, true, he, ?_, rfl, rfl, rfl,
        rfl, rfl, ?_, hj, ?_, fun hc => absurd hc (by simp), ?_, fun _ _ _ _ => rfl⟩
      · refine WFb_intro_ptr hp hnew ?_ hsz (fun _ => h9 hl)
        rw [show dataOff { x with ptr := ptrOf h.bufs.length } = 4 from dataOff_four hl]
        exact hnewlen
      · have hnc : xsContent h1 { x with ptr := ptrOf h.bufs.length } =
            some ((b.data.drop 4).take x.size) := by
          rw [xsContent_ptr (x := { x with ptr := ptrOf h.bufs.length }) hp hnew (by
            rw [List.length_drop, show dataOff { x with ptr := ptrOf h.bufs.length } = 4
              from dataOff_four hl, hnewlen]
            show x.size ≤ 2 ^ x.capExp + 4 - 4
            omega)]
          congr 1
          rw [show dataOff { x with ptr := ptrOf h.bufs.length } = 4 from dataOff_four hl]
          rw [List.drop_left' (length_bytesOfU32 _)]
          show (List.take x.size (List.drop 4 b.data) ++
              List.replicate (2 ^ x.capExp - x.size) h.junk).take x.size
            = List.take x.size (List.drop 4 b.data)
          rw [List.take_append_of_le_length (by omega), List.take_of_length_le (by omega)]
        have hoc : xsContent h x = some ((b.data.drop 4).take x.size) := by
          rw [xsContent_ptr hp hb (by rw [List.length_drop, hdo, hblen]; omega), hdo]
        rw [hnc, hoc]
      · intro q hq hqs
        refine hfr q hq ?_
        intro hc
        rw [hc] at hqs
        have hfn : h.find (ptrOf h.bufs.length) = none := by
          cases hfq : h.find (ptrOf h.bufs.length) with
          | none => rfl
          | some bq => exact absurd rfl (find_ne_fresh hfq 0)
        rw [hfn] at hqs
        cases hqs
      · intro _
        refine ⟨hp, hl, rfl, hne, hlen1, ?_, b, hb, h2c, hold⟩
        rw [refAt]
        rw [show ({ x with ptr := ptrOf h.bufs.length } : Xs).ptr =
          ptrOf h.bufs.length from rfl]
        rw [hnew, Option.map_some']
        rw [show bufCount ⟨bytesOfU32 (u32OfInt 1) ++
            (List.take x.size (List.drop 4 b.data) ++
              List.replicate (2 ^ x.capExp - x.size) h.junk)⟩ = 1 from
          bufCount_store _ _ (by omega) (by omega)]

theorem WFb_of_find_eq {h h' : Heap} {x : Xs} (hw : WFb h x = true)
    (heq : x.isPtr = true → h'.find x.ptr = h.find x.ptr) : WFb h' x = true := by
  unfold WFb at hw ⊢
  cases hp : x.isPtr with
  | false =>
    rw [if_neg (by simp [hp])] at hw
    rw [if_neg (by simp)]
    exact hw
  | true =>
    rw [if_pos hp] at hw
    rw [if_pos rfl]
    rw [heq hp]
    exact hw

theorem xsContent_congr {h h' : Heap} {x : Xs}
    (heq : x.isPtr = true → h'.find x.ptr = h.find x.ptr) :
    xsContent h' x = xsContent h x := by
  unfold xsContent xsVirt
  cases hp : x.isPtr with
  | false => rw [if_neg (by simp), if_neg (by simp)]
  | true =>
    rw [if_pos rfl, if_pos rfl, heq hp]

theorem content_read {h : Heap} {x : Xs} {cB : List Byte} (hw : WFb h x = true)
    (hc : xsContent h x = some cB) :
    ∃ v, xsVirt h x = some v ∧ v.length = xs_capacity x + 1 ∧
      xs_size x ≤ xs_capacity x ∧ cB = v.take (xs_size x) ∧
      cB.length = xs_size x ∧ readB v 0 (xs_size x) = some cB := by
  obtain ⟨v, hv, hlen, hsz⟩ := xsVirt_of_WF hw
  have hr : readB v 0 (xs_size x) = some (v.take (xs_size x)) := by
    rw [readB_some (by omega), List.drop_zero]
  unfold xsContent at hc
  rw [hv] at hc
  simp only [Option.bind_eq_bind, Option.some_bind] at hc
  rw [hr] at hc
  have hcv : cB = v.take (xs_size x) := by
    cases hc
    rfl
  refine ⟨v, hv, hlen, hsz, hcv, ?_, by rw [hr, hcv]⟩
  rw [hcv, List.length_take]
  omega

theorem suffix_read {h : Heap} {x : Xs} {sB : List Byte} (hw : WFb h x = true)
    (hc : xsContent h x = some sB) (ht : xsTermByte h x = some 0) :
    ∃ v, xsVirt h x = some v ∧ v.length = xs_capacity x + 1 ∧
      readB v 0 (xs_size x + 1) = some (sB ++ [0]) ∧ sB.length = xs_size x := by
  obtain ⟨v, hv, hlen, hsz, hcv, hclen, _⟩ := content_read hw hc
  unfold xsTermByte at ht
  rw [hv] at ht
  simp only [Option.bind_eq_bind, Option.some_bind] at ht
  rw [if_pos (by omega)] at ht
  have htb : byteAt v (xs_size x) = 0 := Option.some.inj ht
  refine ⟨v, hv, hlen, ?_, hclen⟩
  rw [readB_succ (by omega), htb, hcv]

theorem take_segments (preB cB sufB rest : List Byte) :
    (preB ++ cB ++ (sufB ++ [0]) ++ rest).take
        (preB.length + cB.length + sufB.length) = preB ++ cB ++ sufB := by
  rw [show preB ++ cB ++ (sufB ++ [0]) ++ rest
      = (preB ++ cB ++ sufB) ++ ([0] ++ rest) from by simp [List.append_assoc]]
  rw [List.take_left' (by rw [List.length_append, List.length_append])]

theorem grow_empty_count {h : Heap} {len : Nat} (hlen : 256 ≤ len) :
    ∃ h' t bt, xs_grow h xs_literal_empty len = some (h', t) ∧
      h'.find t.ptr = some bt ∧ bufCount bt = 1 := by
  unfold xs_grow
  rw [if_neg (by rw [xs_capacity_empty]; omega)]
  rw [show (xs_literal_empty.isPtr : Bool) = false from rfl]
  simp only [Bool.false_eq_true, if_false]
  rw [show inlPtrOverlay xs_literal_empty = 0 from by decide,
      show inlSizeOverlay xs_literal_empty = 0 from by decide]
  rw [alloc_realloc_null_large (by omega) rfl]
  refine ⟨_, _, _, rfl, Heap.find_setBuf_self _ _ (Heap.find_malloc_self h _), ?_⟩
  exact bufCount_store _ _ (by omega) (by omega)

theorem setvirt_finish_ptr {h : Heap} {x : Xs} {b : Buffer} {v' : List Byte}
    {T : Nat} (hp : x.isPtr = true) (hb : h.find x.ptr = some b)
    (hblen : b.data.length = 2 ^ x.capExp + dataOff x)
    (hlen : v'.length = 2 ^ x.capExp) (htot : T + 1 ≤ 2 ^ x.capExp)
    (h9 : x.isLarge = true → 9 ≤ x.capExp) :
    xsSetVirt h x v' = (h.setBuf x.ptr ⟨b.data.take (dataOff x) ++ v'⟩, x) ∧
    xsContent (h.setBuf x.ptr ⟨b.data.take (dataOff x) ++ v'⟩) { x with size := T }
      = some (v'.take T) ∧
    xs_size ({ x with size := T } : Xs) = T ∧
    xs_capacity ({ x with size := T } : Xs) = xs_capacity x ∧
    WFb (h.setBuf x.ptr ⟨b.data.take (dataOff x) ++ v'⟩) { x with size := T }
      = true ∧
    (x.isLarge = true →
      refAt (h.setBuf x.ptr ⟨b.data.take (dataOff x) ++ v'⟩) x.ptr = refAt h x.ptr) := by
  have hdol : dataOff x ≤ b.data.length := by
    rw [hblen, dataOff]
    split <;> omega
  have hnblen : (b.data.take (dataOff x) ++ v').length = 2 ^ x.capExp + dataOff x := by
    rw [List.length_append, List.length_take, hlen]
    omega
  refine ⟨xsSetVirt_heap hp hb v', content_after_setBuf hp hb hdol (by omega),
    ?_, ?_, ?_, ?_⟩
  · rw [xs_size, if_pos hp]
  · rfl
  · refine WFb_intro_ptr hp (Heap.find_setBuf_self _ _ hb) ?_ htot h9
    exact hnblen
  · intro hla
    rw [refAt, refAt, Heap.find_setBuf_self _ _ hb, hb, Option.map_some',
      Option.map_some']
    rw [dataOff_four hla]
    rw [bufCount_take4_append _ (by rw [hblen, dataOff_four hla]; omega)]

theorem xs_size_inline_sl {z : Xs} (hz : z.isPtr = false) :
    xs_size z = 15 - z.spaceLeft := by
  rw [xs_size, if_neg (by simp [hz])]

theorem xs_capacity_inline {z : Xs} (hz : z.isPtr = false) : xs_capacity z = 15 := by
  rw [xs_capacity, if_neg (by simp [hz])]

theorem xsContent_inline {h : Heap} {z : Xs} (hz : z.isPtr = false) {n : Nat}
    (hn : 15 - z.spaceLeft = n) (hlen : z.inl.length = 15) (hnle : n ≤ 15) :
    xsContent h z = some (z.inl.take n) := by
  unfold xsContent xsVirt
  rw [if_neg (by simp [hz])]
  simp only [Option.bind_eq_bind, Option.some_bind]
  rw [xs_size_inline_sl hz, hn]
  rw [readB_some (by rw [List.length_append, hlen]; simp; omega), List.drop_zero]
  rw [List.take_append_of_le_length (by omega)]

theorem WFb_intro_inl {h : Heap} {z : Xs} (hz : z.isPtr = false)
    (hlen : z.inl.length = 15) (hsl : z.spaceLeft ≤ 15) (hla : z.isLarge = false) :
    WFb h z = true := by
  unfold WFb
  rw [if_neg (by simp [hz])]
  simp only [Bool.and_eq_true, beq_iff_eq, decide_eq_true_eq, Bool.not_eq_true']
  exact ⟨⟨hlen, hsl⟩, hla⟩

theorem setvirt_finish_inline {h : Heap} {x : Xs} {v' : List Byte} {T : Nat}
    (hp : x.isPtr = false) (hlen : v'.length = 16) (htot : T ≤ 15)
    (hb15 : byteAt v' 15 ≤ 15) :
    ∃ x1, xsSetVirt h x v' = (h, x1) ∧ x1.isPtr = false ∧
      xsContent h { x1 with spaceLeft := 15 - T } = some (v'.take T) ∧
      xs_size ({ x1 with spaceLeft := 15 - T } : Xs) = T ∧
      xs_capacity ({ x1 with spaceLeft := 15 - T } : Xs) = 15 ∧
      WFb h { x1 with spaceLeft := 15 - T } = true := by
  have hdiv : byteAt v' 15 / 16 = 0 :=
    Nat.div_eq_of_lt (Nat.lt_of_le_of_lt hb15 (by omega))
  have hdiv32 : byteAt v' 15 / 32 = 0 :=
    Nat.div_eq_of_lt (Nat.lt_of_le_of_lt hb15 (by omega))
  have hip : ((byteAt v' 15 / 16 % 2 == 1) : Bool) = false := by
    rw [hdiv]
    rfl
  have hil : ((byteAt v' 15 / 32 % 2 == 1) : Bool) = false := by
    rw [hdiv32]
    rfl
  have htklen : (v'.take 15).length = 15 := by
    rw [List.length_take, hlen]
    omega
  refine ⟨_, xsSetVirt_inline hp v', hip, ?_, ?_, ?_, ?_⟩
  · rw [xsContent_inline hip (by
        show 15 - (15 - T) = T
        omega) (by
        show (v'.take 15).length = 15
        exact htklen) htot]
    show some ((v'.take 15).take T) = some (v'.take T)
    rw [List.take_take, Nat.min_eq_left htot]
  · rw [xs_size_inline_sl hip]
    show 15 - (15 - T) = T
    omega
  · exact xs_capacity_inline hip
  · refine WFb_intro_inl hip (by
      show (v'.take 15).length = 15
      exact htklen) (by
      show 15 - T ≤ 15
      omega) hil

theorem concat_segments_length (preB cB sufB rest : List Byte) :
    (preB ++ cB ++ (sufB ++ [0]) ++ rest).length
      = preB.length + cB.length + sufB.length + 1 + rest.length := by
  simp only [List.length_append, List.length_cons, List.length_nil]
  omega

theorem byteAt_15_after_concat {a c s v : List Byte} {D : Nat}
    (hD : D = a.length + c.length + s.length + 1) (hle : D ≤ 16) :
    byteAt (a ++ c ++ (s ++ [0]) ++ v.drop D) 15 = 0 ∨
    byteAt (a ++ c ++ (s ++ [0]) ++ v.drop D) 15 = byteAt v 15 := by
  have hsplit : a ++ c ++ (s ++ [0]) ++ v.drop D
      = (a ++ c ++ s) ++ (0 :: v.drop D) := by
    simp [List.append_assoc]
  have hplen : (a ++ c ++ s).length = D - 1 := by
    simp only [List.length_append]
    omega
  rw [hsplit]
  by_cases h16 : D = 16
  · left
    rw [byteAt_append_right _ (by omega), hplen, h16]
    rfl
  · right
    rw [byteAt_append_right _ (by omega), hplen]
    rw [show 15 - (D - 1) = (15 - D) + 1 from by omega]
    rw [byteAt, List.getD_cons_succ]
    rw [← byteAt, byteAt_drop]
    congr 1
    omega

theorem xsVirt_congr {h h' : Heap} {x : Xs}
    (heq : x.isPtr = true → h'.find x.ptr = h.find x.ptr) :
    xsVirt h' x = xsVirt h x := by
  unfold xsVirt
  cases hp : x.isPtr with
  | false => rw [if_neg (by simp), if_neg (by simp)]
  | true => rw [if_pos rfl, if_pos rfl, heq hp]

theorem drop_take_append {l w : List Byte} {D : Nat} (h : D ≤ l.length) :
    (l.take D ++ w).drop D = w := by
  rw [List.drop_append_of_le_length (by rw [List.length_take]; omega),
      List.drop_eq_nil_of_le (by rw [List.length_take]; omega), List.nil_append]

theorem take_take_append {l : List Byte} (w : List Byte) {D : Nat} (h : D ≤ l.length) :
    (l.take D ++ w).take D = l.take D := by
  rw [List.take_append_of_le_length (by rw [List.length_take]; omega),
      List.take_take, Nat.min_self]

theorem Heap.setBuf_setBuf (h : Heap) (p : Nat) (a b : Buffer) :
    (h.setBuf p a).setBuf p b = h.setBuf p b := by
  unfold Heap.setBuf
  cases hid : idOf p with
  | none => rfl
  | some i => simp [hid, List.set_set]

theorem byteAt_writeB_outside {l src : List Byte} {off k : Nat}
    (hb : off ≤ l.length) (hk : off + src.length ≤ k) :
    byteAt (l.take off ++ src ++ l.drop (off + src.length)) k = byteAt l k := by
  rw [show l.take off ++ src ++ l.drop (off + src.length)
      = (l.take off ++ src) ++ l.drop (off + src.length) from rfl]
  rw [byteAt_append_right _ (by rw [List.length_append, List.length_take]; omega)]
  rw [byteAt_drop]
  congr 1
  rw [List.length_append, List.length_take]
  omega

theorem alias_large {h : Heap} {x z : Xs}
    (hwx : WFb h x = true) (hwz : WFb h z = true)
    (hpx : x.isPtr = true) (hpz : z.isPtr = true)
    (hal : z.ptr = x.ptr) (hxl : x.isLarge = true) :
    z.isLarge = true := by
  obtain ⟨bx, hbx, hbxlen, _, h9x⟩ := WFb_ptr hwx hpx
  obtain ⟨bz, hbz, hbzlen, _, _⟩ := WFb_ptr hwz hpz
  rw [hal, hbx] at hbz
  have hbzb : bz = bx := (Option.some.inj hbz).symm
  rw [hbzb] at hbzlen
  by_contra hzl
  have hzl' : z.isLarge = false := by rwa [Bool.not_eq_true] at hzl
  rw [dataOff_zero hzl'] at hbzlen
  rw [dataOff_four hxl] at hbxlen
  have h9 : 9 ≤ x.capExp := h9x hxl
  have heq : 2 ^ z.capExp = 2 ^ x.capExp + 4 := by omega
  have h512 : 2 ^ 9 ≤ 2 ^ x.capExp := Nat.pow_le_pow_right (by omega) h9
  have h512' : (512 : Nat) ≤ 2 ^ x.capExp := h512
  have hz3 : 3 ≤ z.capExp := by
    by_contra hz3
    have hle : 2 ^ z.capExp ≤ 2 ^ 2 := Nat.pow_le_pow_right (by omega) (by omega)
    have h4 : (2 : Nat) ^ 2 = 4 := by norm_num
    omega
  have hsplitz : 2 ^ z.capExp = 2 ^ (z.capExp - 2) * 4 := by
    rw [show z.capExp = (z.capExp - 2) + 2 from by omega, Nat.pow_add]
    norm_num
  have hsplitx : 2 ^ x.capExp = 2 ^ (x.capExp - 2) * 4 := by
    rw [show x.capExp = (x.capExp - 2) + 2 from by omega, Nat.pow_add]
    norm_num
  obtain ⟨a, ha⟩ : 2 ∣ 2 ^ (z.capExp - 2) := dvd_pow_self 2 (by omega)
  obtain ⟨c, hc⟩ : 2 ∣ 2 ^ (x.capExp - 2) := dvd_pow_self 2 (by omega)
  rw [hsplitz, hsplitx, ha, hc] at heq
  omega

theorem setvirt_virt_inline {h : Heap} {x : Xs} {v : List Byte}
    (hp : x.isPtr = false) (hlen : v.length = 16) (hb15 : byteAt v 15 ≤ 15) :
    ∃ y, xsSetVirt h x v = (h, y) ∧ y.isPtr = false ∧
      ∀ h' : Heap, xsVirt h' y = some v := by
  have hdiv : byteAt v 15 / 16 = 0 :=
    Nat.div_eq_of_lt (Nat.lt_of_le_of_lt hb15 (by omega))
  have hdiv32 : byteAt v 15 / 32 = 0 :=
    Nat.div_eq_of_lt (Nat.lt_of_le_of_lt hb15 (by omega))
  have hip : ((byteAt v 15 / 16 % 2 == 1) : Bool) = false := by
    rw [hdiv]
    rfl
  have hil : ((byteAt v 15 / 32 % 2 == 1) : Bool) = false := by
    rw [hdiv32]
    rfl
  have hv16 : v.take 15 ++ [byteAt v 15] = v := by
    have ha := readB_succ (v := v) (n := 15) (by omega)
    have hc : readB v 0 16 = some ((v.drop 0).take 16) := readB_some (by omega)
    rw [List.drop_zero, List.take_of_length_le (by omega)] at hc
    exact Option.some.inj (ha.symm.trans hc)
  refine ⟨_, xsSetVirt_inline hp v, hip, ?_⟩
  intro h'
  unfold xsVirt
  rw [if_neg (by simp [hip])]
  have hfb : flagsByte { x with inl := v.take 15, spaceLeft := byteAt v 15 % 16,
                                isPtr := (byteAt v 15 / 16 % 2 == 1),
                                isLarge := (byteAt v 15 / 32 % 2 == 1) }
      = byteAt v 15 := by
    rw [flagsByte, if_neg (by simp [hip]), if_neg (by simp [hil])]
    have hm : ∀ n : Nat, n ≤ 15 → n % 16 % 16 + 0 + 0 = n := by
      intro n hn
      omega
    exact hm (byteAt v 15) hb15
  rw [hfb]
  show some (v.take 15 ++ [byteAt v 15]) = some v
  rw [hv16]

set_option maxRecDepth 40000 in
set_option maxHeartbeats 2000000 in
theorem concat_master {h : Heap} {x pre suf : Xs} {cB preB sufB : List Byte}
    (hwx : WFb h x = true) (hwp : WFb h pre = true) (hws : WFb h suf = true)
    (hcx : xsContent h x = some cB) (hcp : xsContent h pre = some preB)
    (hcs : xsContent h suf = some sufB) (hterm : xsTermByte h suf = some 0)
    (hcap : 15 ≤ xs_capacity x)
    (hok : ∀ b, h.find x.ptr = some b → x.isLarge = true → 2 ≤ bufCount b →
      256 ≤ x.size)
    (hpa : pre.isPtr = true → pre.ptr = x.ptr →
      x.isLarge = true ∧ ∀ bb, h.find x.ptr = some bb → 2 ≤ bufCount bb)
    (hsa : suf.isPtr = true → suf.ptr = x.ptr →
      x.isLarge = true ∧ ∀ bb, h.find x.ptr = some bb → 2 ≤ bufCount bb) :
    ∃ h2 x2, xs_concat h x pre suf = some (h2, x2) ∧
      xsContent h2 x2 = some (preB ++ cB ++ sufB) ∧
      xs_size x2 = preB.length + cB.length + sufB.length ∧
      WFb h2 x2 = true ∧
      (∀ q, q ≠ x.ptr → (h.find q).isSome = true → h2.find q = h.find q) ∧
      (x.isLarge = true → ∀ b, h.find x.ptr = some b → 2 ≤ bufCount b →
        x2.ptr ≠ x.ptr ∧
        h2.find x.ptr =
          some ⟨bytesOfU32 (u32OfInt (bufCount b - 1)) ++ b.data.drop 4⟩ ∧
        refAt h2 x2.ptr = some 1) := by
  obtain ⟨vp, hvp, hvplen, hszcp, hpreBv, hpreBlen, hrp⟩ := content_read hwp hcp
  obtain ⟨vs, hvs, hvslen, hrs, hsufBlen⟩ := suffix_read hws hcs hterm
  obtain ⟨h1, x1, f, hcow, hw1, hx1p, hx1l, hx1c, hx1sz, hx1sl, hx1content,
    hx1junk, hx1fr, hnoop, hdet, hfire⟩ := cow_master hwx hok
  have hx1size : xs_size x1 = xs_size x := by
    unfold xs_size
    rw [hx1p, hx1sz, hx1sl]
  have hx1cap : xs_capacity x1 = xs_capacity x := by
    unfold xs_capacity
    rw [hx1p, hx1c]
  obtain ⟨v1, hv1, hv1len, hszc1, hcBv, hcBlen0, hr1⟩ :=
    content_read hw1 (by rw [hx1content]; exact hcx)
  have hcBlen : cB.length = xs_size x := by rw [hcBlen0, hx1size]
  rw [hx1size] at hr1
  have hlv1 : v1.length = xs_capacity x + 1 := by rw [hv1len, hx1cap]
  have hx1ptr_ne : ∀ q, (h.find q).isSome = true → f = true → q ≠ x1.ptr := by
    intro q hq hf hqe
    obtain ⟨_, _, hfp, _, _, _, _⟩ := hdet hf
    cases hfq : h.find q with
    | none => rw [hfq] at hq; cases hq
    | some bq =>
      have hqne : q ≠ ptrOf h.bufs.length := find_ne_fresh hfq 0
      exact hqne (hqe.trans hfp)
  have hq_ne_x1 : ∀ q, q ≠ x.ptr → (h.find q).isSome = true → q ≠ x1.ptr := by
    intro q hq hqs
    cases hf : f with
    | false =>
      obtain ⟨_, hx1x⟩ := hnoop hf
      rw [hx1x]
      exact hq
    | true => exact hx1ptr_ne q hqs hf
  -- a source value either does not alias the destination, or the detach has
  -- already moved the destination away from it; its bytes survive the cow
  have halias : ∀ z : Xs, WFb h z = true →
      (z.isPtr = true → z.ptr = x.ptr →
        x.isLarge = true ∧ ∀ bb, h.find x.ptr = some bb → 2 ≤ bufCount bb) →
      z.isPtr = true →
      xsVirt h1 z = xsVirt h z ∧ z.ptr ≠ x1.ptr := by
    intro z hwz hza hzp
    obtain ⟨bz, hbz, _, _, _⟩ := WFb_ptr hwz hzp
    by_cases hzx : z.ptr = x.ptr
    · obtain ⟨hxl, hcnt2⟩ := hza hzp hzx
      have hbzx : h.find x.ptr = some bz := by rw [← hzx]; exact hbz
      have hf : f = true := hfire bz hbzx hxl (hcnt2 bz hbzx)
      obtain ⟨hpx, hlx, hfp, hne, hlen1, href1, b', hb', hcnt', hold⟩ := hdet hf
      have hzl : z.isLarge = true := alias_large hwx hwz hpx hzp hzx hxl
      have hb'bz : b' = bz := by
        rw [hbzx] at hb'
        exact (Option.some.inj hb').symm
      rw [hb'bz] at hold
      constructor
      · rw [xsVirt_heap hzp (by rw [hzx]; exact hold), xsVirt_heap hzp hbz]
        rw [dataOff_four hzl]
        rw [show (⟨bytesOfU32 (u32OfInt (bufCount bz - 1)) ++ bz.data.drop 4⟩ :
            Buffer).data.drop 4 = bz.data.drop 4 from List.drop_left' (length_bytesOfU32 _)]
      · rw [hzx]
        exact hne
    · refine ⟨xsVirt_congr (fun _ => hx1fr z.ptr hzx (by rw [hbz]; rfl)), ?_⟩
      exact hq_ne_x1 z.ptr hzx (by rw [hbz]; rfl)
  have hpre1 : pre.isPtr = true → xsVirt h1 pre = xsVirt h pre ∧ pre.ptr ≠ x1.ptr :=
    fun hzp => halias pre hwp hpa hzp
  have hsuf1 : suf.isPtr = true → xsVirt h1 suf = xsVirt h suf ∧ suf.ptr ≠ x1.ptr :=
    fun hzp => halias suf hws hsa hzp
  have hvpre : ∀ hS : Heap, (pre.isPtr = true → hS.find pre.ptr = h1.find pre.ptr) →
      xsVirt hS pre = some vp := by
    intro hS hfr
    cases hzp : pre.isPtr with
    | false =>
      rw [← hvp]
      exact xsVirt_congr (fun hc => by rw [hzp] at hc; cases hc)
    | true =>
      calc xsVirt hS pre = xsVirt h1 pre := xsVirt_congr hfr
        _ = xsVirt h pre := (hpre1 hzp).1
        _ = some vp := hvp
  have hvsuf : ∀ hS : Heap, (suf.isPtr = true → hS.find suf.ptr = h1.find suf.ptr) →
      xsVirt hS suf = some vs := by
    intro hS hfr
    cases hzp : suf.isPtr with
    | false =>
      rw [← hvs]
      exact xsVirt_congr (fun hc => by rw [hzp] at hc; cases hc)
    | true =>
      calc xsVirt hS suf = xsVirt h1 suf := xsVirt_congr hfr
        _ = xsVirt h suf := (hsuf1 hzp).1
        _ = some vs := hvs
  have hjs : (sufB ++ [0]).length = xs_size suf + 1 := by
    rw [List.length_append, hsufBlen]
    rfl
  have hTsum : xs_size x + xs_size pre + xs_size suf
      = preB.length + cB.length + sufB.length := by omega
  have hDsum : xs_size pre + xs_size x + (sufB ++ [0]).length
      = preB.length + cB.length + sufB.length + 1 := by
    rw [hjs]
    omega
  by_cases hfit : xs_size x + xs_size pre + xs_size suf ≤ xs_capacity x
  · -- in-place branch
    cases hp : x.isPtr with
    | true =>
      have hp1 : x1.isPtr = true := by rw [hx1p, hp]
      obtain ⟨b1, hb1, hb1len, hb1sz, hb19⟩ := WFb_ptr hw1 hp1
      have hdo1 : dataOff x1 ≤ b1.data.length := by
        rw [hb1len]
        omega
      -- stage 1: memmove of the content
      have hwA : writeB v1 (xs_size pre) cB =
          some (v1.take (xs_size pre) ++ cB ++ v1.drop (xs_size pre + cB.length)) :=
        writeB_some (by rw [hlv1, hcBlen]; omega)
      set vA : List Byte :=
        v1.take (xs_size pre) ++ cB ++ v1.drop (xs_size pre + cB.length) with hvAdef
      have hlvA : vA.length = v1.length := length_writeB (by rw [hlv1, hcBlen]; omega)
      have hsetA := xsSetVirt_heap hp1 hb1 vA
      set bA : Buffer := ⟨b1.data.take (dataOff x1) ++ vA⟩ with hbAdef
      set hA : Heap := h1.setBuf x1.ptr bA with hhAdef
      have hfindA : hA.find x1.ptr = some bA := Heap.find_setBuf_self _ _ hb1
      have hvirtA : xsVirt hA x1 = some vA := by
        rw [xsVirt_heap hp1 hfindA, hbAdef]
        rw [drop_take_append hdo1]
      have hfrA : ∀ q, q ≠ x1.ptr → hA.find q = h1.find q :=
        fun q hq => Heap.find_setBuf_other _ _ hq
      have hvpA : xsVirt hA pre = some vp :=
        hvpre hA (fun hzp => hfrA pre.ptr ((hpre1 hzp).2))
      -- stage 2: prefix write
      have hwB : writeB vA 0 preB =
          some (vA.take 0 ++ preB ++ vA.drop (0 + preB.length)) :=
        writeB_some (by rw [hlvA, hlv1, hpreBlen]; omega)
      set vB : List Byte := vA.take 0 ++ preB ++ vA.drop (0 + preB.length) with hvBdef
      have hlvB : vB.length = vA.length :=
        length_writeB (by rw [hlvA, hlv1, hpreBlen]; omega)
      have hsetB := xsSetVirt_heap hp1 hfindA vB
      set bB : Buffer := ⟨bA.data.take (dataOff x1) ++ vB⟩ with hbBdef
      set hB : Heap := hA.setBuf x1.ptr bB with hhBdef
      have hbAtake : bA.data.take (dataOff x1) = b1.data.take (dataOff x1) := by
        rw [hbAdef]
        exact take_take_append _ hdo1
      have hdoA : dataOff x1 ≤ bA.data.length := by
        rw [hbAdef]
        show dataOff x1 ≤ (b1.data.take (dataOff x1) ++ vA).length
        rw [List.length_append, List.length_take]
        omega
      have hfindB : hB.find x1.ptr = some bB := Heap.find_setBuf_self _ _ hfindA
      have hvirtB : xsVirt hB x1 = some vB := by
        rw [xsVirt_heap hp1 hfindB, hbBdef]
        rw [drop_take_append hdoA]
      have hfrB : ∀ q, q ≠ x1.ptr → hB.find q = h1.find q := by
        intro q hq
        rw [hhBdef, Heap.find_setBuf_other _ _ hq]
        exact hfrA q hq
      have hvsB : xsVirt hB suf = some vs :=
        hvsuf hB (fun hzp => hfrB suf.ptr ((hsuf1 hzp).2))
      -- stage 3: suffix write
      have hwC : writeB vB (xs_size pre + xs_size x) (sufB ++ [0]) =
          some (vB.take (xs_size pre + xs_size x) ++ (sufB ++ [0]) ++
            vB.drop (xs_size pre + xs_size x + (sufB ++ [0]).length)) :=
        writeB_some (by rw [hlvB, hlvA, hlv1, hjs]; omega)
      set vC : List Byte := vB.take (xs_size pre + xs_size x) ++ (sufB ++ [0]) ++
        vB.drop (xs_size pre + xs_size x + (sufB ++ [0]).length) with hvCdef
      have hsetC := xsSetVirt_heap hp1 hfindB vC
      set bC : Buffer := ⟨bB.data.take (dataOff x1) ++ vC⟩ with hbCdef
      have hbBtake : bB.data.take (dataOff x1) = b1.data.take (dataOff x1) := by
        rw [hbBdef, take_take_append _ hdoA, hbAtake]
      -- the three in-place writes compose to the closed concatenation form
      have hfitl : xs_size pre + xs_size x + (sufB ++ [0]).length ≤ v1.length := by
        rw [hjs, hlv1]
        omega
      have hcw : concatWrites v1 (xs_size pre) (xs_size x) cB preB (sufB ++ [0]) =
          some (preB ++ cB ++ (sufB ++ [0]) ++
            v1.drop (xs_size pre + xs_size x + (sufB ++ [0]).length)) :=
        concatWrites_spec hpreBlen hcBlen hfitl
      have hchain : concatWrites v1 (xs_size pre) (xs_size x) cB preB (sufB ++ [0]) =
          some vC := by
        unfold concatWrites
        rw [hwA]
        simp only [Option.bind_eq_bind, Option.some_bind]
        rw [hwB]
        simp only [Option.some_bind]
        rw [hwC]
      set V : List Byte := preB ++ cB ++ (sufB ++ [0]) ++
        v1.drop (xs_size pre + xs_size x + (sufB ++ [0]).length) with hV
      have hVC : vC = V := Option.some.inj (hchain.symm.trans hcw)
      have hheapC : hB.setBuf x1.ptr bC =
          h1.setBuf x1.ptr ⟨b1.data.take (dataOff x1) ++ V⟩ := by
        rw [hhBdef, hhAdef, Heap.setBuf_setBuf, Heap.setBuf_setBuf, hbCdef, hbBtake, hVC]
      have hv1len2 : v1.length = 2 ^ x1.capExp := by
        rw [hv1len, hx1cap, xs_capacity, if_pos hp, ← hx1c]
        have h1e : (1 : Nat) ≤ 2 ^ x1.capExp := Nat.one_le_two_pow
        omega
      have hv'len : V.length = 2 ^ x1.capExp := by
        rw [hV, concat_segments_length, List.length_drop, hDsum, ← hv1len2]
        omega
      have htotT : (xs_size x + xs_size pre + xs_size suf) + 1 ≤ 2 ^ x1.capExp := by
        rw [← hv1len2, hlv1]
        omega
      obtain ⟨hsv, hcont2, hsz2, hcap2, hwf2, href2⟩ :=
        setvirt_finish_ptr (T := xs_size x + xs_size pre + xs_size suf)
          hp1 hb1 hb1len hv'len htotT hb19
      refine ⟨h1.setBuf x1.ptr ⟨b1.data.take (dataOff x1) ++ V⟩,
        { x1 with size := xs_size x + xs_size pre + xs_size suf },
        ?_, ?_, ?_, ?_, ?_, ?_⟩
      · unfold xs_concat
        dsimp only
        rw [hcow]
        simp only [Option.bind_eq_bind, Option.some_bind, if_pos hfit, hv1, hr1,
          hwA, hsetA, hvpA, hrp, hvirtA, hwB, hsetB, hvsB, hrs, hvirtB, hwC,
          hsetC, if_pos hp1, hheapC, Option.pure_def]
      · rw [hcont2, hTsum, hV, take_segments]
      · rw [hsz2, hTsum]
      · exact hwf2
      · intro q hq hqs
        rw [Heap.find_setBuf_other _ _ (hq_ne_x1 q hq hqs)]
        exact hx1fr q hq hqs
      · intro hla b hb hcnt
        have hf : f = true := hfire b hb hla hcnt
        obtain ⟨hpx, hlx, hfp, hne, hlen1, href1, b', hb', hcnt', hold⟩ := hdet hf
        have hbb : b' = b := by
          rw [hb] at hb'
          exact (Option.some.inj hb').symm
        rw [hbb] at hold
        have hx1la : x1.isLarge = true := by rw [hx1l, hla]
        refine ⟨Ne.symm hne, ?_, ?_⟩
        · rw [Heap.find_setBuf_other _ _ hne]
          exact hold
        · exact (href2 hx1la).trans href1
    | false =>
      have hp1 : x1.isPtr = false := by rw [hx1p, hp]
      obtain ⟨hinl15, hsl15, hil1⟩ := WFb_inl hw1 hp1
      have hv1inl : v1 = x1.inl ++ [flagsByte x1] := by
        have hvi : xsVirt h1 x1 = some (x1.inl ++ [flagsByte x1]) := by
          unfold xsVirt
          rw [if_neg (by simp [hp1])]
        rw [hv1] at hvi
        exact Option.some.inj hvi
      have hcap15 : xs_capacity x = 15 := by
        rw [xs_capacity, if_neg (by simp [hp])]
      have hfb : flagsByte x1 ≤ 15 := by
        rw [flagsByte, if_neg (by simp [hp1]), if_neg (by simp [hil1])]
        show x1.spaceLeft % 16 + 0 + 0 ≤ 15
        omega
      have hb15v1 : byteAt v1 15 = flagsByte x1 := by
        rw [hv1inl, byteAt_append_right _ (by rw [hinl15]), hinl15]
        rfl
      have hT15 : xs_size x + xs_size pre + xs_size suf ≤ 15 := by
        rw [hcap15] at hfit
        exact hfit
      have hlv116 : v1.length = 16 := by rw [hlv1, hcap15]
      -- stage 1
      have hwA : writeB v1 (xs_size pre) cB =
          some (v1.take (xs_size pre) ++ cB ++ v1.drop (xs_size pre + cB.length)) :=
        writeB_some (by rw [hlv116, hcBlen]; omega)
      set vA : List Byte :=
        v1.take (xs_size pre) ++ cB ++ v1.drop (xs_size pre + cB.length) with hvAdef
      have hlvA : vA.length = 16 := by
        rw [hvAdef, length_writeB (by rw [hlv116, hcBlen]; omega), hlv116]
      have hb15A : byteAt vA 15 ≤ 15 := by
        rw [hvAdef, byteAt_writeB_outside (by rw [hlv116]; omega)
          (by rw [hcBlen]; omega), hb15v1]
        exact hfb
      obtain ⟨xA, hsetA, hpA, hvAx⟩ := setvirt_virt_inline (h := h1) hp1 hlvA hb15A
      have hvpA : xsVirt h1 pre = some vp := hvpre h1 (fun _ => rfl)
      have hvsA : xsVirt h1 suf = some vs := hvsuf h1 (fun _ => rfl)
      -- stage 2
      have hwB : writeB vA 0 preB =
          some (vA.take 0 ++ preB ++ vA.drop (0 + preB.length)) :=
        writeB_some (by rw [hlvA, hpreBlen]; omega)
      set vB : List Byte := vA.take 0 ++ preB ++ vA.drop (0 + preB.length) with hvBdef
      have hlvB : vB.length = 16 := by
        rw [hvBdef, length_writeB (by rw [hlvA, hpreBlen]; omega), hlvA]
      have hb15B : byteAt vB 15 ≤ 15 := by
        rw [hvBdef, byteAt_writeB_outside (by omega) (by rw [hpreBlen]; omega)]
        exact hb15A
      obtain ⟨xB, hsetB, hpB, hvBx⟩ := setvirt_virt_inline (h := h1) hpA hlvB hb15B
      -- stage 3
      have hwC : writeB vB (xs_size pre + xs_size x) (sufB ++ [0]) =
          some (vB.take (xs_size pre + xs_size x) ++ (sufB ++ [0]) ++
            vB.drop (xs_size pre + xs_size x + (sufB ++ [0]).length)) :=
        writeB_some (by rw [hlvB, hjs]; omega)
      set vC : List Byte := vB.take (xs_size pre + xs_size x) ++ (sufB ++ [0]) ++
        vB.drop (xs_size pre + xs_size x + (sufB ++ [0]).length) with hvCdef
      have hfitl : xs_size pre + xs_size x + (sufB ++ [0]).length ≤ v1.length := by
        rw [hjs, hlv116]
        omega
      have hcw : concatWrites v1 (xs_size pre) (xs_size x) cB preB (sufB ++ [0]) =
          some (preB ++ cB ++ (sufB ++ [0]) ++
            v1.drop (xs_size pre + xs_size x + (sufB ++ [0]).length)) :=
        concatWrites_spec hpreBlen hcBlen hfitl
      have hchain : concatWrites v1 (xs_size pre) (xs_size x) cB preB (sufB ++ [0]) =
          some vC := by
        unfold concatWrites
        rw [hwA]
        simp only [Option.bind_eq_bind, Option.some_bind]
        rw [hwB]
        simp only [Option.some_bind]
        rw [hwC]
      set V : List Byte := preB ++ cB ++ (sufB ++ [0]) ++
        v1.drop (xs_size pre + xs_size x + (sufB ++ [0]).length) with hV
      have hVC : vC = V := Option.some.inj (hchain.symm.trans hcw)
      have hb15le : byteAt V 15 ≤ 15 := by
        rw [hV]
        rw [hDsum]
        rcases byteAt_15_after_concat (a := preB) (c := cB) (s := sufB)
          (v := v1) (D := preB.length + cB.length + sufB.length + 1) rfl
          (by omega) with h0 | hflag
        · rw [h0]
          exact Nat.zero_le 15
        · rw [hflag, hb15v1]
          exact hfb
      have hv'16 : V.length = 16 := by
        rw [hV, concat_segments_length, List.length_drop, hDsum, hlv116]
        omega
      obtain ⟨x2i, hsv, hx2ip, hcont2, hsz2, hcap2, hwf2⟩ :=
        setvirt_finish_inline (h := h1) (T := xs_size x + xs_size pre + xs_size suf)
          hpB hv'16 hT15 hb15le
      refine ⟨h1, { x2i with spaceLeft :=
          15 - (xs_size x + xs_size pre + xs_size suf) },
        ?_, ?_, ?_, ?_, ?_, ?_⟩
      · unfold xs_concat
        dsimp only
        rw [hcow]
        rw [Option.bind_eq_bind, Option.some_bind]
        dsimp only
        rw [if_pos hfit]
        simp only [Option.bind_eq_bind, Option.some_bind, hv1, hr1, hwA, hsetA,
          hvpA, hrp, hvAx h1]
        simp only [Option.bind_eq_bind, Option.some_bind, hwB, hsetB, hvsA, hrs,
          hvBx h1]
        simp only [Option.bind_eq_bind, Option.some_bind, hwC, hVC, hsv, hx2ip,
          Bool.false_eq_true, if_false, Option.pure_def]
      · rw [hcont2, hTsum, hV, take_segments]
      · rw [hsz2, hTsum]
      · exact hwf2
      · intro q hq hqs
        exact hx1fr q hq hqs
      · intro hla b hb hcnt
        have hf : f = true := hfire b hb hla hcnt
        obtain ⟨hpx, _, _, _, _, _, _⟩ := hdet hf
        rw [hp] at hpx
        cases hpx
  · -- grow branch
    have hT16 : 16 ≤ xs_size x + xs_size pre + xs_size suf := by omega
    obtain ⟨h2', t, hgeq, htp, htsz0, htcapE, htptr, htliff, hbtpack,
      hgfr, hgjunk, hglen⟩ := grow_empty (h := h1) hT16
    obtain ⟨bt, hbt, hbtlen, hbtdrop⟩ := hbtpack
    have htcap9 : t.isLarge = true → 9 ≤ t.capExp := by
      intro hl
      have h256 : 256 ≤ xs_size x + xs_size pre + xs_size suf := htliff.mp hl
      rw [htcapE, ilog2_eq_log2]
      have h8 : 8 ≤ Nat.log2 (xs_size x + xs_size pre + xs_size suf) :=
        (Nat.le_log2 (by omega)).mpr (by omega)
      omega
    have hTfit : (xs_size x + xs_size pre + xs_size suf) + 1 ≤ 2 ^ t.capExp := by
      rw [htcapE]
      have hlt := lt_two_pow_ilog2_succ
        (n := xs_size x + xs_size pre + xs_size suf) (by omega)
      omega
    have hvt : xsVirt h2' t = some (bt.data.drop (dataOff t)) := xsVirt_heap htp hbt
    have hdot : dataOff t ≤ bt.data.length := by
      rw [hbtlen]
      omega
    set tv : List Byte := bt.data.drop (dataOff t) with htv
    have htvlen : tv.length = 2 ^ t.capExp := by
      rw [htv, List.length_drop, hbtlen]
      omega
    have htfresh : ∀ q, (h1.find q).isSome = true → q ≠ t.ptr := by
      intro q hq hqe
      cases hfq : h1.find q with
      | none => rw [hfq] at hq; cases hq
      | some bq =>
        have hne : q ≠ ptrOf h1.bufs.length := find_ne_fresh hfq 0
        rw [htptr] at hqe
        exact hne hqe
    have hvx1g : xsVirt h2' x1 = some v1 := by
      cases hp1 : x1.isPtr with
      | false =>
        rw [← hv1]
        exact xsVirt_congr (fun hc => by rw [hp1] at hc; cases hc)
      | true =>
        obtain ⟨b1, hb1, _, _, _⟩ := WFb_ptr hw1 hp1
        rw [xsVirt_congr (fun _ => hgfr x1.ptr (htfresh x1.ptr (by rw [hb1]; rfl)))]
        exact hv1
    have hlivepre : pre.isPtr = true → (h1.find pre.ptr).isSome = true := by
      intro hzp
      have hv := (hpre1 hzp).1.trans hvp
      unfold xsVirt at hv
      rw [if_pos hzp] at hv
      cases hf : h1.find pre.ptr with
      | none => rw [hf] at hv; cases hv
      | some bb => rfl
    have hlivesuf : suf.isPtr = true → (h1.find suf.ptr).isSome = true := by
      intro hzp
      have hv := (hsuf1 hzp).1.trans hvs
      unfold xsVirt at hv
      rw [if_pos hzp] at hv
      cases hf : h1.find suf.ptr with
      | none => rw [hf] at hv; cases hv
      | some bb => rfl
    -- stage 1 on the fresh buffer
    have hwA : writeB tv (xs_size pre) cB =
        some (tv.take (xs_size pre) ++ cB ++ tv.drop (xs_size pre + cB.length)) :=
      writeB_some (by rw [htvlen, hcBlen]; omega)
    set vA : List Byte :=
      tv.take (xs_size pre) ++ cB ++ tv.drop (xs_size pre + cB.length) with hvAdef
    have hlvA : vA.length = tv.length :=
      length_writeB (by rw [htvlen, hcBlen]; omega)
    have hsetA := xsSetVirt_heap htp hbt vA
    set bA : Buffer := ⟨bt.data.take (dataOff t) ++ vA⟩ with hbAdef
    set hA : Heap := h2'.setBuf t.ptr bA with hhAdef
    have hfindA : hA.find t.ptr = some bA := Heap.find_setBuf_self _ _ hbt
    have hvirtA : xsVirt hA t = some vA := by
      rw [xsVirt_heap htp hfindA, hbAdef]
      rw [drop_take_append hdot]
    have hfrA : ∀ q, q ≠ t.ptr → hA.find q = h1.find q := by
      intro q hq
      rw [hhAdef, Heap.find_setBuf_other _ _ hq]
      exact hgfr q hq
    have hvpA : xsVirt hA pre = some vp :=
      hvpre hA (fun hzp => hfrA pre.ptr (htfresh pre.ptr (hlivepre hzp)))
    -- stage 2
    have hwB : writeB vA 0 preB =
        some (vA.take 0 ++ preB ++ vA.drop (0 + preB.length)) :=
      writeB_some (by rw [hlvA, htvlen, hpreBlen]; omega)
    set vB : List Byte := vA.take 0 ++ preB ++ vA.drop (0 + preB.length) with hvBdef
    have hlvB : vB.length = vA.length :=
      length_writeB (by rw [hlvA, htvlen, hpreBlen]; omega)
    have hsetB := xsSetVirt_heap htp hfindA vB
    set bB : Buffer := ⟨bA.data.take (dataOff t) ++ vB⟩ with hbBdef
    set hB : Heap := hA.setBuf t.ptr bB with hhBdef
    have hbAtake : bA.data.take (dataOff t) = bt.data.take (dataOff t) := by
      rw [hbAdef]
      exact take_take_append _ hdot
    have hdoA : dataOff t ≤ bA.data.length := by
      rw [hbAdef]
      show dataOff t ≤ (bt.data.take (dataOff t) ++ vA).length
      rw [List.length_append, List.length_take]
      omega
    have hfindB : hB.find t.ptr = some bB := Heap.find_setBuf_self _ _ hfindA
    have hvirtB : xsVirt hB t = some vB := by
      rw [xsVirt_heap htp hfindB, hbBdef]
      rw [drop_take_append hdoA]
    have hfrB : ∀ q, q ≠ t.ptr → hB.find q = h1.find q := by
      intro q hq
      rw [hhBdef, Heap.find_setBuf_other _ _ hq]
      exact hfrA q hq
    have hvsB : xsVirt hB suf = some vs :=
      hvsuf hB (fun hzp => hfrB suf.ptr (htfresh suf.ptr (hlivesuf hzp)))
    -- stage 3
    have hwC : writeB vB (xs_size pre + xs_size x) (sufB ++ [0]) =
        some (vB.take (xs_size pre + xs_size x) ++ (sufB ++ [0]) ++
          vB.drop (xs_size pre + xs_size x + (sufB ++ [0]).length)) :=
      writeB_some (by rw [hlvB, hlvA, htvlen, hjs]; omega)
    set vC : List Byte := vB.take (xs_size pre + xs_size x) ++ (sufB ++ [0]) ++
      vB.drop (xs_size pre + xs_size x + (sufB ++ [0]).length) with hvCdef
    have hsetC := xsSetVirt_heap htp hfindB vC
    set bC : Buffer := ⟨bB.data.take (dataOff t) ++ vC⟩ with hbCdef
    have hbBtake : bB.data.take (dataOff t) = bt.data.take (dataOff t) := by
      rw [hbBdef, take_take_append _ hdoA, hbAtake]
    have hfitg : xs_size pre + xs_size x + (sufB ++ [0]).length ≤ tv.length := by
      rw [hjs, htvlen]
      omega
    have hcwg : concatWrites tv (xs_size pre) (xs_size x) cB preB (sufB ++ [0]) =
        some (preB ++ cB ++ (sufB ++ [0]) ++
          tv.drop (xs_size pre + xs_size x + (sufB ++ [0]).length)) :=
      concatWrites_spec hpreBlen hcBlen hfitg
    have hchain : concatWrites tv (xs_size pre) (xs_size x) cB preB (sufB ++ [0]) =
        some vC := by
      unfold concatWrites
      rw [hwA]
      simp only [Option.bind_eq_bind, Option.some_bind]
      rw [hwB]
      simp only [Option.some_bind]
      rw [hwC]
    set W : List Byte := preB ++ cB ++ (sufB ++ [0]) ++
      tv.drop (xs_size pre + xs_size x + (sufB ++ [0]).length) with hW
    have hVC : vC = W := Option.some.inj (hchain.symm.trans hcwg)
    have hheapC : hB.setBuf t.ptr bC =
        h2'.setBuf t.ptr ⟨bt.data.take (dataOff t) ++ W⟩ := by
      rw [hhBdef, hhAdef, Heap.setBuf_setBuf, Heap.setBuf_setBuf, hbCdef, hbBtake, hVC]
    have htv'len : W.length = 2 ^ t.capExp := by
      rw [hW, concat_segments_length, List.length_drop, htvlen]
      omega
    obtain ⟨hsvg, hcontg, hszg, hcapg, hwfg, hrefg⟩ :=
      setvirt_finish_ptr (T := xs_size x + xs_size pre + xs_size suf)
        htp hbt hbtlen htv'len hTfit htcap9
    have heq31 : x1.isPtr = true →
        (h2'.setBuf t.ptr ⟨bt.data.take (dataOff t) ++ W⟩).find x1.ptr
          = h1.find x1.ptr := by
      intro hp1
      obtain ⟨b1, hb1, _, _, _⟩ := WFb_ptr hw1 hp1
      have hne1 : x1.ptr ≠ t.ptr := htfresh x1.ptr (by rw [hb1]; rfl)
      rw [Heap.find_setBuf_other _ _ hne1, hgfr _ hne1]
    have hw3 : WFb (h2'.setBuf t.ptr ⟨bt.data.take (dataOff t) ++ W⟩) x1 = true :=
      WFb_of_find_eq hw1 heq31
    obtain ⟨h4, hfree, hffr, hfjunk, hflen⟩ := xs_free_frame hw3
    have htne : x1.isPtr = true → t.ptr ≠ x1.ptr := by
      intro hp1
      obtain ⟨b1, hb1, _, _, _⟩ := WFb_ptr hw1 hp1
      exact Ne.symm (htfresh x1.ptr (by rw [hb1]; rfl))
    have hfind4t : h4.find t.ptr =
        (h2'.setBuf t.ptr ⟨bt.data.take (dataOff t) ++ W⟩).find t.ptr :=
      hffr t.ptr htne
    refine ⟨h4, { t with size := xs_size x + xs_size pre + xs_size suf },
      ?_, ?_, ?_, ?_, ?_, ?_⟩
    · unfold xs_concat
      dsimp only
      rw [hcow]
      rw [Option.bind_eq_bind, Option.some_bind]
      dsimp only
      rw [if_neg hfit]
      simp only [Option.bind_eq_bind, Option.some_bind, hgeq, hvx1g, hr1, hvt,
        hwA, hsetA]
      simp only [Option.bind_eq_bind, Option.some_bind, hvpA, hrp, hvirtA, hwB,
        hsetB, hvsB, hrs]
      simp only [Option.bind_eq_bind, Option.some_bind, hvirtB, hwC, hsetC,
        hheapC, hfree, Option.pure_def]
    · rw [xsContent_congr (x := { t with size := xs_size x + xs_size pre + xs_size suf })
        (fun _ => hfind4t), hcontg, hTsum, hW, take_segments]
    · rw [hszg, hTsum]
    · exact WFb_of_find_eq hwfg (fun _ => hfind4t)
    · intro q hq hqs
      have hq1 : x1.isPtr = true → q ≠ x1.ptr := fun _ => hq_ne_x1 q hq hqs
      have hqt : q ≠ t.ptr := htfresh q (by rw [hx1fr q hq hqs]; exact hqs)
      rw [hffr q hq1, Heap.find_setBuf_other _ _ hqt, hgfr q hqt]
      exact hx1fr q hq hqs
    · intro hla b hb hcnt
      have hf : f = true := hfire b hb hla hcnt
      obtain ⟨hpx, hlx, hfp, hne, hlen1, href1, b', hb', hcnt', hold⟩ := hdet hf
      have hbb : b' = b := by
        rw [hb] at hb'
        exact (Option.some.inj hb').symm
      rw [hbb] at hold
      have hxlive : (h1.find x.ptr).isSome = true := by
        rw [hold]
        rfl
      have hxt : x.ptr ≠ t.ptr := htfresh x.ptr hxlive
      have h256T : 256 ≤ xs_size x + xs_size pre + xs_size suf := by
        have h256 : 256 ≤ x.size := hok b hb hla hcnt
        have hszx : xs_size x = x.size := by rw [xs_size, if_pos hpx]
        omega
      have htl : t.isLarge = true := htliff.mpr h256T
      refine ⟨?_, ?_, ?_⟩
      · exact Ne.symm hxt
      · rw [hffr x.ptr (fun _ => hne), Heap.find_setBuf_other _ _ hxt, hgfr x.ptr hxt]
        exact hold
      · show refAt h4 t.ptr = some 1
        rw [refAt, hfind4t, Heap.find_setBuf_self _ _ hbt, Option.map_some']
        rw [dataOff_four htl]
        rw [bufCount_take4_append _ (by rw [hbtlen, dataOff_four htl]; omega)]
        obtain ⟨h'', t'', bt'', hgeq2, hbt2, hcnt1⟩ := grow_empty_count (h := h1) h256T
        rw [hgeq] at hgeq2
        have hpair := Option.some.inj hgeq2
        have hh : h2' = h'' := congrArg Prod.fst hpair
        have ht2 : t = t'' := congrArg Prod.snd hpair
        rw [← hh, ← ht2] at hbt2
        rw [hbt] at hbt2
        have hbtb : bt = bt'' := Option.some.inj hbt2
        rw [show bufCount bt = 1 from by rw [hbtb]; exact hcnt1]

theorem byteAt_15_after_trim {kept v : List Byte} {s2 : Nat}
    (hk : kept.length = s2) (hle : s2 ≤ 15) :
    byteAt (kept ++ 0 :: v.drop (s2 + 1)) 15 = 0 ∨
    byteAt (kept ++ 0 :: v.drop (s2 + 1)) 15 = byteAt v 15 := by
  by_cases h15 : s2 = 15
  · left
    rw [byteAt_append_right _ (by omega), hk, h15]
    rfl
  · right
    rw [byteAt_append_right _ (by omega), hk]
    rw [show 15 - s2 = (14 - s2) + 1 from by omega]
    rw [byteAt, List.getD_cons_succ]
    rw [← byteAt, byteAt_drop]
    congr 1
    omega

set_option maxHeartbeats 1000000 in
theorem trim_master {h : Heap} {x : Xs} {cB : List Byte} {cutset : List Byte}
    (hwx : WFb h x = true) (hcx : xsContent h x = some cB)
    (hhead : ¬ byteAt cutset 0 = 0)
    (hnm : ∃ bb ∈ cB, cutsetMem cutset bb = false)
    (hszlt : xs_size x < 2 ^ 64)
    (hok : ∀ b, h.find x.ptr = some b → x.isLarge = true → 2 ≤ bufCount b →
      256 ≤ x.size) :
    ∃ h2 x2, xs_trim h x cutset = some (h2, x2) ∧
      xsContent h2 x2 = some (trimSpec (cutsetMem cutset) cB) ∧
      xs_size x2 = (trimSpec (cutsetMem cutset) cB).length ∧
      xs_capacity x2 = xs_capacity x ∧
      WFb h2 x2 = true ∧
      (∀ q, q ≠ x.ptr → (h.find q).isSome = true → h2.find q = h.find q) ∧
      (x.isLarge = true → ∀ b, h.find x.ptr = some b → 2 ≤ bufCount b →
        x2.ptr ≠ x.ptr ∧
        h2.find x.ptr =
          some ⟨bytesOfU32 (u32OfInt (bufCount b - 1)) ++ b.data.drop 4⟩ ∧
        refAt h2 x2.ptr = some 1) := by
  obtain ⟨h1, x1, f, hcow, hw1, hx1p, hx1l, hx1c, hx1sz, hx1sl, hx1content,
    hx1junk, hx1fr, hnoop, hdet, hfire⟩ := cow_master hwx hok
  have hx1size : xs_size x1 = xs_size x := by
    unfold xs_size
    rw [hx1p, hx1sz, hx1sl]
  have hx1cap : xs_capacity x1 = xs_capacity x := by
    unfold xs_capacity
    rw [hx1p, hx1c]
  obtain ⟨v1, hv1, hv1len, hszc1, hcBv, hcBlen0, hr1⟩ :=
    content_read hw1 (by rw [hx1content]; exact hcx)
  have hx1ptr_ne : ∀ q, (h.find q).isSome = true → f = true → q ≠ x1.ptr := by
    intro q hq hf hqe
    obtain ⟨_, _, hfp, _, _, _, _⟩ := hdet hf
    cases hfq : h.find q with
    | none => rw [hfq] at hq; cases hq
    | some bq =>
      have hqne : q ≠ ptrOf h.bufs.length := find_ne_fresh hfq 0
      exact hqne (hqe.trans hfp)
  have hq_ne_x1 : ∀ q, q ≠ x.ptr → (h.find q).isSome = true →
      x1.isPtr = true → q ≠ x1.ptr := by
    intro q hq hqs _
    cases hf : f with
    | false =>
      obtain ⟨_, hx1x⟩ := hnoop hf
      rw [hx1x]
      exact hq
    | true => exact hx1ptr_ne q hqs hf
  obtain ⟨hscan, hseg⟩ := trim_scan (m := cutsetMem cutset) hnm
  have hIR : (cB.takeWhile (cutsetMem cutset)).length
      + (cB.reverse.takeWhile (cutsetMem cutset)).length ≤ xs_size x1 := by
    rw [← hcBlen0]
    exact hscan
  have hS2 : (xs_size x1 - (cB.reverse.takeWhile (cutsetMem cutset)).length + 2 ^ 64
      - (cB.takeWhile (cutsetMem cutset)).length) % 2 ^ 64
      = xs_size x1 - (cB.reverse.takeWhile (cutsetMem cutset)).length
        - (cB.takeWhile (cutsetMem cutset)).length := by
    rw [show xs_size x1 - (cB.reverse.takeWhile (cutsetMem cutset)).length + 2 ^ 64
        - (cB.takeWhile (cutsetMem cutset)).length
      = (xs_size x1 - (cB.reverse.takeWhile (cutsetMem cutset)).length
        - (cB.takeWhile (cutsetMem cutset)).length) + 2 ^ 64 from by omega]
    rw [Nat.add_mod_right]
    refine Nat.mod_eq_of_lt ?_
    rw [hx1size]
    omega
  have hkept : (v1.drop (cB.takeWhile (cutsetMem cutset)).length).take
      (xs_size x1 - (cB.reverse.takeWhile (cutsetMem cutset)).length
        - (cB.takeWhile (cutsetMem cutset)).length)
      = trimSpec (cutsetMem cutset) cB := by
    have hdt : cB.drop (cB.takeWhile (cutsetMem cutset)).length
        = (v1.drop (cB.takeWhile (cutsetMem cutset)).length).take
          (xs_size x1 - (cB.takeWhile (cutsetMem cutset)).length) := by
      rw [hcBv, List.drop_take]
    rw [trimSpec, ← hseg, hdt, List.take_take, ← hcBlen0]
    rw [Nat.min_eq_left (by omega), hcBlen0]
  have hkeptlen : (trimSpec (cutsetMem cutset) cB).length
      = xs_size x1 - (cB.reverse.takeWhile (cutsetMem cutset)).length
        - (cB.takeWhile (cutsetMem cutset)).length := by
    rw [← hkept, List.length_take, List.length_drop, hv1len]
    omega
  have htw := trimWrites_spec (v := v1)
    (i := (cB.takeWhile (cutsetMem cutset)).length)
    (s := xs_size x1 - (cB.reverse.takeWhile (cutsetMem cutset)).length
      - (cB.takeWhile (cutsetMem cutset)).length)
    (by rw [hv1len]; omega) (by rw [hv1len]; omega)
  rw [hkept] at htw
  have hs2cap : xs_size x1 - (cB.reverse.takeWhile (cutsetMem cutset)).length
      - (cB.takeWhile (cutsetMem cutset)).length ≤ xs_capacity x1 := by
    omega
  cases hp : x.isPtr with
  | true =>
    have hp1 : x1.isPtr = true := by rw [hx1p, hp]
    obtain ⟨b1, hb1, hb1len, hb1sz, hb19⟩ := WFb_ptr hw1 hp1
    have hv1len2 : v1.length = 2 ^ x1.capExp := by
      rw [hv1len, hx1cap, xs_capacity, if_pos hp, ← hx1c]
      have h1e : (1 : Nat) ≤ 2 ^ x1.capExp := Nat.one_le_two_pow
      omega
    have hv'len : (trimSpec (cutsetMem cutset) cB ++ 0 ::
        v1.drop ((xs_size x1 - (cB.reverse.takeWhile (cutsetMem cutset)).length
          - (cB.takeWhile (cutsetMem cutset)).length) + 1)).length
        = 2 ^ x1.capExp := by
      rw [List.length_append, List.length_cons, List.length_drop, hkeptlen, hv1len2]
      have hs2v1 : xs_size x1 - (cB.reverse.takeWhile (cutsetMem cutset)).length
          - (cB.takeWhile (cutsetMem cutset)).length < v1.length := by
        rw [hv1len]
        omega
      rw [hv1len2] at hs2v1
      omega
    have htotT : (xs_size x1 - (cB.reverse.takeWhile (cutsetMem cutset)).length
        - (cB.takeWhile (cutsetMem cutset)).length) + 1 ≤ 2 ^ x1.capExp := by
      rw [← hv1len2, hv1len]
      omega
    obtain ⟨hsv, hcont2, hsz2, hcap2, hwf2, href2⟩ :=
      setvirt_finish_ptr (T := xs_size x1
          - (cB.reverse.takeWhile (cutsetMem cutset)).length
          - (cB.takeWhile (cutsetMem cutset)).length)
        hp1 hb1 hb1len hv'len htotT hb19
    set V : List Byte := trimSpec (cutsetMem cutset) cB ++ 0 ::
      v1.drop ((xs_size x1 - (cB.reverse.takeWhile (cutsetMem cutset)).length
        - (cB.takeWhile (cutsetMem cutset)).length) + 1) with hV
    refine ⟨h1.setBuf x1.ptr ⟨b1.data.take (dataOff x1) ++ V⟩,
      { x1 with size := xs_size x1
          - (cB.reverse.takeWhile (cutsetMem cutset)).length
          - (cB.takeWhile (cutsetMem cutset)).length },
      ?_, ?_, ?_, ?_, ?_, ?_, ?_⟩
    · unfold xs_trim
      rw [if_neg hhead]
      dsimp only
      rw [hcow]
      simp only [Option.bind_eq_bind, Option.some_bind]
      rw [hv1]
      simp only [Option.some_bind]
      rw [hr1]
      simp only [Option.some_bind]
      rw [hS2, htw]
      simp only [Option.some_bind]
      rw [hsv]
      dsimp only
      rw [if_pos hp1]
      rfl
    · rw [hcont2, hV]
      rw [List.take_left' hkeptlen]
    · rw [hsz2]
      exact hkeptlen.symm
    · rw [hcap2]
      exact hx1cap
    · exact hwf2
    · intro q hq hqs
      rw [Heap.find_setBuf_other _ _ (hq_ne_x1 q hq hqs hp1)]
      exact hx1fr q hq hqs
    · intro hla b hb hcnt
      have hf : f = true := hfire b hb hla hcnt
      obtain ⟨hpx, hlx, hfp, hne, hlen1, href1, b', hb', hcnt', hold⟩ := hdet hf
      have hbb : b' = b := by
        rw [hb] at hb'
        exact (Option.some.inj hb').symm
      rw [hbb] at hold
      have hx1la : x1.isLarge = true := by rw [hx1l, hla]
      refine ⟨Ne.symm hne, ?_, ?_⟩
      · rw [Heap.find_setBuf_other _ _ hne]
        exact hold
      · exact (href2 hx1la).trans href1
  | false =>
    have hp1 : x1.isPtr = false := by rw [hx1p, hp]
    obtain ⟨hinl15, hsl15, hil1⟩ := WFb_inl hw1 hp1
    have hv1inl : v1 = x1.inl ++ [flagsByte x1] := by
      have hvi : xsVirt h1 x1 = some (x1.inl ++ [flagsByte x1]) := by
        unfold xsVirt
        rw [if_neg (by simp [hp1])]
      rw [hv1] at hvi
      exact Option.some.inj hvi
    have hcap15 : xs_capacity x = 15 := by
      rw [xs_capacity, if_neg (by simp [hp])]
    have hfb : flagsByte x1 ≤ 15 := by
      rw [flagsByte, if_neg (by simp [hp1]), if_neg (by simp [hil1])]
      show x1.spaceLeft % 16 + 0 + 0 ≤ 15
      omega
    have hb15v1 : byteAt v1 15 = flagsByte x1 := by
      rw [hv1inl, byteAt_append_right _ (by rw [hinl15]), hinl15]
      rfl
    have hs215 : xs_size x1 - (cB.reverse.takeWhile (cutsetMem cutset)).length
        - (cB.takeWhile (cutsetMem cutset)).length ≤ 15 := by
      have hx1le : xs_size x1 ≤ 15 := by
        have hh := hszc1
        rw [hx1cap, hcap15] at hh
        exact hh
      omega
    have hb15le : byteAt (trimSpec (cutsetMem cutset) cB ++ 0 ::
        v1.drop ((xs_size x1 - (cB.reverse.takeWhile (cutsetMem cutset)).length
          - (cB.takeWhile (cutsetMem cutset)).length) + 1)) 15 ≤ 15 := by
      rcases byteAt_15_after_trim (v := v1) hkeptlen hs215 with h0 | hflag
      · rw [h0]
        exact Nat.zero_le 15
      · rw [hflag, hb15v1]
        exact hfb
    have hv'16 : (trimSpec (cutsetMem cutset) cB ++ 0 ::
        v1.drop ((xs_size x1 - (cB.reverse.takeWhile (cutsetMem cutset)).length
          - (cB.takeWhile (cutsetMem cutset)).length) + 1)).length = 16 := by
      rw [List.length_append, List.length_cons, List.length_drop, hkeptlen,
        hv1len, hx1cap, hcap15]
      have hlt : xs_size x1 - (cB.reverse.takeWhile (cutsetMem cutset)).length
          - (cB.takeWhile (cutsetMem cutset)).length < 16 := by omega
      omega
    obtain ⟨x2i, hsv, hx2ip, hcont2, hsz2, hcap2, hwf2⟩ :=
      setvirt_finish_inline (T := xs_size x1
          - (cB.reverse.takeWhile (cutsetMem cutset)).length
          - (cB.takeWhile (cutsetMem cutset)).length)
        hp1 hv'16 hs215 hb15le
    refine ⟨h1, { x2i with spaceLeft := 15 - (xs_size x1
        - (cB.reverse.takeWhile (cutsetMem cutset)).length
        - (cB.takeWhile (cutsetMem cutset)).length) },
      ?_, ?_, ?_, ?_, ?_, ?_, ?_⟩
    · unfold xs_trim
      rw [if_neg hhead]
      dsimp only
      rw [hcow]
      simp only [Option.bind_eq_bind, Option.some_bind]
      rw [hv1]
      simp only [Option.some_bind]
      rw [hr1]
      simp only [Option.some_bind]
      rw [hS2, htw]
      simp only [Option.some_bind]
      rw [hsv]
      dsimp only
      rw [hx2ip]
      simp only [Bool.false_eq_true, if_false]
      rfl
    · rw [hcont2]
      rw [List.take_left' hkeptlen]
    · rw [hsz2]
      exact hkeptlen.symm
    · rw [hcap2, hcap15]
    · exact hwf2
    · intro q hq hqs
      exact hx1fr q hq hqs
    · intro hla b hb hcnt
      have hf : f = true := hfire b hb hla hcnt
      obtain ⟨hpx, _, _, _, _, _, _⟩ := hdet hf
      rw [hp] at hpx
      cases hpx

set_option maxRecDepth 40000 in
/-- `xs_cow_lazy_copy` on a shared large string whose current size is below the
large-string threshold: the detach fires, but `xs_allocate_data` picks the
medium tier, so the fresh allocation has no 4-byte header while the value keeps
its `is_large_string` flag. -/
theorem cow_detach_small {h : Heap} {x : Xs} {b : Buffer}
    (hp : x.isPtr = true) (hl : x.isLarge = true)
    (hb : h.find x.ptr = some b)
    (hblen : b.data.length = 2 ^ x.capExp + 4)
    (h9 : 9 ≤ x.capExp)
    (hsz : x.size + 1 ≤ 2 ^ x.capExp)
    (hrc : 2 ≤ bufCount b) (hsmall : x.size < 256) :
    ∃ h', xs_cow_lazy_copy h x =
        some (h', { x with ptr := ptrOf h.bufs.length }, true) ∧
      h'.find x.ptr = some ⟨bytesOfU32 (u32OfInt (bufCount b - 1)) ++ b.data.drop 4⟩ ∧
      h'.find (ptrOf h.bufs.length) =
        some ⟨(List.replicate (2 ^ x.capExp) h.junk).take 4 ++
          ((b.data.drop 4).take x.size ++
            List.replicate (2 ^ x.capExp - 4 - x.size) h.junk)⟩ ∧
      (∀ q, q ≠ x.ptr → q ≠ ptrOf h.bufs.length → h'.find q = h.find q) ∧
      x.ptr ≠ ptrOf h.bufs.length := by
  have h512 : (512 : Nat) ≤ 2 ^ x.capExp := by
    calc (512 : Nat) = 2 ^ 9 := by norm_num
      _ ≤ 2 ^ x.capExp := Nat.pow_le_pow_right (by omega) h9
  have hxne : x.ptr ≠ ptrOf h.bufs.length := by
    obtain ⟨i, hpi, hi⟩ := ptr_lt_of_find hb
    rw [hpi]
    intro hc
    have hij := ptrOf_inj hc
    omega
  set h1 : Heap := h.setBuf x.ptr ⟨bytesOfU32 (u32OfInt (bufCount b - 1)) ++ b.data.drop 4⟩
    with hh1
  have h1len : h1.bufs.length = h.bufs.length := Heap.length_setBuf _ _ _
  have h1junk : h1.junk = h.junk := Heap.junk_setBuf _ _ _
  have halloc : xs_allocate_data h1 x x.size false =
      some ((h1.malloc (2 ^ x.capExp)).1, { x with ptr := ptrOf h1.bufs.length }) :=
    alloc_fresh_medium hsmall
  rw [h1len] at halloc
  have hfind2 : (h1.malloc (2 ^ x.capExp)).1.find (ptrOf h.bufs.length)
      = some ⟨List.replicate (2 ^ x.capExp) h.junk⟩ := by
    have hself : (h1.malloc (2 ^ x.capExp)).1.find (ptrOf h1.bufs.length)
        = some ⟨List.replicate (2 ^ x.capExp) h1.junk⟩ :=
      Heap.find_malloc_self h1 (2 ^ x.capExp)
    rw [h1len, h1junk] at hself
    exact hself
  have hx2p : ({ x with ptr := ptrOf h.bufs.length } : Xs).isPtr = true := hp
  have hdoff : dataOff ({ x with ptr := ptrOf h.bufs.length } : Xs) = 4 :=
    dataOff_four hl
  unfold xs_cow_lazy_copy
  rw [get_ref_count_large hl hb]
  simp only [Option.bind_eq_bind, Option.some_bind]
  rw [if_neg (by omega)]
  rw [xsVirt_heap hp hb]
  simp only [Option.bind_eq_bind, Option.some_bind]
  rw [readB_some (by rw [List.length_drop, hblen, dataOff, if_pos hl]; omega)]
  simp only [Option.bind_eq_bind, Option.some_bind, List.drop_zero]
  rw [dec_ref_count_large hl hb]
  simp only [Option.bind_eq_bind, Option.some_bind]
  rw [← hh1, halloc]
  simp only [Option.bind_eq_bind, Option.some_bind]
  rw [xsVirt_heap hx2p hfind2]
  simp only [Option.bind_eq_bind, Option.some_bind]
  rw [hdoff]
  have hdrop4 : (List.replicate (2 ^ x.capExp) h.junk).drop 4
      = List.replicate (2 ^ x.capExp - 4) h.junk := by
    conv_lhs => rw [show (2 : Nat) ^ x.capExp = (2 ^ x.capExp - 4) + 4 from by omega]
    rw [drop_replicate]
  rw [hdrop4]
  set oldC : List Byte := (List.drop (dataOff x) b.data).take x.size with holdc
  have holdclen : oldC.length = x.size := by
    rw [holdc, List.length_take, List.length_drop, hblen, dataOff, if_pos hl]
    omega
  rw [writeB_some (by rw [List.length_replicate, holdclen]; omega)]
  simp only [Option.bind_eq_bind, Option.some_bind]
  rw [xsSetVirt_heap hx2p hfind2]
  simp only
  rw [hdoff]
  have hdropsz : (List.replicate (2 ^ x.capExp - 4) h.junk).drop (0 + oldC.length)
      = List.replicate (2 ^ x.capExp - 4 - x.size) h.junk := by
    rw [Nat.zero_add, holdclen]
    conv_lhs => rw [show (2 : Nat) ^ x.capExp - 4
      = (2 ^ x.capExp - 4 - x.size) + x.size from by omega]
    rw [drop_replicate]
  rw [hdropsz]
  simp only [List.take_zero, List.nil_append]
  refine ⟨(h1.malloc (2 ^ x.capExp)).1.setBuf (ptrOf h.bufs.length)
      ⟨(List.replicate (2 ^ x.capExp) h.junk).take 4 ++
        (oldC ++ List.replicate (2 ^ x.capExp - 4 - x.size) h.junk)⟩,
      rfl, ?_, ?_, ?_, hxne⟩
  · rw [Heap.find_setBuf_other _ _ hxne]
    have hne1 : x.ptr ≠ (h1.malloc (2 ^ x.capExp)).2 := by
      show x.ptr ≠ ptrOf h1.bufs.length
      rw [h1len]
      exact hxne
    have hmo : ((h1.malloc (2 ^ x.capExp)).1).find x.ptr = h1.find x.ptr :=
      Heap.find_malloc_other h1 (2 ^ x.capExp) hne1
    rw [hmo, hh1]
    exact Heap.find_setBuf_self _ _ hb
  · rw [Heap.find_setBuf_self _ _ hfind2]
    rw [holdc, dataOff, if_pos hl]
  · intro q hq1 hq2
    rw [Heap.find_setBuf_other _ _ hq2]
    have hne1 : q ≠ (h1.malloc (2 ^ x.capExp)).2 := by
      show q ≠ ptrOf h1.bufs.length
      rw [h1len]
      exact hq2
    have hmo : ((h1.malloc (2 ^ x.capExp)).1).find q = h1.find q :=
      Heap.find_malloc_other h1 (2 ^ x.capExp) hne1
    rw [hmo, hh1, Heap.find_setBuf_other _ _ hq1]

set_option maxRecDepth 40000 in
set_option maxHeartbeats 1000000 in
/-- `xs_trim` on a shared large string whose current size is below the
threshold: the detach under-allocates (the private buffer has no header and
the result is not well-formed), but content, length and reported capacity
still come out as specified. -/
theorem trim_small_detach {h : Heap} {x : Xs} {b : Buffer} {cB cutset : List Byte}
    (hwx : WFb h x = true) (hcx : xsContent h x = some cB)
    (hhead : ¬ byteAt cutset 0 = 0)
    (hnm : ∃ bb ∈ cB, cutsetMem cutset bb = false)
    (hp : x.isPtr = true) (hl : x.isLarge = true)
    (hb : h.find x.ptr = some b) (hcnt : 2 ≤ bufCount b)
    (hsmall : x.size < 256) :
    trimContent h x cutset = some (trimSpec (cutsetMem cutset) cB) ∧
    trimSize h x cutset = some ((trimSpec (cutsetMem cutset) cB).length) ∧
    trimCap h x cutset = some (xs_capacity x) := by
  obtain ⟨b0, hb0, hblen0, hsz, h9x⟩ := WFb_ptr hwx hp
  have hbeq : b0 = b := by
    rw [hb] at hb0
    exact (Option.some.inj hb0).symm
  rw [hbeq] at hblen0
  have h9 : 9 ≤ x.capExp := h9x hl
  rw [dataOff_four hl] at hblen0
  have h512 : (512 : Nat) ≤ 2 ^ x.capExp := by
    calc (512 : Nat) = 2 ^ 9 := by norm_num
      _ ≤ 2 ^ x.capExp := Nat.pow_le_pow_right (by omega) h9
  obtain ⟨h1, hcoweq, hold, hnew, hfr, hxne⟩ :=
    cow_detach_small hp hl hb hblen0 h9 hsz hcnt hsmall
  obtain ⟨v0, hv0, hv0len, hszc0, hcBv0, hcBlen0, hr0⟩ := content_read hwx hcx
  have hszx : xs_size x = x.size := by rw [xs_size, if_pos hp]
  have hcBx : cB = (b.data.drop 4).take x.size := by
    have hveq : v0 = b.data.drop 4 := by
      have hvv := xsVirt_heap hp hb
      rw [dataOff_four hl] at hvv
      rw [hv0] at hvv
      exact Option.some.inj hvv
    rw [hcBv0, hveq, hszx]
  rw [← hcBx] at hnew
  set x1 : Xs := { x with ptr := ptrOf h.bufs.length } with hx1def
  have hx1p : x1.isPtr = true := hp
  have hdo1 : dataOff x1 = 4 := dataOff_four hl
  set J : List Byte := List.replicate (2 ^ x.capExp - 4 - x.size) h.junk with hJ
  set v1 : List Byte := cB ++ J with hv1def
  have hcBlen : cB.length = x.size := by rw [hcBlen0, hszx]
  have hv1len : v1.length = 2 ^ x.capExp - 4 := by
    rw [hv1def, List.length_append, hJ, List.length_replicate, hcBlen]
    omega
  have hv1x : xsVirt h1 x1 = some v1 := by
    rw [xsVirt_heap hx1p hnew, hdo1]
    congr 1
    exact drop_take_append (by rw [List.length_replicate]; omega)
  have hszx1 : xs_size x1 = x.size := by
    rw [xs_size, if_pos hx1p]
  have hr1 : readB v1 0 (xs_size x1) = some cB := by
    rw [readB_some (by rw [hv1len, hszx1]; omega), List.drop_zero, hszx1, hv1def]
    rw [List.take_left' hcBlen]
  have hcBv : cB = v1.take (xs_size x1) := by
    rw [hszx1, hv1def, List.take_left' hcBlen]
  obtain ⟨hscan, hseg⟩ := trim_scan (m := cutsetMem cutset) hnm
  have hIR : (cB.takeWhile (cutsetMem cutset)).length
      + (cB.reverse.takeWhile (cutsetMem cutset)).length ≤ xs_size x1 := by
    rw [hszx1, ← hcBlen]
    exact hscan
  have hS2 : (xs_size x1 - (cB.reverse.takeWhile (cutsetMem cutset)).length + 2 ^ 64
      - (cB.takeWhile (cutsetMem cutset)).length) % 2 ^ 64
      = xs_size x1 - (cB.reverse.takeWhile (cutsetMem cutset)).length
        - (cB.takeWhile (cutsetMem cutset)).length := by
    rw [show xs_size x1 - (cB.reverse.takeWhile (cutsetMem cutset)).length + 2 ^ 64
        - (cB.takeWhile (cutsetMem cutset)).length
      = (xs_size x1 - (cB.reverse.takeWhile (cutsetMem cutset)).length
        - (cB.takeWhile (cutsetMem cutset)).length) + 2 ^ 64 from by omega]
    rw [Nat.add_mod_right]
    refine Nat.mod_eq_of_lt ?_
    rw [hszx1]
    omega
  have hkept : (v1.drop (cB.takeWhile (cutsetMem cutset)).length).take
      (xs_size x1 - (cB.reverse.takeWhile (cutsetMem cutset)).length
        - (cB.takeWhile (cutsetMem cutset)).length)
      = trimSpec (cutsetMem cutset) cB := by
    have hdt : cB.drop (cB.takeWhile (cutsetMem cutset)).length
        = (v1.drop (cB.takeWhile (cutsetMem cutset)).length).take
          (xs_size x1 - (cB.takeWhile (cutsetMem cutset)).length) := by
      rw [hcBv, List.drop_take]
    rw [trimSpec, ← hseg, hdt, List.take_take, hszx1, ← hcBlen]
    rw [Nat.min_eq_left (by omega), hcBlen]
  have hkeptlen : (trimSpec (cutsetMem cutset) cB).length
      = xs_size x1 - (cB.reverse.takeWhile (cutsetMem cutset)).length
        - (cB.takeWhile (cutsetMem cutset)).length := by
    rw [← hkept, List.length_take, List.length_drop, hv1len, hszx1]
    omega
  have htw := trimWrites_spec (v := v1)
    (i := (cB.takeWhile (cutsetMem cutset)).length)
    (s := xs_size x1 - (cB.reverse.takeWhile (cutsetMem cutset)).length
      - (cB.takeWhile (cutsetMem cutset)).length)
    (by rw [hv1len, hszx1]; omega) (by rw [hv1len, hszx1]; omega)
  rw [hkept] at htw
  set V : List Byte := trimSpec (cutsetMem cutset) cB ++ 0 ::
    v1.drop ((xs_size x1 - (cB.reverse.takeWhile (cutsetMem cutset)).length
      - (cB.takeWhile (cutsetMem cutset)).length) + 1) with hV
  have hsetv := xsSetVirt_heap hx1p hnew V
  have hbNlen : ((List.replicate (2 ^ x.capExp) h.junk).take 4 ++ (cB ++ J) :
      List Byte).length = 2 ^ x.capExp := by
    rw [List.length_append, List.length_take, List.length_replicate,
      List.length_append, hJ, List.length_replicate, hcBlen]
    omega
  have hVlen : V.length = 2 ^ x.capExp - 4 := by
    rw [hV, List.length_append, List.length_cons, List.length_drop, hkeptlen,
      hv1len, hszx1]
    omega
  have heqn : xs_trim h x cutset = some
      (h1.setBuf x1.ptr ⟨(⟨(List.replicate (2 ^ x.capExp) h.junk).take 4 ++
          (cB ++ J)⟩ : Buffer).data.take (dataOff x1) ++ V⟩,
        { x1 with size := xs_size x1
          - (cB.reverse.takeWhile (cutsetMem cutset)).length
          - (cB.takeWhile (cutsetMem cutset)).length }) := by
    unfold xs_trim
    rw [if_neg hhead]
    dsimp only
    rw [hcoweq]
    simp only [Option.bind_eq_bind, Option.some_bind]
    rw [hv1x]
    simp only [Option.some_bind]
    rw [hr1]
    simp only [Option.some_bind]
    rw [hS2, htw]
    simp only [Option.some_bind]
    rw [hsetv]
    dsimp only
    rw [if_pos hx1p]
    rfl
  have hcont2 : xsContent
      (h1.setBuf x1.ptr ⟨(⟨(List.replicate (2 ^ x.capExp) h.junk).take 4 ++
          (cB ++ J)⟩ : Buffer).data.take (dataOff x1) ++ V⟩)
      { x1 with size := xs_size x1
        - (cB.reverse.takeWhile (cutsetMem cutset)).length
        - (cB.takeWhile (cutsetMem cutset)).length }
      = some (V.take (xs_size x1
        - (cB.reverse.takeWhile (cutsetMem cutset)).length
        - (cB.takeWhile (cutsetMem cutset)).length)) :=
    content_after_setBuf hx1p hnew (by rw [hdo1, hbNlen]; omega)
      (by rw [hVlen, hszx1]; omega)
  refine ⟨?_, ?_, ?_⟩
  · rw [trimContent, heqn]
    show xsContent _ _ = _
    rw [hcont2, hV, List.take_left' hkeptlen]
  · rw [trimSize, heqn]
    show some (xs_size _) = _
    rw [show xs_size { x1 with size := xs_size x1
        - (cB.reverse.takeWhile (cutsetMem cutset)).length
        - (cB.takeWhile (cutsetMem cutset)).length }
      = xs_size x1 - (cB.reverse.takeWhile (cutsetMem cutset)).length
        - (cB.takeWhile (cutsetMem cutset)).length from by
      rw [xs_size, if_pos hx1p]]
    rw [hkeptlen]
  · rw [trimCap, heqn]
    show some (xs_capacity _) = _
    rw [show xs_capacity { x1 with size := xs_size x1
        - (cB.reverse.takeWhile (cutsetMem cutset)).length
        - (cB.takeWhile (cutsetMem cutset)).length }
      = 2 ^ x.capExp - 1 from by rw [xs_capacity, if_pos hx1p]]
    rw [show xs_capacity x = 2 ^ x.capExp - 1 from by rw [xs_capacity, if_pos hp]]

/-- C2 (amended): for well-formed, library-shaped values (capacity at least the
inline 15, NUL-terminated suffix source) whose destination is not a shared
value trimmed below the large-string threshold, and whose first and third
arguments do not point into the destination's heap buffer, `xs_concat` leaves
the destination holding exactly `prefix ++ content ++ suffix` with the summed
length.  The unconditional claim of the spec fails on a shared value whose
current length is under 256: the copy-on-write detach then under-allocates by
the 4 header bytes (see the counterexample); an aliasing source instead sees
the bytes the earlier in-place copies have already overwritten. -/
theorem concat_surrounds_content (h : Heap) (x pre suf : Xs)
    (cB preB sufB : List Byte)
    (hwx : WFb h x = true) (hwp : WFb h pre = true) (hws : WFb h suf = true)
    (hcx : xsContent h x = some cB) (hcp : xsContent h pre = some preB)
    (hcs : xsContent h suf = some sufB) (hterm : xsTermByte h suf = some 0)
    (hcap : 15 ≤ xs_capacity x)
    (hok : ∀ b, h.find x.ptr = some b → x.isLarge = true → 2 ≤ bufCount b →
      256 ≤ x.size)
    (hpre2 : pre.isPtr = true → pre.ptr ≠ x.ptr)
    (hsuf2 : suf.isPtr = true → suf.ptr ≠ x.ptr) :
    concatContent h x pre suf = some (preB ++ cB ++ sufB) ∧
    concatSize h x pre suf = some (preB.length + cB.length + sufB.length) := by
  obtain ⟨h2, x2, heq, hcont, hsz, _, _, _⟩ :=
    concat_master hwx hwp hws hcx hcp hcs hterm hcap hok
      (fun hpp hal => absurd hal (hpre2 hpp))
      (fun hsp hal => absurd hal (hsuf2 hsp))
  constructor
  · rw [concatContent, heq]
    exact hcont
  · rw [concatSize, heq]
    exact congrArg some hsz

theorem concat_surrounds_content_witness :
    concatContent ⟨[], 7⟩
      ⟨false, false, 0, 0, 0, 109 :: 105 :: 100 :: List.replicate 12 0, 12⟩
      ⟨false, false, 0, 0, 0, 40 :: List.replicate 14 0, 14⟩
      ⟨false, false, 0, 0, 0, 41 :: List.replicate 14 0, 14⟩
      = some ([40] ++ [109, 105, 100] ++ [41]) ∧
    concatSize ⟨[], 7⟩
      ⟨false, false, 0, 0, 0, 109 :: 105 :: 100 :: List.replicate 12 0, 12⟩
      ⟨false, false, 0, 0, 0, 40 :: List.replicate 14 0, 14⟩
      ⟨false, false, 0, 0, 0, 41 :: List.replicate 14 0, 14⟩ = some 5 :=
  concat_surrounds_content ⟨[], 7⟩
    ⟨false, false, 0, 0, 0, 109 :: 105 :: 100 :: List.replicate 12 0, 12⟩
    ⟨false, false, 0, 0, 0, 40 :: List.replicate 14 0, 14⟩
    ⟨false, false, 0, 0, 0, 41 :: List.replicate 14 0, 14⟩
    [109, 105, 100] [40] [41]
    (by decide) (by decide) (by decide) (by decide) (by decide) (by decide)
    (by decide) (by decide)
    (by
      intro b hb
      rw [show Heap.find (⟨[], 7⟩ : Heap) 0 = none from rfl] at hb
      cases hb)
    (by decide) (by decide)

set_option maxRecDepth 100000 in
/-- C2 counterexample: a Shared-heap value of length 100 with header count 2
and capacity 511 is concatenated with a 410-byte prefix and a 1-byte suffix
(total 511, within the reported capacity).  The copy-on-write detach picks the
allocation tier from the current length, so the private buffer is 4 bytes too
small and the suffix write runs off its end: the operation is undefined
behaviour, not `prefix ++ content ++ suffix`. -/
theorem concat_overflow_on_shared_small_value :
    concatContent
      ⟨[some ⟨[2, 0, 0, 0] ++ List.replicate 512 97⟩,
        some ⟨[1, 0, 0, 0] ++ List.replicate 512 98⟩], 7⟩
      ⟨true, true, 8, 100, 9, List.replicate 15 0, 15⟩
      ⟨true, true, 16, 410, 9, List.replicate 15 0, 15⟩
      ⟨false, false, 0, 0, 0, 99 :: List.replicate 14 0, 14⟩ = none := by
  decide

/-- C3 (amended): a cutset whose first byte is NUL makes `xs_trim` a no-op, and
whenever some content byte is outside the cutset, trimming removes exactly the
maximal leading and trailing runs of cutset members, updates the length
accordingly and leaves the capacity unchanged.  The spec's unconditional claim
fails when EVERY content byte is a cutset member: `slen -= i` then underflows
`size_t` and the following `memmove` length is astronomically large (see the
counterexample). -/
theorem trim_strips_boundary_runs (h : Heap) (x : Xs) (cB cutset : List Byte)
    (hwx : WFb h x = true) (hcx : xsContent h x = some cB)
    (hszlt : xs_size x < 2 ^ 64) :
    (byteAt cutset 0 = 0 → xs_trim h x cutset = some (h, x)) ∧
    (¬ byteAt cutset 0 = 0 → (∃ bb ∈ cB, cutsetMem cutset bb = false) →
      trimContent h x cutset = some (trimSpec (cutsetMem cutset) cB) ∧
      trimSize h x cutset = some ((trimSpec (cutsetMem cutset) cB).length) ∧
      trimCap h x cutset = some (xs_capacity x)) := by
  constructor
  · intro hz
    unfold xs_trim
    rw [if_pos hz]
  · intro hhead hnm
    by_cases hbad : x.isPtr = true ∧ x.isLarge = true ∧ x.size < 256 ∧
        ∃ b, h.find x.ptr = some b ∧ 2 ≤ bufCount b
    · obtain ⟨hp, hl, hsmall, b, hb, hcnt⟩ := hbad
      exact trim_small_detach hwx hcx hhead hnm hp hl hb hcnt hsmall
    · have hok : ∀ b, h.find x.ptr = some b → x.isLarge = true → 2 ≤ bufCount b →
          256 ≤ x.size := by
        intro b hb hl hcnt
        by_contra hlt
        have hp : x.isPtr = true := by
          cases hpc : x.isPtr with
          | true => rfl
          | false =>
            obtain ⟨_, _, hli⟩ := WFb_inl hwx hpc
            rw [hl] at hli
            cases hli
        exact hbad ⟨hp, hl, by omega, b, hb, hcnt⟩
      obtain ⟨h2, x2, heq, hcont, hsz, hcap, _, _, _⟩ :=
        trim_master hwx hcx hhead hnm hszlt hok
      refine ⟨?_, ?_, ?_⟩
      · rw [trimContent, heq]
        exact hcont
      · rw [trimSize, heq]
        exact congrArg some hsz
      · rw [trimCap, heq]
        exact congrArg some hcap
theorem trim_strips_boundary_runs_witness :
    trimContent ⟨[], 7⟩
      ⟨false, false, 0, 0, 0,
        [10, 32, 102, 111, 111, 98, 97, 114, 98, 97, 114, 32, 10, 10, 10], 0⟩
      [10, 32] = some [102, 111, 111, 98, 97, 114, 98, 97, 114] ∧
    trimSize ⟨[], 7⟩
      ⟨false, false, 0, 0, 0,
        [10, 32, 102, 111, 111, 98, 97, 114, 98, 97, 114, 32, 10, 10, 10], 0⟩
      [10, 32] = some 9 ∧
    xs_trim ⟨[], 7⟩
      ⟨false, false, 0, 0, 0,
        [10, 32, 102, 111, 111, 98, 97, 114, 98, 97, 114, 32, 10, 10, 10], 0⟩
      [0, 5] = some (⟨[], 7⟩,
      ⟨false, false, 0, 0, 0,
        [10, 32, 102, 111, 111, 98, 97, 114, 98, 97, 114, 32, 10, 10, 10], 0⟩) := by
  have hmain := (trim_strips_boundary_runs ⟨[], 7⟩
    ⟨false, false, 0, 0, 0,
      [10, 32, 102, 111, 111, 98, 97, 114, 98, 97, 114, 32, 10, 10, 10], 0⟩
    [10, 32, 102, 111, 111, 98, 97, 114, 98, 97, 114, 32, 10, 10, 10] [10, 32]
    (by decide) (by decide) (by decide)).2 (by decide) (by decide)
  have hnoop := (trim_strips_boundary_runs ⟨[], 7⟩
    ⟨false, false, 0, 0, 0,
      [10, 32, 102, 111, 111, 98, 97, 114, 98, 97, 114, 32, 10, 10, 10], 0⟩
    [10, 32, 102, 111, 111, 98, 97, 114, 98, 97, 114, 32, 10, 10, 10] [0, 5]
    (by decide) (by decide) (by decide)).1 (by decide)
  refine ⟨?_, ?_, hnoop⟩
  · rw [hmain.1]
    decide
  · rw [hmain.2.1]
    decide

/-- C3 counterexample: trimming `"aaa"` with cutset `"a"` (every byte a member)
underflows the surviving-length computation and performs a wildly
out-of-bounds move: undefined behaviour, not the empty string. -/
theorem trim_all_members_is_undefined :
    trimContent ⟨[], 7⟩
      ⟨false, false, 0, 0, 0, 97 :: 97 :: 97 :: List.replicate 12 0, 12⟩
      [97] = none := by
  decide

/-- C1 (amended): mutating one alias of a Shared-heap value with header count
at least 2 detaches it, provided its CURRENT length is still at least 256:
after `xs_concat` or `xs_trim` the mutated value sits on a fresh private
buffer (count 1, pointer different from the old one), the old group's count
has dropped by exactly 1, and the content seen through any other alias is
unchanged.  The proviso is the amendment: the spec claims this for every
shared value, but a shared value trimmed below 256 bytes detaches into a
buffer whose reference-count header is never initialised (see the
counterexample). -/
theorem shared_mutation_detaches (h : Heap) (x y pre suf : Xs) (b : Buffer)
    (cB preB sufB cutset : List Byte)
    (hwx : WFb h x = true) (hwp : WFb h pre = true) (hws : WFb h suf = true)
    (hwy : WFb h y = true)
    (hcx : xsContent h x = some cB) (hcp : xsContent h pre = some preB)
    (hcs : xsContent h suf = some sufB) (hterm : xsTermByte h suf = some 0)
    (hcap : 15 ≤ xs_capacity x)
    (hxl : x.isLarge = true)
    (hb : h.find x.ptr = some b) (hcnt : 2 ≤ bufCount b)
    (hcltb : bufCount b < 2 ^ 31)
    (hbig : 256 ≤ x.size)
    (hyp : y.isPtr = true) (hyl : y.isLarge = true) (hyptr : y.ptr = x.ptr)
    (hszlt : xs_size x < 2 ^ 64)
    (hhead : ¬ byteAt cutset 0 = 0)
    (hnm : ∃ bb ∈ cB, cutsetMem cutset bb = false) :
    (concatSib h x pre suf y = xsContent h y ∧
     (∃ p, concatNewPtr h x pre suf = some p ∧ p ≠ x.ptr) ∧
     concatNewRef h x pre suf = some (some 1) ∧
     concatOldRef h x pre suf = some (some (bufCount b - 1))) ∧
    (trimSib h x cutset y = xsContent h y ∧
     (∃ p, trimNewPtr h x cutset = some p ∧ p ≠ x.ptr) ∧
     trimNewRef h x cutset = some (some 1) ∧
     trimOldRef h x cutset = some (some (bufCount b - 1))) := by
  have hok : ∀ b', h.find x.ptr = some b' → x.isLarge = true → 2 ≤ bufCount b' →
      256 ≤ x.size := fun _ _ _ _ => hbig
  have hacond : x.isLarge = true ∧ ∀ bb, h.find x.ptr = some bb → 2 ≤ bufCount bb :=
    ⟨hxl, fun bb hbb => by
      rw [hb] at hbb
      exact (Option.some.inj hbb) ▸ hcnt⟩
  have hby' : h.find y.ptr = some b := by
    rw [hyptr]
    exact hb
  obtain ⟨bY, hbY, hbYlen, hbYsz, _⟩ := WFb_ptr hwy hyp
  have hbYb : bY = b := by
    rw [hby'] at hbY
    exact (Option.some.inj hbY).symm
  rw [hbYb] at hbYlen
  have hdoy : dataOff y = 4 := dataOff_four hyl
  rw [hdoy] at hbYlen
  have hsib : ∀ h2 : Heap,
      h2.find x.ptr = some ⟨bytesOfU32 (u32OfInt (bufCount b - 1)) ++ b.data.drop 4⟩ →
      xsContent h2 y = xsContent h y := by
    intro h2 h2f
    rw [xsContent_ptr hyp (by rw [hyptr]; exact h2f) (by
        rw [hdoy]
        show y.size ≤ ((bytesOfU32 (u32OfInt (bufCount b - 1)) ++ b.data.drop 4).drop 4).length
        rw [List.drop_left' (length_bytesOfU32 _), List.length_drop, hbYlen]
        omega),
      xsContent_ptr hyp hby' (by rw [hdoy, List.length_drop, hbYlen]; omega)]
    rw [hdoy]
    rw [show (⟨bytesOfU32 (u32OfInt (bufCount b - 1)) ++ b.data.drop 4⟩ : Buffer).data.drop 4
      = b.data.drop 4 from List.drop_left' (length_bytesOfU32 _)]
  constructor
  · obtain ⟨h2, x2, heq, hcont, hsz, hwf, hfr, hdetb⟩ :=
      concat_master hwx hwp hws hcx hcp hcs hterm hcap hok
        (fun _ _ => hacond) (fun _ _ => hacond)
    obtain ⟨hneq, holdf, href⟩ := hdetb hxl b hb hcnt
    refine ⟨?_, ⟨x2.ptr, ?_, hneq⟩, ?_, ?_⟩
    · rw [concatSib, heq]
      exact hsib h2 holdf
    · rw [concatNewPtr, heq]
      rfl
    · rw [concatNewRef, heq]
      exact congrArg some href
    · rw [concatOldRef, heq]
      show some (refAt h2 x.ptr) = some (some (bufCount b - 1))
      rw [refAt, holdf, Option.map_some']
      rw [bufCount_store _ _ (by omega) (by omega)]
  · obtain ⟨h2, x2, heq, hcont, hsz, hcp2, hwf, hfr, hdetb⟩ :=
      trim_master hwx hcx hhead hnm hszlt hok
    obtain ⟨hneq, holdf, href⟩ := hdetb hxl b hb hcnt
    refine ⟨?_, ⟨x2.ptr, ?_, hneq⟩, ?_, ?_⟩
    · rw [trimSib, heq]
      exact hsib h2 holdf
    · rw [trimNewPtr, heq]
      rfl
    · rw [trimNewRef, heq]
      exact congrArg some href
    · rw [trimOldRef, heq]
      show some (refAt h2 x.ptr) = some (some (bufCount b - 1))
      rw [refAt, holdf, Option.map_some']
      rw [bufCount_store _ _ (by omega) (by omega)]

set_option maxRecDepth 100000 in
theorem shared_mutation_detaches_witness :
    concatNewRef ⟨[some ⟨[2, 0, 0, 0] ++ List.replicate 512 97⟩], 7⟩
      ⟨true, true, 8, 300, 9, List.replicate 15 0, 15⟩
      ⟨false, false, 0, 0, 0, 40 :: List.replicate 14 0, 14⟩
      ⟨false, false, 0, 0, 0, 41 :: List.replicate 14 0, 14⟩ = some (some 1) ∧
    concatOldRef ⟨[some ⟨[2, 0, 0, 0] ++ List.replicate 512 97⟩], 7⟩
      ⟨true, true, 8, 300, 9, List.replicate 15 0, 15⟩
      ⟨false, false, 0, 0, 0, 40 :: List.replicate 14 0, 14⟩
      ⟨false, false, 0, 0, 0, 41 :: List.replicate 14 0, 14⟩ = some (some 1) ∧
    trimNewRef ⟨[some ⟨[2, 0, 0, 0] ++ List.replicate 512 97⟩], 7⟩
      ⟨true, true, 8, 300, 9, List.replicate 15 0, 15⟩ [98] = some (some 1) ∧
    concatSib ⟨[some ⟨[2, 0, 0, 0] ++ List.replicate 512 97⟩], 7⟩
      ⟨true, true, 8, 300, 9, List.replicate 15 0, 15⟩
      ⟨false, false, 0, 0, 0, 40 :: List.replicate 14 0, 14⟩
      ⟨false, false, 0, 0, 0, 41 :: List.replicate 14 0, 14⟩
      ⟨true, true, 8, 300, 9, List.replicate 15 0, 15⟩
      = xsContent ⟨[some ⟨[2, 0, 0, 0] ++ List.replicate 512 97⟩], 7⟩
        ⟨true, true, 8, 300, 9, List.replicate 15 0, 15⟩ := by
  have hmain := shared_mutation_detaches
    ⟨[some ⟨[2, 0, 0, 0] ++ List.replicate 512 97⟩], 7⟩
    ⟨true, true, 8, 300, 9, List.replicate 15 0, 15⟩
    ⟨true, true, 8, 300, 9, List.replicate 15 0, 15⟩
    ⟨false, false, 0, 0, 0, 40 :: List.replicate 14 0, 14⟩
    ⟨false, false, 0, 0, 0, 41 :: List.replicate 14 0, 14⟩
    ⟨[2, 0, 0, 0] ++ List.replicate 512 97⟩
    (List.replicate 300 97) [40] [41] [98]
    (by decide) (by decide) (by decide) (by decide) (by decide) (by decide)
    (by decide) (by decide) (by decide) (by decide) (by decide) (by decide)
    (by decide) (by decide) (by decide) (by decide) (by decide) (by decide)
    (by decide) (by decide)
  exact ⟨hmain.1.2.2.1, by
      rw [hmain.1.2.2.2]
      decide,
    hmain.2.2.2.1, hmain.1.1⟩

set_option maxRecDepth 100000 in
/-- C1 counterexample: a Shared-heap value of current length 6 (count 2) is
concatenated with one-byte prefix and suffix.  The detach allocates a
medium-tier buffer without the 4-byte header, yet the value keeps its
`is_large_string` flag, so the "reference count" of the private buffer is
whatever the fresh allocation held - with uninitialised memory reading as 7
the count is 117901063, not the fresh count 1 the spec promises. -/
theorem shared_small_detach_junk_count :
    concatNewRef ⟨[some ⟨[2, 0, 0, 0] ++ List.replicate 512 97⟩], 7⟩
      ⟨true, true, 8, 6, 9, List.replicate 15 0, 15⟩
      ⟨false, false, 0, 0, 0, 40 :: List.replicate 14 0, 14⟩
      ⟨false, false, 0, 0, 0, 41 :: List.replicate 14 0, 14⟩
      = some (some 117901063) ∧ ((117901063 : Int) = 1 → False) := by
  refine ⟨by decide, by decide⟩
